import Mathlib

/-!
# liblightgrep: bytecode VM, instruction builders and program serialisation

A shallow embedding of `src/src/vm.cpp`, `src/src/instructions.cpp` and
`src/src/lib/program.cpp`.

Conventions of the embedding

* `uint64`/`uint32` values are natural numbers; where the source computes with
  wrap-around the embedding reduces modulo the width explicitly.
* A pointer into the program (`Thread::PC`) is `Option Nat`: `none` is the null
  pointer, `some i` is `base + i`.
* A `ThreadList::iterator` is an index into the list.
* Code that the C++ standard leaves undefined (reading outside a vector,
  dereferencing null) yields `Fault.undefined`; a loop of the embedding that used up
  its budget yields `Fault.fuel`.
* The hit callback is a list of hits, `collect` appends at the end.
-/

namespace Lightgrep

/-! ## Data model -/

/-- Faults of an execution: `undefined` is undefined behaviour of the source,
`fuel` is an exhausted loop budget of the embedding. -/
inductive Fault where
  | undefined
  | fuel
  deriving DecidableEq

/-- Error thrown by the instruction builders (`std::overflow_error`). -/
inductive BuildError where
  | overflow
  deriving DecidableEq

/-- The sentinel `std::numeric_limits<uint64>::max()` (vm.cpp:8). -/
def UNALLOCATED : Nat := 2 ^ 64 - 1

/-- Subtraction of two `uint64` values as the machine computes it. -/
def sub64 (a b : Nat) : Nat := (a + 2 ^ 64 - b) % 2 ^ 64

/-- Modelled from the spec: the opcode enumeration of instructions.h is absent;
the numbering follows the order in which the spec lists the opcodes, and only
the distinctness of the codes is used. -/
abbrev LIT_OP : Nat := 0
/-- Modelled from the spec: see `LIT_OP`. -/
abbrev EITHER_OP : Nat := 1
/-- Modelled from the spec: see `LIT_OP`. -/
abbrev RANGE_OP : Nat := 2
/-- Modelled from the spec: see `LIT_OP`. -/
abbrev BIT_VECTOR_OP : Nat := 3
/-- Modelled from the spec: see `LIT_OP`. -/
abbrev JUMP_TABLE_OP : Nat := 4
/-- Modelled from the spec: see `LIT_OP`. -/
abbrev JUMP_TABLE_RANGE_OP : Nat := 5
/-- Modelled from the spec: see `LIT_OP`. -/
abbrev JUMP_OP : Nat := 6
/-- Modelled from the spec: see `LIT_OP`. -/
abbrev FORK_OP : Nat := 7
/-- Modelled from the spec: see `LIT_OP`. -/
abbrev CHECK_HALT_OP : Nat := 8
/-- Modelled from the spec: see `LIT_OP`. -/
abbrev CHECK_BRANCH_OP : Nat := 9
/-- Modelled from the spec: see `LIT_OP`. -/
abbrev MATCH_OP : Nat := 10
/-- Modelled from the spec: see `LIT_OP`. -/
abbrev SAVE_LABEL_OP : Nat := 11
/-- Modelled from the spec: see `LIT_OP`. -/
abbrev HALT_OP : Nat := 12

/-- Modelled from the spec: the record of instructions.h is absent. An
instruction is a 6-bit `OpCode`, a 2-bit `Size` and a 24-bit operand `Op`; the
operand is a union, so `Op` holds its three raw bytes (little-endian) and the
members `Literal`, `Range` and `Offset` are views of them. -/
structure Instruction where
  OpCode : Nat
  Size : Nat
  Op : Nat
  deriving DecidableEq

/-- Union member `Op.Literal`: the first operand byte. -/
def Instruction.Literal (i : Instruction) : Nat := i.Op % 256

/-- Union member `Op.Range.First`: the first operand byte. -/
def Instruction.RangeFirst (i : Instruction) : Nat := i.Op % 256

/-- Union member `Op.Range.Last`: the second operand byte. -/
def Instruction.RangeLast (i : Instruction) : Nat := i.Op / 256 % 256

/-- Union member `Op.Offset`: the 24-bit operand. -/
def Instruction.Offset (i : Instruction) : Nat := i.Op % 2 ^ 24

/-- The field widths of an instruction record. -/
def Instruction.WellFormed (i : Instruction) : Prop :=
  i.OpCode < 64 ∧ i.Size < 4 ∧ i.Op < 2 ^ 24

/-- Modelled from the spec: the Program class of program.h is absent. A program
is a vector of instructions with the header fields `NumChecked` (uint32) and
`First` (a 256-bit set, held as the number whose bit `b` tells whether byte `b`
is in the set). -/
structure Program where
  NumChecked : Nat
  First : Nat
  body : List Instruction
  deriving DecidableEq

/-- The field widths of a program: what the C++ types guarantee. -/
def Program.WellFormed (p : Program) : Prop :=
  p.NumChecked < 2 ^ 32 ∧ p.First < 2 ^ 256 ∧ ∀ i ∈ p.body, i.WellFormed

/-- Modelled from the spec: the Thread record of vm.h is absent. -/
structure Thread where
  PC : Option Nat
  Label : Nat
  Start : Nat
  End : Nat
  deriving DecidableEq

/-- The record handed to the hit callback. -/
structure SearchHit where
  Offset : Nat
  Length : Nat
  Label : Nat
  deriving DecidableEq

/-- The mutable state of a `Vm`. -/
structure Vm where
  Prog : Program
  Active : List Thread
  Next : List Thread
  Matches : List (Nat × Nat)
  CheckStates : List Bool
  deriving DecidableEq

/-! ## instructions.cpp -/

/-- `Instruction::makeLit` (instructions.cpp:42); the operand bytes the source
leaves unwritten are taken as zero. -/
def Instruction.makeLit (b : Nat) : Instruction :=
  { OpCode := LIT_OP, Size := 0, Op := b % 256 }

/-- `Instruction::makeEither` (instructions.cpp:50). -/
def Instruction.makeEither (one two : Nat) : Instruction :=
  { OpCode := EITHER_OP, Size := 0, Op := one % 256 + 256 * (two % 256) }

/-- `Instruction::makeJump` (instructions.cpp:59): throws when the offset does
not fit 24 bits, otherwise stores it in the 24-bit field. -/
def Instruction.makeJump (relativeOffset : Nat) : Except BuildError Instruction :=
  if relativeOffset ≥ 1 <<< 24 then
    .error .overflow
  else
    .ok { OpCode := JUMP_OP, Size := 0, Op := relativeOffset % 2 ^ 24 }

/-- `Instruction::makeMatch` (instructions.cpp:72); the operand is left
unwritten by the source and taken as zero. -/
def Instruction.makeMatch : Instruction :=
  { OpCode := MATCH_OP, Size := 0, Op := 0 }

/-- `Instruction::makeSaveLabel` (instructions.cpp:79). -/
def Instruction.makeSaveLabel (label : Nat) : Except BuildError Instruction :=
  match Instruction.makeJump label with
  | .error e => .error e
  | .ok i => .ok { i with OpCode := SAVE_LABEL_OP }

/-! ## program.cpp -/

/-- The `k` low bytes of `n`, least significant first: what `write` emits for a
`k`-byte integer on a little-endian host. -/
def leBytes : Nat → Nat → List Nat
  | 0, _ => []
  | k + 1, n => n % 256 :: leBytes k (n / 256)

/-- The integer whose little-endian bytes are given: what `read` stores into a
zeroed integer; a short list fills the low bytes only. -/
def ofLeBytes : List Nat → Nat
  | [] => 0
  | b :: bs => b % 256 + 256 * ofLeBytes bs

/-- Modelled from the spec: the raw bytes of one instruction record (4 bytes:
opcode and size packed in the first, then the three operand bytes). -/
def Instruction.toBytes (i : Instruction) : List Nat :=
  (i.OpCode % 64 + 64 * (i.Size % 4)) :: leBytes 3 i.Op

/-- Modelled from the spec: the instruction whose raw bytes are given. -/
def Instruction.ofBytes (b0 b1 b2 b3 : Nat) : Instruction :=
  { OpCode := b0 % 64, Size := b0 / 64 % 4, Op := ofLeBytes [b1, b2, b3] }

/-- `std::equal(first1, last1, first2)` on instruction ranges: walks the left
range and reads the right one at the same positions; reading past the end of
the right range is undefined. -/
def stdEqual : List Instruction → List Instruction → Except Fault Bool
  | [], _ => .ok true
  | _ :: _, [] => .error .undefined
  | a :: as, b :: bs => if a = b then stdEqual as bs else .ok false

/-- `Program::operator==` (program.cpp:6), with the short-circuit of `&&`. -/
def Program.operator_eq (p rhs : Program) : Except Fault Bool :=
  if p.NumChecked = rhs.NumChecked then
    if p.First = rhs.First then stdEqual p.body rhs.body else .ok false
  else .ok false

/-- `Program::marshall` (program.cpp:10). -/
def Program.marshall (p : Program) : List Nat :=
  leBytes 4 p.NumChecked ++ leBytes 32 p.First ++ (p.body.map Instruction.toBytes).flatten

/-- The loop `while (buf.read((char*)&i, sizeof(Instruction))) push_back(i)`
of `unmarshall`: a read succeeds exactly when a whole record is left. -/
def readInstructions : List Nat → List Instruction
  | b0 :: b1 :: b2 :: b3 :: rest => Instruction.ofBytes b0 b1 b2 b3 :: readInstructions rest
  | _ => []

/-- `Program::unmarshall` (program.cpp:23). A read that finds too few bytes
stores what is there and fails the stream, so every later read stores nothing;
a new Program is taken to have zeroed header fields. -/
def Program.unmarshall (s : List Nat) : Program :=
  { NumChecked := ofLeBytes (s.take 4),
    First := ofLeBytes ((s.drop 4).take 32),
    body := readInstructions (s.drop 36) }

/-! ## vm.cpp: initialisation -/

/-- `std::vector::resize(n)` with the value given to new slots. -/
def resize {α : Type} (l : List α) (n : Nat) (d : α) : List α :=
  l.take n ++ List.replicate (n - l.length) d

/-- The scan loop of `Vm::init` (vm.cpp:49-56): one instruction's effect on
`(numPatterns, numCheckedStates)`. -/
def initStep (acc : Nat × Nat) (i : Instruction) : Nat × Nat :=
  let numPatterns :=
    if i.OpCode = MATCH_OP ∧ acc.1 < i.Offset then i.Offset else acc.1
  let numCheckedStates :=
    if i.OpCode = CHECK_BRANCH_OP ∨ i.OpCode = CHECK_HALT_OP then max acc.2 i.Offset else acc.2
  (numPatterns, numCheckedStates)

/-- `Vm::reset` (vm.cpp:64). -/
def Vm.reset (vm : Vm) : Vm :=
  { vm with
    Active := [],
    Next := [],
    CheckStates := List.replicate vm.CheckStates.length false,
    Matches := List.replicate vm.Matches.length (UNALLOCATED, 0) }

/-- `Vm::init` (vm.cpp:42). The two thread pools are re-sized to the program
length and then cleared by `reset`; their size is `Vm.poolSize`. The steps of this section leave the size out; the
section on pools of fixed size has the steps with it. -/
def Vm.init (vm : Vm) (prog : Program) : Vm :=
  let scan := prog.body.foldl initStep (0, 0)
  let numPatterns := (scan.1 + 1) % 2 ^ 32
  let numCheckedStates := (scan.2 + 2) % 2 ^ 32
  Vm.reset
    { vm with
      Prog := prog,
      Matches := resize vm.Matches numPatterns (0, 0),
      CheckStates := resize vm.CheckStates numCheckedStates false }

/-- The default-constructed `Vm` (vm.cpp:34) before any `init`. -/
def Vm.empty : Vm :=
  { Prog := { NumChecked := 0, First := 0, body := [] },
    Active := [], Next := [], Matches := [], CheckStates := [] }

/-- The constructor `Vm::Vm(ProgramPtr)` (vm.cpp:36). -/
def Vm.new (prog : Program) : Vm := Vm.init Vm.empty prog

/-! ## vm.cpp: threads -/

/-- Modelled from the spec: `Thread::init(base, offset)` sets PC to program[0],
Label to 0, Start to offset and End to UNALLOCATED. -/
def Thread.init (offset : Nat) : Thread :=
  { PC := some 0, Label := 0, Start := offset, End := UNALLOCATED }

/-- Modelled from the spec: `Thread::advance()` moves PC past the instruction
and the `Size` payload words that follow it. -/
def Thread.advance (t : Thread) (instr : Instruction) : Thread :=
  { t with PC := t.PC.map (fun pc => pc + 1 + instr.Size) }

/-- Modelled from the spec: `Thread::jump(base, off)` sets PC to `base + off`;
`base` is given as an index. -/
def Thread.jump (t : Thread) (base off : Nat) : Thread :=
  { t with PC := some (base + off) }

/-- Modelled from the spec: `Thread::fork(parent, base, off)` copies the parent
and jumps the copy. -/
def Thread.fork (parent : Thread) (base off : Nat) : Thread :=
  Thread.jump parent base off

/-- The read `*t.PC`. -/
def fetch (prog : List Instruction) (pc : Option Nat) : Except Fault Instruction :=
  match pc with
  | none => .error .undefined
  | some i =>
    match prog[i]? with
    | some instr => .ok instr
    | none => .error .undefined

/-- The 256-bit set that `reinterpret_cast<const ByteSet*>(t.PC + 1)` denotes:
the raw bytes of the eight instruction slots from index `i` on. -/
def byteSetAt (prog : List Instruction) (i : Nat) : Except Fault Nat :=
  let slots := (prog.drop i).take 8
  if slots.length = 8 then .ok (ofLeBytes (slots.map Instruction.toBytes).flatten)
  else .error .undefined

/-- `Vm::_execute` (vm.cpp:71): the thread after the step and the returned flag. -/
def _execute (prog : List Instruction) (t : Thread) (cur : Nat) : Except Fault (Bool × Thread) :=
  match fetch prog t.PC with
  | .error e => .error e
  | .ok instr =>
    let pc := t.PC.getD 0
    let dead : Bool × Thread := (false, { t with PC := none })
    if instr.OpCode = LIT_OP then
      if cur = instr.Literal then .ok (true, t.advance instr) else .ok dead
    else if instr.OpCode = EITHER_OP then
      if cur = instr.RangeFirst ∨ cur = instr.RangeLast then .ok (true, t.advance instr)
      else .ok dead
    else if instr.OpCode = RANGE_OP then
      if instr.RangeFirst ≤ cur ∧ cur ≤ instr.RangeLast then .ok (true, t.advance instr)
      else .ok dead
    else if instr.OpCode = BIT_VECTOR_OP then
      match byteSetAt prog (pc + 1) with
      | .error e => .error e
      | .ok set => if set.testBit cur then .ok (true, t.advance instr) else .ok dead
    else if instr.OpCode = JUMP_TABLE_OP then
      let t1 := t.jump pc (1 + cur)
      match fetch prog t1.PC with
      | .error e => .error e
      | .ok target =>
        if target.OpCode ≠ HALT_OP then .ok (true, t1) else .ok (false, { t1 with PC := none })
    else if instr.OpCode = JUMP_TABLE_RANGE_OP then
      if instr.RangeFirst ≤ cur ∧ cur ≤ instr.RangeLast then
        let t1 := t.jump pc (1 + (cur - instr.RangeFirst))
        match fetch prog t1.PC with
        | .error e => .error e
        | .ok target =>
          if target.OpCode ≠ HALT_OP then .ok (true, t1) else .ok (false, { t1 with PC := none })
      else .ok dead
    else .ok dead

/-- `Vm::execute` (vm.cpp:188). -/
def Vm.execute (vm : Vm) (t : Thread) (cur : Nat) : Except Fault (Bool × Thread) :=
  _execute vm.Prog.body t cur

/-- The read `*threadIt`. -/
def Vm.threadAt (vm : Vm) (it : Nat) : Except Fault Thread :=
  match vm.Active[it]? with
  | some t => .ok t
  | none => .error .undefined

/-- The write through `*threadIt`. -/
def Vm.setThread (vm : Vm) (it : Nat) (t : Thread) : Vm :=
  { vm with Active := vm.Active.set it t }

/-- `Vm::_executeEpsilon` (vm.cpp:128) on the thread `*threadIt` of `Active`. -/
def _executeEpsilon (vm : Vm) (it : Nat) (offset : Nat) : Except Fault (Bool × Vm) :=
  match vm.threadAt it with
  | .error e => .error e
  | .ok t =>
    match fetch vm.Prog.body t.PC with
    | .error e => .error e
    | .ok instr =>
      if instr.OpCode = JUMP_OP then
        .ok (true, vm.setThread it (t.jump 0 instr.Offset))
      else if instr.OpCode = FORK_OP then
        let f := Thread.fork t 0 instr.Offset
        let vm1 := { vm with Active := vm.Active ++ [f] }
        .ok (true, vm1.setThread it (t.advance instr))
      else if instr.OpCode = CHECK_HALT_OP then
        match vm.CheckStates[instr.Offset]? with
        | none => .error .undefined
        | some true => .ok (false, vm.setThread it { t with PC := none })
        | some false =>
          let vm1 := { vm with CheckStates := (vm.CheckStates.set instr.Offset true).set 0 true }
          .ok (true, vm1.setThread it (t.advance instr))
      else if instr.OpCode = MATCH_OP then
        .ok (true, vm.setThread it (({ t with Label := instr.Offset, End := offset } : Thread).advance instr))
      else if instr.OpCode = HALT_OP then
        .ok (false, vm.setThread it { t with PC := none })
      else
        .ok (false, { vm with Next := vm.Next ++ [t] })

/-- `Vm::doMatch` (vm.cpp:201) for the thread `*threadIt`, of which only Label,
Start and End are read. -/
def doMatch (vm : Vm) (t : Thread) (hits : List SearchHit) :
    Except Fault (Vm × List SearchHit) :=
  match vm.Matches[t.Label]? with
  | none => .error .undefined
  | some lastHit =>
    if lastHit.1 = UNALLOCATED ∨ (lastHit.1 = t.Start ∧ lastHit.2 < t.End) then
      .ok ({ vm with Matches := vm.Matches.set t.Label (t.Start, t.End) }, hits)
    else if lastHit.2 ≤ t.Start then
      let hit : SearchHit :=
        { Offset := lastHit.1, Length := sub64 lastHit.2 lastHit.1, Label := t.Label }
      .ok ({ vm with Matches := vm.Matches.set t.Label (t.Start, t.End) }, hits ++ [hit])
    else
      .ok (vm, hits)

/-- `Vm::cleanup` (vm.cpp:218). -/
def Vm.cleanup (vm : Vm) : Except Fault Vm :=
  let vm1 := { vm with Active := vm.Next, Next := [] }
  match vm1.CheckStates[0]? with
  | none => .error .undefined
  | some true => .ok { vm1 with CheckStates := List.replicate vm1.CheckStates.length false }
  | some false => .ok vm1

/-! ## vm.cpp: frames and search -/

/-- The loop `while (_execute(*threadIt, cur)) ;` of `search` (vm.cpp:243, 260). -/
def executeLoop (prog : List Instruction) (cur : Nat) : Nat → Thread → Except Fault Thread
  | 0, _ => .error .fuel
  | fuel + 1, t =>
    match _execute prog t cur with
    | .error e => .error e
    | .ok (true, t1) => executeLoop prog cur fuel t1
    | .ok (false, t1) => .ok t1

/-- The loop `while (_executeEpsilon(base, *threadIt, offset)) ;`
(vm.cpp:168, 179, 284). -/
def epsilonLoop (it offset : Nat) : Nat → Vm → Except Fault Vm
  | 0, _ => .error .fuel
  | fuel + 1, vm =>
    match _executeEpsilon vm it offset with
    | .error e => .error e
    | .ok (true, vm1) => epsilonLoop it offset fuel vm1
    | .ok (false, vm1) => .ok vm1

/-- The test `if (threadIt->End == offset) doMatch(threadIt, hitFn);`. -/
def matchIfFresh (vm : Vm) (it offset : Nat) (hits : List SearchHit) :
    Except Fault (Vm × List SearchHit) :=
  match vm.threadAt it with
  | .error e => .error e
  | .ok t => if t.End = offset then doMatch vm t hits else .ok (vm, hits)

/-- What `search` does with one thread for one byte (vm.cpp:243-246, 260-263). -/
def searchThread (fuel : Nat) (vm : Vm) (it cur offset : Nat) (hits : List SearchHit) :
    Except Fault (Vm × List SearchHit) :=
  match vm.threadAt it with
  | .error e => .error e
  | .ok t =>
    match executeLoop vm.Prog.body cur fuel t with
    | .error e => .error e
    | .ok t1 => matchIfFresh (vm.setThread it t1) it offset hits

/-- The loop `while (threadIt != Active.end()) { ...; ++threadIt; }` of `search`
(vm.cpp:242). The first argument is the budget of this loop, `fuel` that of the
loops inside. -/
def searchWalk (fuel cur offset : Nat) :
    Nat → Vm → Nat → List SearchHit → Except Fault (Vm × Nat × List SearchHit)
  | 0, _, _, _ => .error .fuel
  | n + 1, vm, it, hits =>
    if it ≠ vm.Active.length then
      match searchThread fuel vm it cur offset hits with
      | .error e => .error e
      | .ok (vm1, hits1) => searchWalk fuel cur offset n vm1 (it + 1) hits1
    else .ok (vm, it, hits)

/-- The loop `do { ... } while (++threadIt != Active.end());` of `search`
(vm.cpp:259). -/
def searchDoWhile (fuel cur offset : Nat) :
    Nat → Vm → Nat → List SearchHit → Except Fault (Vm × Nat × List SearchHit)
  | 0, _, _, _ => .error .fuel
  | n + 1, vm, it, hits =>
    match searchThread fuel vm it cur offset hits with
    | .error e => .error e
    | .ok (vm1, hits1) =>
      if it + 1 ≠ vm1.Active.length then searchDoWhile fuel cur offset n vm1 (it + 1) hits1
      else .ok (vm1, it + 1, hits1)

/-- One turn of the per-byte loop of `search` (vm.cpp:241-280), without the
increment of `offset`. -/
def searchByte (fuel : Nat) (vm : Vm) (it cur offset : Nat) (hits : List SearchHit) :
    Except Fault (Vm × Nat × List SearchHit) :=
  match searchWalk fuel cur offset fuel vm it hits with
  | .error e => .error e
  | .ok (vm1, it1, hits1) =>
    let cold : Except Fault (Vm × Nat × List SearchHit) :=
      if vm1.Prog.First.testBit cur then
        searchDoWhile fuel cur offset fuel
          { vm1 with Active := vm1.Active ++ [Thread.init offset] } it1 hits1
      else .ok (vm1, it1, hits1)
    match cold with
    | .error e => .error e
    | .ok (vm2, it2, hits2) =>
      if it2 ≠ 0 then
        match vm2.cleanup with
        | .error e => .error e
        | .ok vm3 => .ok (vm3, 0, hits2)
      else .ok (vm2, it2, hits2)

/-- The per-byte loop `for (cur = beg; cur < end; ++cur)` of `search`; returns
the state, the iterator, the hits and the offset after the last byte. -/
def searchBytes (fuel : Nat) :
    List Nat → Vm → Nat → Nat → List SearchHit → Except Fault (Vm × Nat × List SearchHit × Nat)
  | [], vm, it, offset, hits => .ok (vm, it, hits, offset)
  | cur :: rest, vm, it, offset, hits =>
    match searchByte fuel vm it cur offset hits with
    | .error e => .error e
    | .ok (vm1, it1, hits1) => searchBytes fuel rest vm1 it1 ((offset + 1) % 2 ^ 64) hits1

/-- The closing loop over `Active` of `search` (vm.cpp:283-288). -/
def flushWalk (fuel offset : Nat) :
    Nat → Vm → Nat → List SearchHit → Except Fault (Vm × List SearchHit)
  | 0, _, _, _ => .error .fuel
  | n + 1, vm, it, hits =>
    if it ≠ vm.Active.length then
      match epsilonLoop it offset fuel vm with
      | .error e => .error e
      | .ok vm1 =>
        match matchIfFresh vm1 it offset hits with
        | .error e => .error e
        | .ok (vm2, hits2) => flushWalk fuel offset n vm2 (it + 1) hits2
    else .ok (vm, hits)

/-- The flush of the Matches table at the end of `search` (vm.cpp:289-297),
from slot `i` on. -/
def flushMatches : List (Nat × Nat) → Nat → List SearchHit → List (Nat × Nat) × List SearchHit
  | [], _, hits => ([], hits)
  | m :: ms, i, hits =>
    if m.1 < UNALLOCATED then
      let hit : SearchHit := { Offset := m.1, Length := sub64 m.2 m.1, Label := i }
      let r := flushMatches ms (i + 1) (hits ++ [hit])
      ((UNALLOCATED, 0) :: r.1, r.2)
    else
      let r := flushMatches ms (i + 1) hits
      (m :: r.1, r.2)

/-- `Vm::search` (vm.cpp:226): the returned flag, the state left behind and the
hits collected so far (those in `hits` first). -/
def Vm.search (fuel : Nat) (vm : Vm) (input : List Nat) (startOffset : Nat)
    (hits : List SearchHit) : Except Fault (Bool × Vm × List SearchHit) :=
  match searchBytes fuel input vm 0 (startOffset % 2 ^ 64) hits with
  | .error e => .error e
  | .ok (vm1, _, hits1, offset) =>
    match flushWalk fuel offset fuel vm1 0 hits1 with
    | .error e => .error e
    | .ok (vm2, hits2) =>
      let r := flushMatches vm2.Matches 0 hits2
      match Vm.cleanup { vm2 with Matches := r.1 } with
      | .error e => .error e
      | .ok vm3 => .ok (decide (vm3.Active.length > 0), vm3, r.2)

/-! ## vm.cpp: executeFrame -/

/-- What `_executeFrame` does with one thread (vm.cpp:167-172, 178-183): one
non-epsilon step and, if the thread survives it, the epsilon closure and the
test for a fresh match. -/
def frameThread (fuel : Nat) (vm : Vm) (it cur offset : Nat) (hits : List SearchHit) :
    Except Fault (Vm × List SearchHit) :=
  match vm.threadAt it with
  | .error e => .error e
  | .ok t =>
    match _execute vm.Prog.body t cur with
    | .error e => .error e
    | .ok (true, t1) =>
      match epsilonLoop it offset fuel (vm.setThread it t1) with
      | .error e => .error e
      | .ok vm1 => matchIfFresh vm1 it offset hits
    | .ok (false, t1) => .ok (vm.setThread it t1, hits)

/-- The loop `while (threadIt != Active.end()) { ...; ++threadIt; }` of
`_executeFrame` (vm.cpp:166). The first argument is the budget of this loop. -/
def frameWalk (fuel cur offset : Nat) :
    Nat → Vm → Nat → List SearchHit → Except Fault (Vm × Nat × List SearchHit)
  | 0, _, _, _ => .error .fuel
  | n + 1, vm, it, hits =>
    if it ≠ vm.Active.length then
      match frameThread fuel vm it cur offset hits with
      | .error e => .error e
      | .ok (vm1, hits1) => frameWalk fuel cur offset n vm1 (it + 1) hits1
    else .ok (vm, it, hits)

/-- The loop `do { ... } while (++threadIt != Active.end());` of `_executeFrame`
(vm.cpp:177). -/
def frameDoWhile (fuel cur offset : Nat) :
    Nat → Vm → Nat → List SearchHit → Except Fault (Vm × Nat × List SearchHit)
  | 0, _, _, _ => .error .fuel
  | n + 1, vm, it, hits =>
    match frameThread fuel vm it cur offset hits with
    | .error e => .error e
    | .ok (vm1, hits1) =>
      if it + 1 ≠ vm1.Active.length then frameDoWhile fuel cur offset n vm1 (it + 1) hits1
      else .ok (vm1, it + 1, hits1)

/-- `Vm::_executeFrame` (vm.cpp:165): the state, the iterator and the hits
afterwards. -/
def _executeFrame (fuel : Nat) (first : Nat) (vm : Vm) (it cur offset : Nat)
    (hits : List SearchHit) : Except Fault (Vm × Nat × List SearchHit) :=
  match frameWalk fuel cur offset fuel vm it hits with
  | .error e => .error e
  | .ok (vm1, it1, hits1) =>
    if first.testBit cur then
      frameDoWhile fuel cur offset fuel
        { vm1 with Active := vm1.Active ++ [Thread.init offset] } it1 hits1
    else .ok (vm1, it1, hits1)

/-- `Vm::executeFrame` (vm.cpp:196). -/
def Vm.executeFrame (fuel : Nat) (vm : Vm) (cur offset : Nat) (hits : List SearchHit) :
    Except Fault (Vm × List SearchHit) :=
  match _executeFrame fuel vm.Prog.First vm 0 cur offset hits with
  | .error e => .error e
  | .ok (vm1, _, hits1) => .ok (vm1, hits1)

/-- `Vm::executeEpsilon` (vm.cpp:192) on the thread `*threadIt` of `Active`. -/
def Vm.executeEpsilon (vm : Vm) (it offset : Nat) : Except Fault (Bool × Vm) :=
  _executeEpsilon vm it offset

/-! ## vectorfamily.h -/

/-- Failures of the `VectorFamily` operations: the two runtime errors they
throw, and undefined behaviour (an index outside a vector). -/
inductive VfFault where
  | notInList
  | outOfBounds
  | undefined
  deriving DecidableEq

/-- Tag `ZERO` of `WhichType` (vectorfamily.h:32). -/
abbrev ZERO : Nat := 0
/-- Tag `ONE` of `WhichType` (vectorfamily.h:33). -/
abbrev ONE : Nat := 1
/-- Tag `MANY` of `WhichType`, `ONE << 1` (vectorfamily.h:34). -/
abbrev MANY : Nat := 2

/-- `VectorFamily<T>::Holder` (vectorfamily.h:39), for an unsigned integer type
`T` wide enough for the values stored. -/
structure Holder where
  What : Nat
  Which : Nat
  deriving DecidableEq

/-- `VectorFamily<T>` (vectorfamily.h:27): its only member is `Store`. -/
structure VectorFamily where
  Store : List (List Nat)
  deriving DecidableEq

/-- `VectorFamily::size` (vectorfamily.h:53). -/
def VectorFamily.size (vf : VectorFamily) (l : Holder) : Except VfFault Nat :=
  if l.Which = ZERO then .ok 0
  else if l.Which = ONE then .ok 1
  else
    match vf.Store[l.What]? with
    | some v => .ok v.length
    | none => .error .undefined

/-- `VectorFamily::add` (vectorfamily.h:64). -/
def VectorFamily.add (vf : VectorFamily) (l : Holder) (e : Nat) :
    Except VfFault (VectorFamily × Holder) :=
  if l.Which = ZERO then .ok (vf, { What := e, Which := ONE })
  else if l.Which = ONE then
    let store := vf.Store ++ [[l.What, e]]
    .ok ({ Store := store }, { What := store.length - 1, Which := MANY })
  else
    match vf.Store[l.What]? with
    | some v => .ok ({ Store := vf.Store.set l.What (v ++ [e]) }, l)
    | none => .error .undefined

/-- `VectorFamily::remove` (vectorfamily.h:115). Every `throw` precedes the
first write, so a failure leaves the family and the holder as they were. -/
def VectorFamily.remove (vf : VectorFamily) (l : Holder) (e : Nat) :
    Except VfFault (VectorFamily × Holder) :=
  if l.Which = ZERO then .error .notInList
  else if l.Which = ONE then
    if l.What ≠ e then .error .notInList
    else .ok (vf, { l with Which := ZERO })
  else
    match vf.Store[l.What]? with
    | none => .error .undefined
    | some edlist =>
      if e ∈ edlist then
        let erased := edlist.erase e
        if erased.length = 1 then
          .ok ({ Store := vf.Store.set l.What [] }, { What := erased.headD 0, Which := ONE })
        else .ok ({ Store := vf.Store.set l.What erased }, l)
      else .error .notInList

/-- `VectorFamily::clear` (vectorfamily.h:148): `case MANY` has no `break` and
runs on into `case ONE`. -/
def VectorFamily.clear (vf : VectorFamily) (l : Holder) :
    Except VfFault (VectorFamily × Holder) :=
  if l.Which = MANY then
    match vf.Store[l.What]? with
    | none => .error .undefined
    | some _ => .ok ({ Store := vf.Store.set l.What [] }, { l with Which := ZERO })
  else if l.Which = ONE then .ok (vf, { l with Which := ZERO })
  else .ok (vf, l)

/-- `VectorFamily::at` (vectorfamily.h:157, 170). -/
def VectorFamily.at (vf : VectorFamily) (l : Holder) (i : Nat) : Except VfFault Nat :=
  if l.Which = ZERO then .error .outOfBounds
  else if l.Which = ONE then .ok l.What
  else
    match vf.Store[l.What]? with
    | none => .error .undefined
    | some v =>
      match v[i]? with
      | some x => .ok x
      | none => .error .undefined

/-- The list a holder stands for, from `begin(l)` to `end(l)`
(vectorfamily.h:205-245). -/
def VectorFamily.toList (vf : VectorFamily) (l : Holder) : Except VfFault (List Nat) :=
  if l.Which = ZERO then .ok []
  else if l.Which = ONE then .ok [l.What]
  else
    match vf.Store[l.What]? with
    | some v => .ok v
    | none => .error .undefined

/-- A holder of the family in one of its three states; in state MANY its
`What` is an index into `Store`. -/
def VectorFamily.Holds (vf : VectorFamily) (l : Holder) : Prop :=
  (l.Which = ZERO ∨ l.Which = ONE ∨ l.Which = MANY) ∧
    (l.Which = MANY → l.What < vf.Store.length)

/-- The program of scenario S1: `[LIT b, MATCH 0]` with `First = {b}`. -/
def litProgram (b : Nat) : Program :=
  { NumChecked := 0, First := 2 ^ b,
    body := [Instruction.makeLit b, Instruction.makeMatch] }

/-- The HALT instruction; instructions.cpp has no builder for it. -/
def haltInstruction : Instruction :=
  { OpCode := HALT_OP, Size := 0, Op := 0 }

/-- The program `[LIT b, MATCH 0, HALT]` with `First = {b}`: scenario S1 with a
closing HALT, so that the epsilon closure after MATCH stays inside the program. -/
def litHaltProgram (b : Nat) : Program :=
  { NumChecked := 0, First := 2 ^ b,
    body := [Instruction.makeLit b, Instruction.makeMatch, haltInstruction] }

/-- The program `[LIT a, CHECK_HALT 1, LIT b, MATCH 0, HALT]` with `First = {a}`. -/
def checkedProgram (a b : Nat) : Program :=
  { NumChecked := 1, First := 2 ^ a,
    body := [Instruction.makeLit a, { OpCode := CHECK_HALT_OP, Size := 0, Op := 1 },
      Instruction.makeLit b, Instruction.makeMatch, haltInstruction] }

/-! ## Notions used to state the properties -/

/-- The operands of the MATCH instructions of a program. -/
def Program.matchOffsets (p : Program) : List Nat :=
  (p.body.filter (fun i => decide (i.OpCode = MATCH_OP))).map Instruction.Offset

/-- The operands of the CHECK_HALT and CHECK_BRANCH instructions of a program. -/
def Program.checkOffsets (p : Program) : List Nat :=
  (p.body.filter
    (fun i => decide (i.OpCode = CHECK_BRANCH_OP ∨ i.OpCode = CHECK_HALT_OP))).map
    Instruction.Offset

/-- The number `m` is the greatest element of `l`, or 0 when `l` is empty. -/
def IsMaxOrZero (l : List Nat) (m : Nat) : Prop :=
  (∀ x ∈ l, x ≤ m) ∧ (m ∈ l ∨ m = 0)

/-- A sequence of `doMatch` calls, one for each thread of the list, in order. -/
def doMatchCalls : List Thread → Vm → List SearchHit → Except Fault (Vm × List SearchHit)
  | [], vm, hits => .ok (vm, hits)
  | t :: ts, vm, hits =>
    match doMatch vm t hits with
    | .error e => .error e
    | .ok (vm1, hits1) => doMatchCalls ts vm1 hits1

/-- A sequence of `doMatch` calls followed by the flush of the Matches table
that ends `search`; the hits delivered, in order. -/
def doMatchCallsThenFlush (ts : List Thread) (vm : Vm) : Except Fault (List SearchHit) :=
  match doMatchCalls ts vm [] with
  | .error e => .error e
  | .ok (vm1, hits) => .ok (flushMatches vm1.Matches 0 hits).2

/-- The hits of a list that carry the given label. -/
def hitsFor (label : Nat) (hits : List SearchHit) : List SearchHit :=
  hits.filter (fun h => decide (h.Label = label))

/-- Two calls of `search` on the same machine: `search(B1, 0)` and then
`search(B2, |B1|)`; the final state and all hits delivered, in order. -/
def searchSplit (fuel : Nat) (vm : Vm) (b1 b2 : List Nat) : Except Fault (Vm × List SearchHit) :=
  match vm.search fuel b1 0 [] with
  | .error e => .error e
  | .ok (_, vm1, hits1) =>
    match vm1.search fuel b2 b1.length hits1 with
    | .error e => .error e
    | .ok (_, vm2, hits2) => .ok (vm2, hits2)

/-- One call of `search` on the whole input; the final state and the hits. -/
def searchWhole (fuel : Nat) (vm : Vm) (b : List Nat) : Except Fault (Vm × List SearchHit) :=
  match vm.search fuel b 0 [] with
  | .error e => .error e
  | .ok (_, vm1, hits1) => .ok (vm1, hits1)

/-- A machine at rest: no thread in either pool and the dirty bit clear. This
is the state `init` and `reset` leave. -/
def Vm.Quiet (vm : Vm) : Prop :=
  vm.Active = [] ∧ vm.Next = [] ∧ vm.CheckStates[0]? = some false

/-- A machine as `init` and `reset` leave it: at rest, with every Matches slot
UNALLOCATED. -/
def Vm.Fresh (vm : Vm) : Prop :=
  vm.Quiet ∧ ∀ m ∈ vm.Matches, m.1 = UNALLOCATED

/-- Hits in the order of delivery do not overlap: each one starts at or after
the end of every earlier one. -/
def NonOverlapping (hits : List SearchHit) : Prop :=
  hits.Pairwise (fun a b => a.Offset + a.Length ≤ b.Offset)

/-- The effect of one `doMatch` call seen from the slot of its label: the slot
afterwards and the hits handed to the callback. A device of the proofs; that
`doMatch` acts so is `doMatch_slotRule`. -/
def slotRule (label : Nat) (slot : Nat × Nat) (t : Thread) : (Nat × Nat) × List SearchHit :=
  if slot.1 = UNALLOCATED ∨ (slot.1 = t.Start ∧ slot.2 < t.End) then ((t.Start, t.End), [])
  else if slot.2 ≤ t.Start then
    ((t.Start, t.End), [{ Offset := slot.1, Length := sub64 slot.2 slot.1, Label := label }])
  else (slot, [])

/-- The hit that the flush at the end of `search` delivers for a slot. -/
def slotFlush (label : Nat) (slot : Nat × Nat) : List SearchHit :=
  if slot.1 < UNALLOCATED then
    [{ Offset := slot.1, Length := sub64 slot.2 slot.1, Label := label }]
  else []

/-- The hits of a label for a sequence of `doMatch` calls followed by the
flush, seen from the slot of the label. -/
def slotRun (label : Nat) : Nat × Nat → List Thread → List SearchHit
  | slot, [] => slotFlush label slot
  | slot, t :: ts => (slotRule label slot t).2 ++ slotRun label (slotRule label slot t).1 ts

/-- The span `[Offset, Offset + Length)` of a hit lies strictly inside the span
`[Start, End)` of a candidate: inside it and not equal to it. -/
def StrictlyInside (h : SearchHit) (t : Thread) : Prop :=
  t.Start ≤ h.Offset ∧ h.Offset + h.Length ≤ t.End ∧
    (t.Start < h.Offset ∨ h.Offset + h.Length < t.End)

/-- Two candidates overlap: each starts before the other ends. -/
def Overlap (a b : Thread) : Prop :=
  a.Start < b.End ∧ b.Start < a.End

/-- A machine with the one-instruction program `[SAVE_LABEL 0]` and one thread
at that instruction. -/
def saveLabelVm : Vm :=
  { Vm.new { NumChecked := 0, First := 0,
             body := [{ OpCode := SAVE_LABEL_OP, Size := 0, Op := 0 }] } with
    Active := [Thread.init 0] }

/-- A program on which the loop `while (_execute(...)) ;` of `search` cannot step
a thread past the last instruction: it is not empty, every instruction is a
single word (Size 0) and none is BIT_VECTOR, JUMP_TABLE or JUMP_TABLE_RANGE, and
the last instruction is not one of the consuming LIT, EITHER, RANGE. -/
def Program.StaysInside (p : Program) : Prop :=
  p.body ≠ [] ∧
  (∀ i ∈ p.body, i.Size = 0 ∧ i.OpCode ≠ BIT_VECTOR_OP ∧ i.OpCode ≠ JUMP_TABLE_OP ∧
    i.OpCode ≠ JUMP_TABLE_RANGE_OP) ∧
  (∀ i, p.body.getLast? = some i →
    i.OpCode ≠ LIT_OP ∧ i.OpCode ≠ EITHER_OP ∧ i.OpCode ≠ RANGE_OP)

/-- A machine with the program `[LIT a, CHECK_HALT 1, LIT b, MATCH 0, HALT]` and
one thread at the CHECK_HALT instruction. -/
def checkHaltVm : Vm :=
  { Vm.new (checkedProgram 97 98) with Active := [⟨some 1, 0, 0, UNALLOCATED⟩] }

/-- Every start offset the machine and the delivered hits carry satisfies `Q`:
the Start of every thread of `Active` and `Next`, the first component of every
Matches slot that is not UNALLOCATED, and the Offset of every hit. -/
def StartsIn (Q : Nat → Prop) (vm : Vm) (hits : List SearchHit) : Prop :=
  (∀ t ∈ vm.Active, Q t.Start) ∧ (∀ t ∈ vm.Next, Q t.Start) ∧
  (∀ m ∈ vm.Matches, m.1 = UNALLOCATED ∨ Q m.1) ∧ (∀ h ∈ hits, Q h.Offset)

/-- The epsilon successor relation of a program: JUMP leads to its target, FORK
to its target and to the next instruction, CHECK_HALT and MATCH to the next
instruction. -/
def epsSucc (prog : List Instruction) (i j : Nat) : Prop :=
  ∃ instr, prog[i]? = some instr ∧
    ((instr.OpCode = JUMP_OP ∧ j = instr.Offset) ∨
      (instr.OpCode = FORK_OP ∧ (j = instr.Offset ∨ j = i + 1 + instr.Size)) ∨
      (instr.OpCode = CHECK_HALT_OP ∧ j = i + 1 + instr.Size) ∨
      (instr.OpCode = MATCH_OP ∧ j = i + 1 + instr.Size))

/-- The instruction at `i` is a CHECK_HALT with id at least 1. -/
def CheckNode (prog : List Instruction) (i : Nat) : Prop :=
  ∃ instr, prog[i]? = some instr ∧ instr.OpCode = CHECK_HALT_OP ∧ 1 ≤ instr.Offset

/-- An epsilon step that does not leave a CHECK_HALT with id at least 1. -/
def freeStep (prog : List Instruction) (i j : Nat) : Prop :=
  epsSucc prog i j ∧ ¬CheckNode prog i

/-- Every cycle of the epsilon successor relation passes through a CHECK_HALT
with id at least 1: no cycle is made of steps that all leave other instructions. -/
def CheckCovered (prog : List Instruction) : Prop :=
  ∀ i, ¬Relation.TransGen (freeStep prog) i i

/-- The offsets the epsilon steps use are valid: every epsilon successor is an
index into the program, and every CHECK_HALT id an index into `CheckStates`. -/
def EpsilonValid (vm : Vm) : Prop :=
  (∀ i j, epsSucc vm.Prog.body i j → j < vm.Prog.body.length) ∧
  (∀ instr ∈ vm.Prog.body, instr.OpCode = CHECK_HALT_OP →
    instr.Offset < vm.CheckStates.length)

/-- A machine with the program `[JUMP 0]` and one thread at that instruction. -/
def selfJumpVm : Vm :=
  { Vm.new { NumChecked := 0, First := 0, body := [{ OpCode := JUMP_OP, Size := 0, Op := 0 }] } with
    Active := [Thread.init 0] }

/-- The program `[LIT a, FORK 0, HALT]` with `First = {a}`: its only epsilon
steps lead from the FORK to the two other instructions. -/
def forkBackProgram (a : Nat) : Program :=
  { NumChecked := 0, First := 2 ^ a,
    body := [Instruction.makeLit a, { OpCode := FORK_OP, Size := 0, Op := 0 }, haltInstruction] }

/-- The closure loop `while (_executeEpsilon(...)) ;` on the thread `*threadIt`,
whose PC is `i`, ends within `N` steps: no loop budget of `N` or more runs out,
it appends at most `N` threads to `Active`, and where the offsets are valid
and `i` is an index into the program it returns. -/
def ClosureWithin (N : Nat) (vm : Vm) (it offset i : Nat) : Prop :=
  ∀ fuel, N ≤ fuel →
    epsilonLoop it offset fuel vm ≠ .error .fuel ∧
    (∀ vm1, epsilonLoop it offset fuel vm = .ok vm1 →
      vm1.Active.length ≤ vm.Active.length + N) ∧
    (EpsilonValid vm → i < vm.Prog.body.length →
      ∃ vm1, epsilonLoop it offset fuel vm = .ok vm1)

/-- A machine with the program `[LIT 'a', FORK 0, HALT]` whose `Active` holds the
threads `pre` followed by one thread at instruction 0 with Start 0. -/
def forkBackVm (pre : List Thread) : Vm :=
  { Vm.new (forkBackProgram 97) with Active := pre ++ [Thread.init 0] }

/-- The program `[LIT a, CHECK_HALT 1, FORK 0, HALT]` with `First = {a}`: the
program of `forkBackProgram` with a CHECK_HALT in its loop. -/
def checkedForkProgram (a : Nat) : Program :=
  { NumChecked := 1, First := 2 ^ a,
    body := [Instruction.makeLit a, { OpCode := CHECK_HALT_OP, Size := 0, Op := 1 },
      { OpCode := FORK_OP, Size := 0, Op := 0 }, haltInstruction] }

/-- A machine with the program `[LIT 'a', CHECK_HALT 1, FORK 0, HALT]` and one
thread at the CHECK_HALT. -/
def checkedForkVm : Vm :=
  { Vm.new (checkedForkProgram 97) with Active := [⟨some 1, 0, 0, UNALLOCATED⟩] }

/-- Every thread of the pool `A` is still at its index in `A1`, with the Start
it had. -/
def StartsKept (A A1 : List Thread) : Prop :=
  ∀ (i : Nat) (t : Thread), A[i]? = some t → ∃ t1 : Thread, A1[i]? = some t1 ∧ t1.Start = t.Start

/-- A machine with the program `[LIT 'a', MATCH 0, HALT]` and one thread at the
LIT that started at offset 3. -/
def startedVm : Vm :=
  { Vm.new (litHaltProgram 97) with Active := [⟨some 0, 0, 3, UNALLOCATED⟩] }

/-! ## vm.cpp: thread pools of fixed size -/

/-- Modelled from the spec: `ThreadList` is a pre-sized buffer with an insertion
index. `Vm::init` sizes `Active` and `Next` to `Prog->size()` (vm.cpp:44-45) and
nothing re-sizes them afterwards, so the size of both pools of a machine is the
length of its program. -/
def Vm.poolSize (vm : Vm) : Nat := vm.Prog.body.length

/-- Modelled from the spec: `push_back` and `addBack` on a pool of `cap` slots;
on a full pool they write past the buffer. -/
def pushBack (cap : Nat) (pool : List Thread) (t : Thread) : Except Fault (List Thread) :=
  if pool.length < cap then .ok (pool ++ [t]) else .error .undefined

/-- `Vm::_executeEpsilon` (vm.cpp:128) on pools of fixed size: `_executeEpsilon`
with the `push_back` of FORK and of the default case through `pushBack`. -/
def _executeEpsilonPool (vm : Vm) (it : Nat) (offset : Nat) : Except Fault (Bool × Vm) :=
  match vm.threadAt it with
  | .error e => .error e
  | .ok t =>
    match fetch vm.Prog.body t.PC with
    | .error e => .error e
    | .ok instr =>
      if instr.OpCode = JUMP_OP then
        .ok (true, vm.setThread it (t.jump 0 instr.Offset))
      else if instr.OpCode = FORK_OP then
        match pushBack vm.poolSize vm.Active (Thread.fork t 0 instr.Offset) with
        | .error e => .error e
        | .ok active =>
          let vm1 := { vm with Active := active }
          .ok (true, vm1.setThread it (t.advance instr))
      else if instr.OpCode = CHECK_HALT_OP then
        match vm.CheckStates[instr.Offset]? with
        | none => .error .undefined
        | some true => .ok (false, vm.setThread it { t with PC := none })
        | some false =>
          let vm1 := { vm with CheckStates := (vm.CheckStates.set instr.Offset true).set 0 true }
          .ok (true, vm1.setThread it (t.advance instr))
      else if instr.OpCode = MATCH_OP then
        .ok (true, vm.setThread it (({ t with Label := instr.Offset, End := offset } : Thread).advance instr))
      else if instr.OpCode = HALT_OP then
        .ok (false, vm.setThread it { t with PC := none })
      else
        match pushBack vm.poolSize vm.Next t with
        | .error e => .error e
        | .ok next => .ok (false, { vm with Next := next })

/-- The loop `while (_executeEpsilon(base, *threadIt, offset)) ;` on pools of
fixed size. -/
def epsilonLoopPool (it offset : Nat) : Nat → Vm → Except Fault Vm
  | 0, _ => .error .fuel
  | fuel + 1, vm =>
    match _executeEpsilonPool vm it offset with
    | .error e => .error e
    | .ok (true, vm1) => epsilonLoopPool it offset fuel vm1
    | .ok (false, vm1) => .ok vm1

/-- What `_executeFrame` does with one thread (vm.cpp:167-172, 178-183), on pools
of fixed size. -/
def frameThreadPool (fuel : Nat) (vm : Vm) (it cur offset : Nat) (hits : List SearchHit) :
    Except Fault (Vm × List SearchHit) :=
  match vm.threadAt it with
  | .error e => .error e
  | .ok t =>
    match _execute vm.Prog.body t cur with
    | .error e => .error e
    | .ok (true, t1) =>
      match epsilonLoopPool it offset fuel (vm.setThread it t1) with
      | .error e => .error e
      | .ok vm1 => matchIfFresh vm1 it offset hits
    | .ok (false, t1) => .ok (vm.setThread it t1, hits)

/-- The loop `while (threadIt != Active.end()) { ...; ++threadIt; }` of
`_executeFrame` (vm.cpp:166), on pools of fixed size. -/
def frameWalkPool (fuel cur offset : Nat) :
    Nat → Vm → Nat → List SearchHit → Except Fault (Vm × Nat × List SearchHit)
  | 0, _, _, _ => .error .fuel
  | n + 1, vm, it, hits =>
    if it ≠ vm.Active.length then
      match frameThreadPool fuel vm it cur offset hits with
      | .error e => .error e
      | .ok (vm1, hits1) => frameWalkPool fuel cur offset n vm1 (it + 1) hits1
    else .ok (vm, it, hits)

/-- The loop `do { ... } while (++threadIt != Active.end());` of `_executeFrame`
(vm.cpp:177), on pools of fixed size. -/
def frameDoWhilePool (fuel cur offset : Nat) :
    Nat → Vm → Nat → List SearchHit → Except Fault (Vm × Nat × List SearchHit)
  | 0, _, _, _ => .error .fuel
  | n + 1, vm, it, hits =>
    match frameThreadPool fuel vm it cur offset hits with
    | .error e => .error e
    | .ok (vm1, hits1) =>
      if it + 1 ≠ vm1.Active.length then frameDoWhilePool fuel cur offset n vm1 (it + 1) hits1
      else .ok (vm1, it + 1, hits1)

/-- `Vm::_executeFrame` (vm.cpp:165) on pools of fixed size: the cold start
`Active.addBack().init(base, offset)` goes through `pushBack`. -/
def _executeFramePool (fuel : Nat) (first : Nat) (vm : Vm) (it cur offset : Nat)
    (hits : List SearchHit) : Except Fault (Vm × Nat × List SearchHit) :=
  match frameWalkPool fuel cur offset fuel vm it hits with
  | .error e => .error e
  | .ok (vm1, it1, hits1) =>
    if first.testBit cur then
      match pushBack vm1.poolSize vm1.Active (Thread.init offset) with
      | .error e => .error e
      | .ok active =>
        frameDoWhilePool fuel cur offset fuel { vm1 with Active := active } it1 hits1
    else .ok (vm1, it1, hits1)

/-- `Vm::executeFrame` (vm.cpp:196) on pools of fixed size. -/
def Vm.executeFramePool (fuel : Nat) (vm : Vm) (cur offset : Nat) (hits : List SearchHit) :
    Except Fault (Vm × List SearchHit) :=
  match _executeFramePool fuel vm.Prog.First vm 0 cur offset hits with
  | .error e => .error e
  | .ok (vm1, _, hits1) => .ok (vm1, hits1)

/-- The step from `vm` to `vm1` keeps the program and removes no thread from
either pool. -/
def Grows (vm vm1 : Vm) : Prop :=
  vm1.Prog = vm.Prog ∧ vm.Active.length ≤ vm1.Active.length ∧ vm.Next.length ≤ vm1.Next.length

/-- The pools of `vm1` hold no more threads than those of `vm` did or than the
pools have slots: no push between `vm` and `vm1` went onto a full pool. -/
def Fits (vm vm1 : Vm) : Prop :=
  vm1.Active.length ≤ max vm.Active.length vm.poolSize ∧
    vm1.Next.length ≤ max vm.Next.length vm.poolSize

/-- How a run on pools of fixed size relates to the run on unbounded pools: it
has the same result when that result fits the pools, and writes past a pool
when it does not fit or before the unbounded run ends. -/
def PoolSim {α : Type} (proj : α → Vm) (vm : Vm) (unb pooled : Except Fault α) : Prop :=
  match unb with
  | .ok r =>
    Grows vm (proj r) ∧
      ((Fits vm (proj r) ∧ pooled = .ok r) ∨ (¬Fits vm (proj r) ∧ pooled = .error .undefined))
  | .error .undefined => pooled = .error .undefined
  | .error .fuel => pooled = .error .fuel ∨ pooled = .error .undefined

/-! ## Serialisation lemmas -/

theorem length_leBytes (k n : Nat) : (leBytes k n).length = k := by
  induction k generalizing n with
  | zero => rfl
  | succ k ih => simp [leBytes, ih]

theorem ofLeBytes_leBytes (k n : Nat) : ofLeBytes (leBytes k n) = n % 256 ^ k := by
  induction k generalizing n with
  | zero => simp [leBytes, ofLeBytes, Nat.mod_one]
  | succ k ih =>
    simp only [leBytes, ofLeBytes, ih, Nat.mod_mod]
    rw [pow_succ', Nat.mod_mul]

theorem ofBytes_toBytes (i : Instruction) (h : i.WellFormed) (rest : List Nat) :
    readInstructions (i.toBytes ++ rest) = i :: readInstructions rest := by
  obtain ⟨h1, h2, h3⟩ := h
  cases i with
  | mk oc sz op =>
    simp only [Instruction.toBytes, leBytes, List.cons_append, List.nil_append, readInstructions,
      Instruction.ofBytes, ofLeBytes, List.cons.injEq, Instruction.mk.injEq, and_true]
    simp only at h1 h2 h3
    norm_num at h3
    refine ⟨⟨?_, ?_, ?_⟩, rfl⟩ <;> omega

theorem readInstructions_short (t : List Nat) (h : t.length < 4) : readInstructions t = [] := by
  match t, h with
  | [], _ => rfl
  | [_], _ => rfl
  | [_, _], _ => rfl
  | [_, _, _], _ => rfl
  | _ :: _ :: _ :: _ :: _, h => simp at h; omega

theorem readInstructions_records (body : List Instruction) (h : ∀ i ∈ body, i.WellFormed)
    (t : List Nat) (ht : t.length < 4) :
    readInstructions ((body.map Instruction.toBytes).flatten ++ t) = body := by
  induction body with
  | nil => simpa using readInstructions_short t ht
  | cons i body ih =>
    have hi : i.WellFormed := h i (List.mem_cons_self _ _)
    have hb : ∀ j ∈ body, j.WellFormed := fun j hj => h j (List.mem_cons_of_mem _ hj)
    simp only [List.map_cons, List.flatten_cons, List.append_assoc]
    rw [ofBytes_toBytes i hi, ih hb]

theorem unmarshall_marshall_append (p : Program) (h : p.WellFormed) (t : List Nat)
    (ht : t.length < 4) : Program.unmarshall (p.marshall ++ t) = p := by
  obtain ⟨h1, h2, h3⟩ := h
  have e4 : (leBytes 4 p.NumChecked).length = 4 := length_leBytes _ _
  have e32 : (leBytes 32 p.First).length = 32 := length_leBytes _ _
  have k1 : (p.marshall ++ t).take 4 = leBytes 4 p.NumChecked := by
    simp only [Program.marshall, List.append_assoc]
    rw [List.take_append_of_le_length (by omega), List.take_of_length_le (by omega)]
  have k2 : (p.marshall ++ t).drop 4
      = leBytes 32 p.First ++ ((p.body.map Instruction.toBytes).flatten ++ t) := by
    simp only [Program.marshall, List.append_assoc]
    rw [List.drop_append_of_le_length (by omega), List.drop_of_length_le (by omega)]
    simp
  have k3 : (p.marshall ++ t).drop 36 = (p.body.map Instruction.toBytes).flatten ++ t := by
    have : (36 : Nat) = 4 + 32 := rfl
    rw [this, ← List.drop_drop, k2, List.drop_append_of_le_length (by omega),
      List.drop_of_length_le (by omega)]
    simp
  have k4 : ((p.marshall ++ t).drop 4).take 32 = leBytes 32 p.First := by
    rw [k2, List.take_append_of_le_length (by omega), List.take_of_length_le (by omega)]
  cases p with
  | mk nc first body =>
    simp only [Program.unmarshall, k1, k3, k4, ofLeBytes_leBytes, Program.mk.injEq]
    simp only at h1 h2 h3
    refine ⟨Nat.mod_eq_of_lt (by simpa using h1), Nat.mod_eq_of_lt ?_,
      readInstructions_records body h3 t ht⟩
    calc first < 2 ^ 256 := h2
      _ = 256 ^ 32 := by norm_num

theorem stdEqual_self (l : List Instruction) : stdEqual l l = .ok true := by
  induction l with
  | nil => rfl
  | cons a l ih => simp [stdEqual, ih]

theorem stdEqual_true_iff (a b : List Instruction) : stdEqual a b = .ok true ↔ a <+: b := by
  induction a generalizing b with
  | nil => simp [stdEqual]
  | cons x a ih =>
    cases b with
    | nil => simp [stdEqual]
    | cons y b =>
      unfold stdEqual
      by_cases hxy : x = y
      · rw [if_pos hxy, ih b, hxy]
        exact (List.cons_prefix_cons.trans (by simp)).symm
      · rw [if_neg hxy]
        constructor
        · intro h; cases h
        · intro h; exact absurd (List.cons_prefix_cons.1 h).1 hxy

theorem operator_eq_true_iff (p q : Program) :
    p.operator_eq q = .ok true ↔
      p.NumChecked = q.NumChecked ∧ p.First = q.First ∧ p.body <+: q.body := by
  unfold Program.operator_eq
  by_cases h1 : p.NumChecked = q.NumChecked
  · by_cases h2 : p.First = q.First
    · rw [if_pos h1, if_pos h2, stdEqual_true_iff]
      exact ⟨fun h => ⟨h1, h2, h⟩, fun h => h.2.2⟩
    · rw [if_pos h1, if_neg h2]
      constructor
      · intro h; cases h
      · intro h; exact absurd h.2.1 h2
  · rw [if_neg h1]
    constructor
    · intro h; cases h
    · intro h; exact absurd h.1 h1

/-! ## Program serialisation and equality -/

/-- C5: for every well-formed program `P`, `unmarshall (marshall P)` has the
NumChecked, the First set and the instruction sequence of `P`, and
`operator==` finds it equal to `P`. -/
theorem unmarshall_marshall (p : Program) (h : p.WellFormed) :
    (Program.unmarshall p.marshall).NumChecked = p.NumChecked ∧
    (Program.unmarshall p.marshall).First = p.First ∧
    (Program.unmarshall p.marshall).body = p.body ∧
    (Program.unmarshall p.marshall).operator_eq p = .ok true := by
  have e : Program.unmarshall p.marshall = p := by
    simpa using unmarshall_marshall_append p h [] (by simp)
  rw [e]
  refine ⟨rfl, rfl, rfl, ?_⟩
  simp [Program.operator_eq, stdEqual_self]

theorem unmarshall_marshall_witness :
    (litProgram 97).WellFormed ∧
    (Program.unmarshall (litProgram 97).marshall).NumChecked = (litProgram 97).NumChecked ∧
    (Program.unmarshall (litProgram 97).marshall).First = (litProgram 97).First ∧
    (Program.unmarshall (litProgram 97).marshall).body = (litProgram 97).body ∧
    (Program.unmarshall (litProgram 97).marshall).operator_eq (litProgram 97) = .ok true :=
  have h : (litProgram 97).WellFormed := by
    refine ⟨by decide, by norm_num [litProgram], ?_⟩
    intro i hi
    simp only [litProgram, Instruction.makeLit, Instruction.makeMatch, List.mem_cons,
      List.mem_singleton, List.not_mem_nil, or_false] at hi
    rcases hi with rfl | rfl <;> exact ⟨by decide, by decide, by decide⟩
  ⟨h, unmarshall_marshall (litProgram 97) h⟩

/-- C10: for every well-formed program `P` and every byte string `t` shorter
than one instruction record (4 bytes), `unmarshall (marshall P ++ t)` has the
NumChecked, the First set and the instruction sequence of `P`: the bytes of `t`
yield no instruction, and `unmarshall` has no failure result. -/
theorem unmarshall_drops_partial_record (p : Program) (h : p.WellFormed) (t : List Nat)
    (ht : t.length < 4) :
    (Program.unmarshall (p.marshall ++ t)).NumChecked = p.NumChecked ∧
    (Program.unmarshall (p.marshall ++ t)).First = p.First ∧
    (Program.unmarshall (p.marshall ++ t)).body = p.body := by
  rw [unmarshall_marshall_append p h t ht]
  exact ⟨rfl, rfl, rfl⟩

theorem unmarshall_drops_partial_record_witness :
    (litProgram 97).WellFormed ∧ [1, 2, 3].length < 4 ∧
    (Program.unmarshall ((litProgram 97).marshall ++ [1, 2, 3])).NumChecked
      = (litProgram 97).NumChecked ∧
    (Program.unmarshall ((litProgram 97).marshall ++ [1, 2, 3])).First = (litProgram 97).First ∧
    (Program.unmarshall ((litProgram 97).marshall ++ [1, 2, 3])).body = (litProgram 97).body :=
  have h : (litProgram 97).WellFormed := by
    refine ⟨by decide, by norm_num [litProgram], ?_⟩
    intro i hi
    simp only [litProgram, Instruction.makeLit, Instruction.makeMatch, List.mem_cons,
      List.mem_singleton, List.not_mem_nil, or_false] at hi
    rcases hi with rfl | rfl <;> exact ⟨by decide, by decide, by decide⟩
  ⟨h, by decide, unmarshall_drops_partial_record (litProgram 97) h [1, 2, 3] (by decide)⟩

/-- C9, the failing input: `operator==` finds the program with an empty body
equal to a program with the same header and a one-instruction body, although the
bodies differ in length; with the operands exchanged the comparison reads past
the end of the shorter body. -/
theorem operator_eq_ignores_longer_rhs :
    Program.operator_eq { NumChecked := 0, First := 0, body := [] }
      { NumChecked := 0, First := 0, body := [Instruction.makeLit 97] } = .ok true ∧
    ([] : List Instruction) ≠ [Instruction.makeLit 97] ∧
    Program.operator_eq { NumChecked := 0, First := 0, body := [Instruction.makeLit 97] }
      { NumChecked := 0, First := 0, body := [] } = .error .undefined := by
  refine ⟨rfl, by simp, rfl⟩

/-! ## Instruction builders -/

/-- C7: `makeJump off` fails with the overflow error if and only if
`off ≥ 2^24`, and for `off < 2^24` it returns an instruction with opcode JUMP,
Size 0 and Offset `off`. -/
theorem makeJump_overflow_iff (off : Nat) :
    (Instruction.makeJump off = .error .overflow ↔ 2 ^ 24 ≤ off) ∧
    (off < 2 ^ 24 → ∃ i, Instruction.makeJump off = .ok i ∧
      i.OpCode = JUMP_OP ∧ i.Size = 0 ∧ i.Offset = off) := by
  have e : (1 : Nat) <<< 24 = 2 ^ 24 := by decide
  constructor
  · unfold Instruction.makeJump
    rw [e]
    by_cases h : off ≥ 2 ^ 24
    · simp [h]
    · rw [if_neg h]
      constructor
      · intro hh; cases hh
      · intro hh; exact absurd hh h
  · intro h
    refine ⟨{ OpCode := JUMP_OP, Size := 0, Op := off % 2 ^ 24 }, ?_, rfl, rfl, ?_⟩
    · unfold Instruction.makeJump
      rw [e, if_neg (by omega)]
    · simp only [Instruction.Offset, Nat.mod_mod]
      exact Nat.mod_eq_of_lt h

theorem makeJump_overflow_iff_witness :
    (Instruction.makeJump (2 ^ 24) = .error .overflow ↔ 2 ^ 24 ≤ 2 ^ 24) ∧
    (5 < 2 ^ 24 ∧ ∃ i, Instruction.makeJump 5 = .ok i ∧
      i.OpCode = JUMP_OP ∧ i.Size = 0 ∧ i.Offset = 5) :=
  ⟨(makeJump_overflow_iff (2 ^ 24)).1, by decide, (makeJump_overflow_iff 5).2 (by decide)⟩

/-! ## doMatch -/

theorem sub64_of_le (a b : Nat) (h : b ≤ a) (ha : a < 2 ^ 64) : sub64 a b = a - b := by
  unfold sub64
  have e : a + 2 ^ 64 - b = (a - b) + 2 ^ 64 := by omega
  rw [e, Nat.add_mod_right]
  exact Nat.mod_eq_of_lt (by omega)

/-- C2: `doMatch` follows the four-case rule. With `Matches[Label] = (cStart, cEnd)`
for the thread `(Label, Start, End)`: (1) if `cStart = UNALLOCATED` it stores
`(Start, End)` and emits nothing; (2) else if `cStart = Start` and `cEnd < End` it
stores `(Start, End)` and emits nothing; (3) else if `cEnd ≤ Start` it emits exactly
the hit `(cStart, cEnd - cStart, Label)`, the difference being that of `uint64`
(the plain difference whenever `cStart ≤ cEnd`), and stores `(Start, End)`;
(4) otherwise it emits nothing and leaves the state unchanged. -/
theorem doMatch_four_cases (vm : Vm) (t : Thread) (hits : List SearchHit) (cStart cEnd : Nat)
    (h : vm.Matches[t.Label]? = some (cStart, cEnd)) :
    (cStart = UNALLOCATED →
      doMatch vm t hits
        = .ok ({ vm with Matches := vm.Matches.set t.Label (t.Start, t.End) }, hits)) ∧
    (cStart ≠ UNALLOCATED → cStart = t.Start ∧ cEnd < t.End →
      doMatch vm t hits
        = .ok ({ vm with Matches := vm.Matches.set t.Label (t.Start, t.End) }, hits)) ∧
    (cStart ≠ UNALLOCATED → ¬(cStart = t.Start ∧ cEnd < t.End) → cEnd ≤ t.Start →
      doMatch vm t hits
        = .ok ({ vm with Matches := vm.Matches.set t.Label (t.Start, t.End) },
            hits ++ [{ Offset := cStart, Length := sub64 cEnd cStart, Label := t.Label }]) ∧
      (cStart ≤ cEnd → cEnd < 2 ^ 64 → sub64 cEnd cStart = cEnd - cStart)) ∧
    (cStart ≠ UNALLOCATED → ¬(cStart = t.Start ∧ cEnd < t.End) → ¬cEnd ≤ t.Start →
      doMatch vm t hits = .ok (vm, hits)) := by
  refine ⟨?_, ?_, ?_, ?_⟩
  · intro h1
    simp [doMatch, h, h1]
  · intro _ h2
    simp [doMatch, h, h2]
  · intro h1 h2 h3
    refine ⟨?_, fun h4 h5 => sub64_of_le cEnd cStart h4 h5⟩
    simp only [doMatch, h]
    rw [if_neg (by tauto), if_pos h3]
  · intro h1 h2 h3
    simp only [doMatch, h]
    rw [if_neg (by tauto), if_neg h3]

theorem doMatch_four_cases_witness :
    ({ Vm.empty with Matches := [(1, 2)] } : Vm).Matches[(⟨none, 0, 5, 6⟩ : Thread).Label]?
      = some (1, 2) ∧
    doMatch { Vm.empty with Matches := [(1, 2)] } ⟨none, 0, 5, 6⟩ []
      = .ok ({ Vm.empty with Matches := [(5, 6)] }, [{ Offset := 1, Length := 1, Label := 0 }]) :=
  ⟨rfl,
    ((doMatch_four_cases { Vm.empty with Matches := [(1, 2)] } ⟨none, 0, 5, 6⟩ [] 1 2 rfl).2.2.1
      (by decide) (by decide) (by decide)).1⟩

/-! ## init -/

theorem length_resize {α : Type} (l : List α) (n : Nat) (d : α) : (resize l n d).length = n := by
  simp only [resize, List.length_append, List.length_take, List.length_replicate]
  omega

theorem offset_lt (i : Instruction) : i.Offset < 2 ^ 24 :=
  Nat.mod_lt _ (by norm_num)

theorem initScan_fst (body : List Instruction) (acc : Nat × Nat) :
    acc.1 ≤ (body.foldl initStep acc).1 ∧
    (∀ x ∈ (body.filter (fun i => decide (i.OpCode = MATCH_OP))).map Instruction.Offset,
      x ≤ (body.foldl initStep acc).1) ∧
    ((body.foldl initStep acc).1
        ∈ (body.filter (fun i => decide (i.OpCode = MATCH_OP))).map Instruction.Offset ∨
      (body.foldl initStep acc).1 = acc.1) := by
  induction body generalizing acc with
  | nil => simp
  | cons i body ih =>
    obtain ⟨h1, h2, h3⟩ := ih (initStep acc i)
    simp only [List.foldl_cons]
    by_cases hm : i.OpCode = MATCH_OP
    · have hf : (i :: body).filter (fun i => decide (i.OpCode = MATCH_OP))
          = i :: body.filter (fun i => decide (i.OpCode = MATCH_OP)) := by
        simp [List.filter_cons, hm]
      rw [hf]
      simp only [List.map_cons, List.mem_cons, forall_eq_or_imp]
      by_cases hlt : acc.1 < i.Offset
      · have e : (initStep acc i).1 = i.Offset := by simp [initStep, hm, hlt]
        rw [e] at h1 h3
        refine ⟨by omega, ⟨h1, h2⟩, ?_⟩
        rcases h3 with h3 | h3
        · exact Or.inl (Or.inr h3)
        · exact Or.inl (Or.inl h3)
      · have e : (initStep acc i).1 = acc.1 := by simp [initStep, hlt]
        rw [e] at h1 h3
        refine ⟨h1, ⟨by omega, h2⟩, ?_⟩
        rcases h3 with h3 | h3
        · exact Or.inl (Or.inr h3)
        · exact Or.inr h3
    · have hf : (i :: body).filter (fun i => decide (i.OpCode = MATCH_OP))
          = body.filter (fun i => decide (i.OpCode = MATCH_OP)) := by
        simp [List.filter_cons, hm]
      rw [hf]
      have e : (initStep acc i).1 = acc.1 := by simp [initStep, hm]
      rw [e] at h1 h3
      exact ⟨h1, h2, h3⟩

theorem initScan_snd (body : List Instruction) (acc : Nat × Nat) :
    acc.2 ≤ (body.foldl initStep acc).2 ∧
    (∀ x ∈ (body.filter (fun i =>
        decide (i.OpCode = CHECK_BRANCH_OP ∨ i.OpCode = CHECK_HALT_OP))).map Instruction.Offset,
      x ≤ (body.foldl initStep acc).2) ∧
    ((body.foldl initStep acc).2
        ∈ (body.filter (fun i =>
            decide (i.OpCode = CHECK_BRANCH_OP ∨ i.OpCode = CHECK_HALT_OP))).map
            Instruction.Offset ∨
      (body.foldl initStep acc).2 = acc.2) := by
  induction body generalizing acc with
  | nil => simp
  | cons i body ih =>
    obtain ⟨h1, h2, h3⟩ := ih (initStep acc i)
    simp only [List.foldl_cons]
    by_cases hm : i.OpCode = CHECK_BRANCH_OP ∨ i.OpCode = CHECK_HALT_OP
    · have hf : (i :: body).filter
          (fun i => decide (i.OpCode = CHECK_BRANCH_OP ∨ i.OpCode = CHECK_HALT_OP))
          = i :: body.filter
              (fun i => decide (i.OpCode = CHECK_BRANCH_OP ∨ i.OpCode = CHECK_HALT_OP)) := by
        simp [List.filter_cons, hm]
      rw [hf]
      simp only [List.map_cons, List.mem_cons, forall_eq_or_imp]
      have e : (initStep acc i).2 = max acc.2 i.Offset := by simp [initStep, hm]
      rw [e] at h1 h3
      refine ⟨by omega, ⟨by omega, h2⟩, ?_⟩
      rcases h3 with h3 | h3
      · exact Or.inl (Or.inr h3)
      · rcases Nat.le_total acc.2 i.Offset with hle | hle
        · rw [Nat.max_eq_right hle] at h3
          exact Or.inl (Or.inl h3)
        · rw [Nat.max_eq_left hle] at h3
          exact Or.inr h3
    · have hf : (i :: body).filter
          (fun i => decide (i.OpCode = CHECK_BRANCH_OP ∨ i.OpCode = CHECK_HALT_OP))
          = body.filter
              (fun i => decide (i.OpCode = CHECK_BRANCH_OP ∨ i.OpCode = CHECK_HALT_OP)) := by
        simp [List.filter_cons, hm]
      rw [hf]
      have e : (initStep acc i).2 = acc.2 := by simp [initStep, hm]
      rw [e] at h1 h3
      exact ⟨h1, h2, h3⟩

theorem mem_offsets_lt (l : List Instruction) (x : Nat) (h : x ∈ l.map Instruction.Offset) :
    x < 2 ^ 24 := by
  obtain ⟨i, _, rfl⟩ := List.mem_map.1 h
  exact offset_lt i

/-- C8: after `init(P)`, whatever the state before, `Matches` has
`1 + max {MATCH.Offset in P}` slots (1 when `P` has no MATCH), all UNALLOCATED,
`CheckStates` has `2 + max {CHECK_HALT/CHECK_BRANCH Offset in P}` bits (2 when
there is none), all false, and `Active` and `Next` are empty. The program is
one whose length the `uint32` counter of the scan reaches. -/
theorem init_sizes (vm : Vm) (p : Program) (_hlen : p.body.length < 2 ^ 32) :
    ∃ m c, IsMaxOrZero p.matchOffsets m ∧ IsMaxOrZero p.checkOffsets c ∧
      (vm.init p).Matches = List.replicate (1 + m) (UNALLOCATED, 0) ∧
      (vm.init p).CheckStates = List.replicate (2 + c) false ∧
      (vm.init p).Active = [] ∧ (vm.init p).Next = [] ∧ (vm.init p).Prog = p := by
  obtain ⟨_, a2, a3⟩ := initScan_fst p.body (0, 0)
  obtain ⟨_, b2, b3⟩ := initScan_snd p.body (0, 0)
  have ha : (p.body.foldl initStep (0, 0)).1 < 2 ^ 24 := by
    rcases a3 with a3 | a3
    · exact mem_offsets_lt _ _ a3
    · rw [a3]; norm_num
  have hb : (p.body.foldl initStep (0, 0)).2 < 2 ^ 24 := by
    rcases b3 with b3 | b3
    · exact mem_offsets_lt _ _ b3
    · rw [b3]; norm_num
  refine ⟨(p.body.foldl initStep (0, 0)).1, (p.body.foldl initStep (0, 0)).2,
    ⟨a2, a3⟩, ⟨b2, b3⟩, ?_, ?_, rfl, rfl, rfl⟩
  · simp only [Vm.init, Vm.reset, length_resize]
    rw [Nat.mod_eq_of_lt (by omega), Nat.add_comm]
  · simp only [Vm.init, Vm.reset, length_resize]
    rw [Nat.mod_eq_of_lt (by omega), Nat.add_comm]

theorem init_sizes_witness :
    (litProgram 97).body.length < 2 ^ 32 ∧
    ∃ m c, IsMaxOrZero (litProgram 97).matchOffsets m ∧
      IsMaxOrZero (litProgram 97).checkOffsets c ∧
      (Vm.empty.init (litProgram 97)).Matches = List.replicate (1 + m) (UNALLOCATED, 0) ∧
      (Vm.empty.init (litProgram 97)).CheckStates = List.replicate (2 + c) false ∧
      (Vm.empty.init (litProgram 97)).Active = [] ∧ (Vm.empty.init (litProgram 97)).Next = [] ∧
      (Vm.empty.init (litProgram 97)).Prog = litProgram 97 :=
  ⟨by decide, init_sizes Vm.empty (litProgram 97) (by decide)⟩

/-! ## search on a machine at rest -/

theorem execute_true (prog : List Instruction) (t t1 : Thread) (cur : Nat)
    (h : _execute prog t cur = .ok (true, t1)) :
    ∃ pc pc1, t.PC = some pc ∧ pc < prog.length ∧ t1.PC = some pc1 ∧ pc < pc1 := by
  obtain ⟨pco, l, s, e⟩ := t
  cases pco with
  | none => simp [_execute, fetch] at h
  | some pc =>
    have hlt : pc < prog.length := by
      by_contra hge
      have : prog[pc]? = none := List.getElem?_eq_none (by omega)
      simp [_execute, fetch, this] at h
    refine ⟨pc, ?_⟩
    unfold _execute at h
    simp only [fetch, List.getElem?_eq_getElem hlt, Option.getD_some] at h
    repeat' split at h
    all_goals cases h
    all_goals
      refine ⟨_, rfl, hlt, rfl, ?_⟩
      beta_reduce
      omega

theorem execute_end (prog : List Instruction) (t t1 : Thread) (cur : Nat) (b : Bool)
    (h : _execute prog t cur = .ok (b, t1)) : t1.End = t.End := by
  unfold _execute at h
  split at h
  · cases h
  · dsimp only at h
    repeat' split at h
    all_goals cases h
    all_goals rfl

theorem fetch_error (prog : List Instruction) (pc : Option Nat) (e : Fault)
    (h : fetch prog pc = .error e) : e = .undefined := by
  unfold fetch at h
  repeat' split at h
  all_goals cases h
  all_goals rfl

theorem byteSetAt_error (prog : List Instruction) (i : Nat) (e : Fault)
    (h : byteSetAt prog i = .error e) : e = .undefined := by
  unfold byteSetAt at h
  dsimp only at h
  split at h
  · cases h
  · cases h
    rfl

theorem execute_error (prog : List Instruction) (t : Thread) (cur : Nat) (e : Fault)
    (h : _execute prog t cur = .error e) : e = .undefined := by
  unfold _execute at h
  dsimp only at h
  repeat' split at h
  all_goals cases h
  all_goals
    first
    | exact fetch_error _ _ _ ‹_›
    | exact byteSetAt_error _ _ _ ‹_›

theorem executeLoop_end (prog : List Instruction) (cur : Nat) :
    ∀ (fuel : Nat) (t t1 : Thread), executeLoop prog cur fuel t = .ok t1 → t1.End = t.End := by
  intro fuel
  induction fuel with
  | zero => intro t t1 h; cases h
  | succ n ih =>
    intro t t1 h
    unfold executeLoop at h
    split at h
    · cases h
    · next t2 he => rw [ih t2 t1 h, execute_end prog t t2 cur true he]
    · next t2 he => cases h; exact execute_end prog t _ cur false he

theorem executeLoop_fuel (prog : List Instruction) (cur : Nat) :
    ∀ (fuel : Nat) (t : Thread), 1 ≤ fuel →
      (∀ pc, t.PC = some pc → prog.length + 1 ≤ fuel + pc) →
      executeLoop prog cur fuel t ≠ .error .fuel := by
  intro fuel
  induction fuel with
  | zero => intro t h; omega
  | succ n ih =>
    intro t _ hpc
    unfold executeLoop
    split
    · next e he =>
      intro h
      cases h
      cases execute_error prog t cur _ he
    · next t2 he =>
      obtain ⟨pc, pc1, h1, h2, h3, h4⟩ := execute_true prog t t2 cur he
      have := hpc pc h1
      apply ih t2 (by omega)
      intro pc' hpc'
      rw [h3] at hpc'
      cases hpc'
      omega
    · intro h; cases h

theorem searchByte_quiet (fuel : Nat) (vm : Vm) (hq : vm.Quiet) (cur offset : Nat)
    (hits : List SearchHit) (ho : offset ≠ UNALLOCATED) (hf : 1 ≤ fuel) :
    searchByte fuel vm 0 cur offset hits =
      if vm.Prog.First.testBit cur then
        match executeLoop vm.Prog.body cur fuel (Thread.init offset) with
        | .error e => .error e
        | .ok _ => .ok (vm, 0, hits)
      else .ok (vm, 0, hits) := by
  obtain ⟨P, A, N, M, C⟩ := vm
  obtain ⟨hA, hN, hC⟩ := hq
  simp only at hA hN hC
  subst hA hN
  obtain ⟨n, rfl⟩ : ∃ n, fuel = n + 1 := ⟨fuel - 1, by omega⟩
  have hw : searchWalk (n + 1) cur offset (n + 1) ⟨P, [], [], M, C⟩ 0 hits
      = .ok (⟨P, [], [], M, C⟩, 0, hits) := by
    simp [searchWalk]
  simp only [searchByte, hw]
  by_cases hb : P.First.testBit cur = true
  · simp only [hb, if_true, List.nil_append]
    cases he : executeLoop P.body cur (n + 1) (Thread.init offset) with
    | error e =>
      simp [searchDoWhile, searchThread, Vm.threadAt, he]
    | ok t1 =>
      have hend : t1.End = UNALLOCATED := executeLoop_end _ _ _ _ _ he
      have hne : ¬ t1.End = offset := by rw [hend]; exact fun h => ho h.symm
      simp [searchDoWhile, searchThread, Vm.threadAt, he, matchIfFresh, Vm.setThread, hne,
        Vm.cleanup, hC]
  · simp [hb]

theorem searchBytes_quiet (fuel : Nat) (hf : 1 ≤ fuel) (vm : Vm) (hq : vm.Quiet)
    (hits : List SearchHit) :
    ∀ (input : List Nat) (offset : Nat), offset + input.length ≤ UNALLOCATED →
      ∀ r, searchBytes fuel input vm 0 offset hits = .ok r →
        r = (vm, 0, hits, offset + input.length) := by
  intro input
  induction input with
  | nil => intro offset _ r h; cases h; rfl
  | cons cur rest ih =>
    intro offset ho r h
    simp only [List.length_cons] at ho
    have hne : offset ≠ UNALLOCATED := by omega
    unfold searchBytes at h
    rw [searchByte_quiet fuel vm hq cur offset hits hne hf] at h
    have hU : UNALLOCATED = 2 ^ 64 - 1 := rfl
    have hmod : (offset + 1) % 2 ^ 64 = offset + 1 := Nat.mod_eq_of_lt (by omega)
    have key : searchBytes fuel rest vm 0 (offset + 1) hits = .ok r := by
      by_cases hb : vm.Prog.First.testBit cur = true
      · rw [if_pos hb] at h
        cases he : executeLoop vm.Prog.body cur fuel (Thread.init offset) with
        | error e => rw [he] at h; cases h
        | ok t => rw [he] at h; dsimp only at h; rw [hmod] at h; exact h
      · rw [if_neg hb] at h; dsimp only at h; rw [hmod] at h; exact h
    rw [ih (offset + 1) (by omega) r key, List.length_cons]
    congr 3
    omega

theorem searchBytes_append (fuel : Nat) :
    ∀ (b1 b2 : List Nat) (vm : Vm) (it offset : Nat) (hits : List SearchHit),
      searchBytes fuel (b1 ++ b2) vm it offset hits =
        match searchBytes fuel b1 vm it offset hits with
        | .error e => .error e
        | .ok (vm1, it1, hits1, offset1) => searchBytes fuel b2 vm1 it1 offset1 hits1 := by
  intro b1
  induction b1 with
  | nil => intro b2 vm it offset hits; rfl
  | cons cur rest ih =>
    intro b2 vm it offset hits
    simp only [List.cons_append, searchBytes]
    cases searchByte fuel vm it cur offset hits with
    | error e => rfl
    | ok r => exact ih b2 r.1 r.2.1 _ r.2.2

theorem searchBytes_quiet_fuel (fuel : Nat) (vm : Vm) (hq : vm.Quiet)
    (hf : vm.Prog.body.length + 1 ≤ fuel) (hits : List SearchHit) :
    ∀ (input : List Nat) (offset : Nat), offset + input.length ≤ UNALLOCATED →
      searchBytes fuel input vm 0 offset hits ≠ .error .fuel := by
  intro input
  induction input with
  | nil => intro offset _ h; cases h
  | cons cur rest ih =>
    intro offset ho
    simp only [List.length_cons] at ho
    have hne : offset ≠ UNALLOCATED := by omega
    have hU : UNALLOCATED = 2 ^ 64 - 1 := rfl
    have hmod : (offset + 1) % 2 ^ 64 = offset + 1 := Nat.mod_eq_of_lt (by omega)
    have hloop : executeLoop vm.Prog.body cur fuel (Thread.init offset) ≠ .error .fuel := by
      apply executeLoop_fuel _ _ _ _ (by omega)
      intro pc hpc
      omega
    unfold searchBytes
    rw [searchByte_quiet fuel vm hq cur offset hits hne (by omega)]
    by_cases hb : vm.Prog.First.testBit cur = true
    · rw [if_pos hb]
      cases he : executeLoop vm.Prog.body cur fuel (Thread.init offset) with
      | error e =>
        dsimp only
        intro h
        cases h
        exact hloop he
      | ok t =>
        dsimp only
        rw [hmod]
        exact ih (offset + 1) (by omega)
    · rw [if_neg hb]
      dsimp only
      rw [hmod]
      exact ih (offset + 1) (by omega)

theorem flushMatches_unallocated :
    ∀ (ms : List (Nat × Nat)) (i : Nat) (hits : List SearchHit),
      (∀ m ∈ ms, m.1 = UNALLOCATED) → flushMatches ms i hits = (ms, hits) := by
  intro ms
  induction ms with
  | nil => intro i hits _; rfl
  | cons m ms ih =>
    intro i hits h
    have hm : ¬ m.1 < UNALLOCATED := by
      rw [h m (List.mem_cons_self _ _)]
      exact Nat.lt_irrefl _
    unfold flushMatches
    rw [if_neg hm]
    dsimp only
    rw [ih (i + 1) hits (fun x hx => h x (List.mem_cons_of_mem _ hx))]

theorem init_fresh (vm : Vm) (p : Program) : (vm.init p).Fresh := by
  obtain ⟨_, _, b3⟩ := initScan_snd p.body (0, 0)
  have hb : (p.body.foldl initStep (0, 0)).2 < 2 ^ 24 := by
    rcases b3 with b3 | b3
    · exact mem_offsets_lt _ _ b3
    · rw [b3]; norm_num
  refine ⟨⟨rfl, rfl, ?_⟩, ?_⟩
  · simp only [Vm.init, Vm.reset, length_resize]
    rw [Nat.mod_eq_of_lt (by omega)]
    rfl
  · intro m hm
    simp only [Vm.init, Vm.reset] at hm
    rw [List.eq_of_mem_replicate hm]

theorem search_fresh (fuel : Nat) (hf : 1 ≤ fuel) (vm : Vm) (hv : vm.Fresh) (input : List Nat)
    (start : Nat) (hits : List SearchHit) (hs : start + input.length ≤ UNALLOCATED) :
    vm.search fuel input start hits =
      match searchBytes fuel input vm 0 start hits with
      | .error e => .error e
      | .ok _ => .ok (false, vm, hits) := by
  obtain ⟨hq, hm⟩ := hv
  have hU : UNALLOCATED = 2 ^ 64 - 1 := rfl
  have hmod : start % 2 ^ 64 = start := Nat.mod_eq_of_lt (by omega)
  unfold Vm.search
  rw [hmod]
  cases hb : searchBytes fuel input vm 0 start hits with
  | error e => rfl
  | ok r =>
    rw [searchBytes_quiet fuel hf vm hq hits input start hs r hb]
    obtain ⟨hA, hN, hC⟩ := hq
    obtain ⟨n, rfl⟩ : ∃ n, fuel = n + 1 := ⟨fuel - 1, by omega⟩
    obtain ⟨P, A, N, M, C⟩ := vm
    simp only at hA hN hC hm
    subst hA hN
    simp [flushWalk, flushMatches_unallocated M 0 hits hm, Vm.cleanup, hC]

/-! ## search: the literal scenario and stream equivalence -/

/-- C1, the failing input: on the program `[LIT 'a', MATCH 0]` with
`First = {'a'}` and the input "xaxax" from offset 0, `search` on a freshly
initialised machine delivers no hit at all, leaves the machine as it was and
returns false; the hits `(1,1,0)` and `(3,1,0)` of the scenario are not
delivered. -/
theorem search_literal_delivers_nothing :
    (Vm.new (litProgram 97)).search 3 [120, 97, 120, 97, 120] 0 []
      = .ok (false, Vm.new (litProgram 97), []) := by
  rfl

/-- C6: for every program, every input `B` that fits the address space and
every split `B = B1 ++ B2`, `search(B1, 0)` followed by `search(B2, |B1|)` on a
freshly initialised machine delivers the same sequence of hits as one
`search(B, 0)` on a freshly initialised machine, and ends in the same state;
a loop budget above the program length is never used up. -/
theorem search_stream_equivalence (p : Program) (b1 b2 : List Nat) (fuel : Nat)
    (hlen : (b1 ++ b2).length < 2 ^ 64) (hf : p.body.length + 1 ≤ fuel) :
    searchSplit fuel (Vm.new p) b1 b2 = searchWhole fuel (Vm.new p) (b1 ++ b2) ∧
    searchWhole fuel (Vm.new p) (b1 ++ b2) ≠ .error .fuel := by
  have hv : (Vm.new p).Fresh := init_fresh _ _
  have hprog : (Vm.new p).Prog = p := rfl
  have hU : UNALLOCATED = 2 ^ 64 - 1 := rfl
  simp only [List.length_append] at hlen
  have h1 : 1 ≤ fuel := by omega
  have e1 := search_fresh fuel h1 (Vm.new p) hv b1 0 [] (by omega)
  have e2 := search_fresh fuel h1 (Vm.new p) hv b2 b1.length [] (by omega)
  have e3 := search_fresh fuel h1 (Vm.new p) hv (b1 ++ b2) 0 []
    (by simp only [List.length_append]; omega)
  have hfuel := searchBytes_quiet_fuel fuel (Vm.new p) hv.1 (by rw [hprog]; exact hf) []
    (b1 ++ b2) 0 (by simp only [List.length_append]; omega)
  rw [searchBytes_append] at e3 hfuel
  unfold searchSplit searchWhole
  rw [e3, e1]
  cases hb1 : searchBytes fuel b1 (Vm.new p) 0 0 [] with
  | error e =>
    rw [hb1] at hfuel
    refine ⟨rfl, ?_⟩
    intro h
    cases h
    exact hfuel rfl
  | ok r1 =>
    have hr1 := searchBytes_quiet fuel h1 (Vm.new p) hv.1 [] b1 0 (by omega) r1 hb1
    subst hr1
    rw [hb1] at hfuel
    dsimp only at hfuel ⊢
    rw [e2]
    simp only [Nat.zero_add] at hfuel ⊢
    cases hb2 : searchBytes fuel b2 (Vm.new p) 0 b1.length [] with
    | error e =>
      rw [hb2] at hfuel
      refine ⟨trivial, ?_⟩
      intro h
      cases h
      exact hfuel rfl
    | ok r2 =>
      refine ⟨trivial, ?_⟩
      intro h
      cases h

theorem search_stream_equivalence_witness :
    ([120, 97, 120] ++ [97, 120]).length < 2 ^ 64 ∧ (litProgram 97).body.length + 1 ≤ 3 ∧
    searchSplit 3 (Vm.new (litProgram 97)) [120, 97, 120] [97, 120]
      = searchWhole 3 (Vm.new (litProgram 97)) ([120, 97, 120] ++ [97, 120]) ∧
    searchWhole 3 (Vm.new (litProgram 97)) ([120, 97, 120] ++ [97, 120]) ≠ .error .fuel :=
  ⟨by decide, by decide,
    search_stream_equivalence (litProgram 97) [120, 97, 120] [97, 120] 3 (by decide) (by decide)⟩

/-! ## doMatch sequences: reduction to the slot of one label -/

theorem hitsFor_append (label : Nat) (a b : List SearchHit) :
    hitsFor label (a ++ b) = hitsFor label a ++ hitsFor label b := by
  simp [hitsFor]

theorem hitsFor_slotRule (label : Nat) (slot : Nat × Nat) (t : Thread) :
    hitsFor label (slotRule label slot t).2 = (slotRule label slot t).2 := by
  unfold slotRule
  split_ifs <;> simp [hitsFor]

theorem doMatch_slotRule (vm : Vm) (t : Thread) (hits : List SearchHit) (slot : Nat × Nat)
    (h : vm.Matches[t.Label]? = some slot) :
    ∃ vm1, doMatch vm t hits = .ok (vm1, hits ++ (slotRule t.Label slot t).2) ∧
      vm1.Matches[t.Label]? = some (slotRule t.Label slot t).1 := by
  have hlt : t.Label < vm.Matches.length := by
    by_contra hge
    rw [List.getElem?_eq_none (by omega)] at h
    cases h
  unfold doMatch slotRule
  rw [h]
  dsimp only
  split_ifs
  · exact ⟨_, by rw [List.append_nil], by simp [List.getElem?_set_self, hlt]⟩
  · exact ⟨_, rfl, by simp [List.getElem?_set_self, hlt]⟩
  · exact ⟨_, by rw [List.append_nil], h⟩

theorem doMatchCalls_slotRun (label : Nat) :
    ∀ (ts : List Thread) (vm : Vm) (hits : List SearchHit) (slot : Nat × Nat),
      vm.Matches[label]? = some slot → (∀ t ∈ ts, t.Label = label) →
      ∃ vm1 hits1 slot1, doMatchCalls ts vm hits = .ok (vm1, hits1) ∧
        vm1.Matches[label]? = some slot1 ∧
        hitsFor label hits1 ++ slotFlush label slot1 = hitsFor label hits ++ slotRun label slot ts := by
  intro ts
  induction ts with
  | nil =>
    intro vm hits slot h _
    exact ⟨vm, hits, slot, rfl, h, rfl⟩
  | cons t ts ih =>
    intro vm hits slot h hl
    have ht : t.Label = label := hl t (List.mem_cons_self _ _)
    subst ht
    obtain ⟨vm1, e1, m1⟩ := doMatch_slotRule vm t hits slot h
    obtain ⟨vm2, hits2, slot2, e2, m2, k2⟩ :=
      ih vm1 (hits ++ (slotRule t.Label slot t).2) (slotRule t.Label slot t).1 m1
        (fun x hx => hl x (List.mem_cons_of_mem _ hx))
    refine ⟨vm2, hits2, slot2, ?_, m2, ?_⟩
    · unfold doMatchCalls
      rw [e1]
      exact e2
    · rw [k2, hitsFor_append, hitsFor_slotRule, List.append_assoc]
      rfl

theorem flushMatches_above (label : Nat) :
    ∀ (ms : List (Nat × Nat)) (i : Nat) (hits : List SearchHit), label < i →
      hitsFor label (flushMatches ms i hits).2 = hitsFor label hits := by
  intro ms
  induction ms with
  | nil => intro i hits _; rfl
  | cons m ms ih =>
    intro i hits hi
    unfold flushMatches
    split_ifs
    · dsimp only
      rw [ih (i + 1) _ (by omega), hitsFor_append]
      have : ¬ i = label := by omega
      simp [hitsFor, this]
    · dsimp only
      exact ih (i + 1) _ (by omega)

theorem flushMatches_slot (label : Nat) (slot : Nat × Nat) :
    ∀ (ms : List (Nat × Nat)) (i : Nat) (hits : List SearchHit), i ≤ label →
      ms[label - i]? = some slot →
      hitsFor label (flushMatches ms i hits).2 = hitsFor label hits ++ slotFlush label slot := by
  intro ms
  induction ms with
  | nil => intro i hits _ h; simp at h
  | cons m ms ih =>
    intro i hits hi h
    rcases Nat.eq_or_lt_of_le hi with heq | hlt
    · subst heq
      simp only [Nat.sub_self, List.getElem?_cons_zero, Option.some.injEq] at h
      subst h
      unfold flushMatches slotFlush
      split_ifs
      · dsimp only
        rw [flushMatches_above i ms (i + 1) _ (by omega), hitsFor_append]
        simp [hitsFor]
      · dsimp only
        rw [flushMatches_above i ms (i + 1) _ (by omega), List.append_nil]
    · have e : label - i = (label - (i + 1)) + 1 := by omega
      rw [e, List.getElem?_cons_succ] at h
      unfold flushMatches
      split_ifs
      · dsimp only
        rw [ih (i + 1) _ (by omega) h, hitsFor_append]
        have : ¬ i = label := by omega
        simp [hitsFor, this]
      · dsimp only
        exact ih (i + 1) _ (by omega) h

theorem doMatchCallsThenFlush_slotRun (label : Nat) (ts : List Thread) (vm : Vm)
    (slot : Nat × Nat) (h : vm.Matches[label]? = some slot) (hl : ∀ t ∈ ts, t.Label = label) :
    ∃ hits, doMatchCallsThenFlush ts vm = .ok hits ∧
      hitsFor label hits = slotRun label slot ts := by
  obtain ⟨vm1, hits1, slot1, e1, m1, k1⟩ := doMatchCalls_slotRun label ts vm [] slot h hl
  refine ⟨(flushMatches vm1.Matches 0 hits1).2, ?_, ?_⟩
  · unfold doMatchCallsThenFlush
    rw [e1]
  · rw [flushMatches_slot label slot1 vm1.Matches 0 hits1 (Nat.zero_le _) (by simpa using m1), k1]
    rfl

/-! ## doMatch sequences: the rule on one slot -/

theorem slotRule_store (label : Nat) (slot : Nat × Nat) (t : Thread)
    (c : slot.1 = UNALLOCATED ∨ (slot.1 = t.Start ∧ slot.2 < t.End)) :
    slotRule label slot t = ((t.Start, t.End), []) := by
  unfold slotRule
  rw [if_pos c]

theorem slotRule_emit (label : Nat) (slot : Nat × Nat) (t : Thread)
    (c : ¬(slot.1 = UNALLOCATED ∨ (slot.1 = t.Start ∧ slot.2 < t.End))) (c2 : slot.2 ≤ t.Start) :
    slotRule label slot t
      = ((t.Start, t.End),
          [{ Offset := slot.1, Length := sub64 slot.2 slot.1, Label := label }]) := by
  unfold slotRule
  rw [if_neg c, if_pos c2]

theorem slotRule_keep (label : Nat) (slot : Nat × Nat) (t : Thread)
    (c : ¬(slot.1 = UNALLOCATED ∨ (slot.1 = t.Start ∧ slot.2 < t.End))) (c2 : ¬slot.2 ≤ t.Start) :
    slotRule label slot t = (slot, []) := by
  unfold slotRule
  rw [if_neg c, if_neg c2]

theorem slotRun_disjoint (label : Nat) :
    ∀ (ts : List Thread) (slot : Nat × Nat),
      (slot.1 ≠ UNALLOCATED → slot.1 ≤ slot.2 ∧ slot.2 < 2 ^ 64) →
      (∀ t ∈ ts, t.Start ≤ t.End ∧ t.End < 2 ^ 64 ∧ t.Start ≠ UNALLOCATED) →
      NonOverlapping (slotRun label slot ts) ∧
      ∀ h ∈ slotRun label slot ts,
        (slot.1 ≠ UNALLOCATED → slot.1 ≤ h.Offset) ∧
        ((∃ t ∈ ts, h.Offset = t.Start ∧ h.Offset + h.Length = t.End) ∨
          (slot.1 ≠ UNALLOCATED ∧ h.Offset = slot.1 ∧ h.Offset + h.Length = slot.2)) := by
  intro ts
  induction ts with
  | nil =>
    intro slot hs _
    unfold slotRun slotFlush
    by_cases hu : slot.1 < UNALLOCATED
    · have hne : slot.1 ≠ UNALLOCATED := Nat.ne_of_lt hu
      obtain ⟨h1, h2⟩ := hs hne
      rw [if_pos hu]
      refine ⟨List.pairwise_singleton _ _, ?_⟩
      intro h hh
      rw [List.mem_singleton] at hh
      subst hh
      refine ⟨fun _ => Nat.le_refl _, Or.inr ⟨hne, rfl, ?_⟩⟩
      show slot.1 + sub64 slot.2 slot.1 = slot.2
      rw [sub64_of_le _ _ h1 h2]
      omega
    · rw [if_neg hu]
      exact ⟨List.Pairwise.nil, fun h hh => absurd hh (List.not_mem_nil _)⟩
  | cons t ts ih =>
    intro slot hs ht
    obtain ⟨g1, g2, g3⟩ := ht t (List.mem_cons_self _ _)
    have hts : ∀ x ∈ ts, x.Start ≤ x.End ∧ x.End < 2 ^ 64 ∧ x.Start ≠ UNALLOCATED :=
      fun x hx => ht x (List.mem_cons_of_mem _ hx)
    have hnew : (t.Start, t.End).1 ≠ UNALLOCATED →
        (t.Start, t.End).1 ≤ (t.Start, t.End).2 ∧ (t.Start, t.End).2 < 2 ^ 64 :=
      fun _ => ⟨g1, g2⟩
    unfold slotRun
    by_cases c : slot.1 = UNALLOCATED ∨ (slot.1 = t.Start ∧ slot.2 < t.End)
    · rw [slotRule_store label slot t c]
      obtain ⟨p1, p2⟩ := ih (t.Start, t.End) hnew hts
      refine ⟨by simpa using p1, ?_⟩
      intro h hh
      obtain ⟨q1, q2⟩ := p2 h (by simpa using hh)
      have q1' : t.Start ≤ h.Offset := q1 g3
      refine ⟨?_, ?_⟩
      · intro hne
        rcases c with c | c
        · exact absurd c hne
        · rw [c.1]; exact q1'
      · rcases q2 with ⟨x, hx, hx1, hx2⟩ | ⟨_, hx1, hx2⟩
        · exact Or.inl ⟨x, List.mem_cons_of_mem _ hx, hx1, hx2⟩
        · exact Or.inl ⟨t, List.mem_cons_self _ _, hx1, hx2⟩
    · have hne : slot.1 ≠ UNALLOCATED := fun hh => c (Or.inl hh)
      obtain ⟨s1, s2⟩ := hs hne
      by_cases c2 : slot.2 ≤ t.Start
      · rw [slotRule_emit label slot t c c2]
        obtain ⟨p1, p2⟩ := ih (t.Start, t.End) hnew hts
        have hend : slot.1 + sub64 slot.2 slot.1 = slot.2 := by
          rw [sub64_of_le _ _ s1 s2]
          omega
        refine ⟨?_, ?_⟩
        · show List.Pairwise _ (_ :: slotRun label (t.Start, t.End) ts)
          rw [List.pairwise_cons]
          refine ⟨?_, p1⟩
          intro h hh
          have := (p2 h hh).1 g3
          show slot.1 + sub64 slot.2 slot.1 ≤ h.Offset
          rw [hend]
          exact Nat.le_trans c2 this
        · intro h hh
          rw [List.singleton_append, List.mem_cons] at hh
          rcases hh with hh | hh
          · subst hh
            exact ⟨fun _ => Nat.le_refl _, Or.inr ⟨hne, rfl, hend⟩⟩
          · obtain ⟨q1, q2⟩ := p2 h hh
            have q1' : t.Start ≤ h.Offset := q1 g3
            refine ⟨fun _ => by omega, ?_⟩
            rcases q2 with ⟨x, hx, hx1, hx2⟩ | ⟨_, hx1, hx2⟩
            · exact Or.inl ⟨x, List.mem_cons_of_mem _ hx, hx1, hx2⟩
            · exact Or.inl ⟨t, List.mem_cons_self _ _, hx1, hx2⟩
      · rw [slotRule_keep label slot t c c2]
        obtain ⟨p1, p2⟩ := ih slot hs hts
        refine ⟨by simpa using p1, ?_⟩
        intro h hh
        obtain ⟨q1, q2⟩ := p2 h (by simpa using hh)
        refine ⟨q1, ?_⟩
        rcases q2 with ⟨x, hx, hx1, hx2⟩ | q2
        · exact Or.inl ⟨x, List.mem_cons_of_mem _ hx, hx1, hx2⟩
        · exact Or.inr q2

theorem slotRun_longest (label : Nat) :
    ∀ (ts : List Thread) (slot : Nat × Nat),
      (slot.1 ≠ UNALLOCATED → slot.1 < slot.2 ∧ slot.2 < 2 ^ 64) →
      (∀ t ∈ ts, t.Start < t.End ∧ t.End < 2 ^ 64) →
      ts.Pairwise (fun a b => a.Start ≤ b.Start) →
      ∀ h ∈ slotRun label slot ts,
        (∀ t ∈ ts, t.Start = h.Offset → t.End ≤ h.Offset + h.Length) ∧
        (slot.1 ≠ UNALLOCATED →
          (h.Offset = slot.1 ∧ slot.2 ≤ h.Offset + h.Length) ∨ slot.2 ≤ h.Offset) := by
  intro ts
  induction ts with
  | nil =>
    intro slot hs _ _ h hh
    unfold slotRun slotFlush at hh
    by_cases hu : slot.1 < UNALLOCATED
    · obtain ⟨h1, h2⟩ := hs (Nat.ne_of_lt hu)
      rw [if_pos hu, List.mem_singleton] at hh
      subst hh
      refine ⟨fun t ht => absurd ht (List.not_mem_nil _), fun _ => Or.inl ⟨rfl, ?_⟩⟩
      show slot.2 ≤ slot.1 + sub64 slot.2 slot.1
      rw [sub64_of_le _ _ (Nat.le_of_lt h1) h2]
      omega
    · rw [if_neg hu] at hh
      exact absurd hh (List.not_mem_nil _)
  | cons t ts ih =>
    intro slot hs ht hsorted h hh
    obtain ⟨g1, g2⟩ := ht t (List.mem_cons_self _ _)
    have hU : UNALLOCATED = 2 ^ 64 - 1 := rfl
    have g3 : (t.Start, t.End).1 ≠ UNALLOCATED := by
      show t.Start ≠ UNALLOCATED
      omega
    have hts : ∀ x ∈ ts, x.Start < x.End ∧ x.End < 2 ^ 64 :=
      fun x hx => ht x (List.mem_cons_of_mem _ hx)
    rw [List.pairwise_cons] at hsorted
    obtain ⟨hle, hsorted'⟩ := hsorted
    have hnew : (t.Start, t.End).1 ≠ UNALLOCATED →
        (t.Start, t.End).1 < (t.Start, t.End).2 ∧ (t.Start, t.End).2 < 2 ^ 64 :=
      fun _ => ⟨g1, g2⟩
    unfold slotRun at hh
    by_cases c : slot.1 = UNALLOCATED ∨ (slot.1 = t.Start ∧ slot.2 < t.End)
    · rw [slotRule_store label slot t c, List.nil_append] at hh
      obtain ⟨p1, p2⟩ := ih (t.Start, t.End) hnew hts hsorted' h hh
      have p2' : (h.Offset = t.Start ∧ t.End ≤ h.Offset + h.Length) ∨ t.End ≤ h.Offset := p2 g3
      refine ⟨?_, ?_⟩
      · intro x hx hxs
        rw [List.mem_cons] at hx
        rcases hx with hx | hx
        · subst hx
          rcases p2' with p | p
          · exact p.2
          · omega
        · exact p1 x hx hxs
      · intro hne
        rcases c with c | c
        · exact absurd c hne
        · rcases p2' with p | p
          · exact Or.inl ⟨by rw [c.1]; exact p.1, by omega⟩
          · exact Or.inr (by omega)
    · have hne : slot.1 ≠ UNALLOCATED := fun hh => c (Or.inl hh)
      obtain ⟨s1, s2⟩ := hs hne
      by_cases c2 : slot.2 ≤ t.Start
      · rw [slotRule_emit label slot t c c2, List.singleton_append, List.mem_cons] at hh
        have hend : slot.1 + sub64 slot.2 slot.1 = slot.2 := by
          rw [sub64_of_le _ _ (Nat.le_of_lt s1) s2]
          omega
        rcases hh with hh | hh
        · subst hh
          refine ⟨?_, fun _ => Or.inl ⟨rfl, by rw [hend]⟩⟩
          intro x hx hxs
          have hxs' : x.Start = slot.1 := hxs
          rw [List.mem_cons] at hx
          rcases hx with hx | hx
          · subst hx
            omega
          · have := hle x hx
            omega
        · obtain ⟨p1, p2⟩ := ih (t.Start, t.End) hnew hts hsorted' h hh
          have p2' : (h.Offset = t.Start ∧ t.End ≤ h.Offset + h.Length) ∨ t.End ≤ h.Offset :=
            p2 g3
          refine ⟨?_, fun _ => Or.inr (by omega)⟩
          intro x hx hxs
          rw [List.mem_cons] at hx
          rcases hx with hx | hx
          · subst hx
            rcases p2' with p | p
            · exact p.2
            · omega
          · exact p1 x hx hxs
      · rw [slotRule_keep label slot t c c2, List.nil_append] at hh
        obtain ⟨p1, p2⟩ := ih slot hs hts hsorted' h hh
        refine ⟨?_, p2⟩
        intro x hx hxs
        rw [List.mem_cons] at hx
        rcases hx with hx | hx
        · subst hx
          rcases p2 hne with p | p
          · have : ¬(slot.1 = x.Start ∧ slot.2 < x.End) := fun hh => c (Or.inr hh)
            have e : slot.1 = x.Start := by omega
            have : ¬ slot.2 < x.End := fun hh => this ⟨e, hh⟩
            omega
          · omega
        · exact p1 x hx hxs

/-! ## doMatch sequences: the properties of the delivered hits -/

/-- C3, as stated, fails: with a candidate whose Start is the sentinel
UNALLOCATED the slot looks free again after an emission, and the hit `(0, 20)`
is delivered after the hit `(5, 5)` although it starts before offset 10. -/
theorem doMatch_sentinel_start_overlap :
    (∀ t ∈ [(⟨none, 0, 5, 10⟩ : Thread), ⟨none, 0, UNALLOCATED, UNALLOCATED⟩, ⟨none, 0, 0, 20⟩],
      t.Label = 0 ∧ t.Start ≤ t.End ∧ t.End < 2 ^ 64) ∧
    (Vm.new (litProgram 97)).Matches[0]? = some (UNALLOCATED, 0) ∧
    doMatchCallsThenFlush
        [⟨none, 0, 5, 10⟩, ⟨none, 0, UNALLOCATED, UNALLOCATED⟩, ⟨none, 0, 0, 20⟩]
        (Vm.new (litProgram 97))
      = .ok [⟨5, 5, 0⟩, ⟨0, 20, 0⟩] ∧
    ¬NonOverlapping (hitsFor 0 [⟨5, 5, 0⟩, ⟨0, 20, 0⟩]) := by
  refine ⟨?_, rfl, rfl, ?_⟩
  · intro t ht
    simp only [List.mem_cons, List.mem_singleton, List.not_mem_nil, or_false] at ht
    rcases ht with rfl | rfl | rfl <;> exact ⟨rfl, by decide, by decide⟩
  · simp [NonOverlapping, hitsFor]

/-- C3 (amended): for every label and every sequence of `doMatch` calls for that
label whose candidates satisfy `Start ≤ End` and whose Start is not the sentinel
UNALLOCATED, starting from an UNALLOCATED slot and followed by the flush of the
Matches table, the calls and the flush are defined and the hits delivered for the
label do not overlap: each starts at or after the end of every earlier one; every
such hit is one of the candidates, `Offset + Length` being its End, so no Length
wraps around. -/
theorem doMatch_hits_disjoint (vm : Vm) (label : Nat) (ts : List Thread) (cEnd : Nat)
    (hslot : vm.Matches[label]? = some (UNALLOCATED, cEnd))
    (hts : ∀ t ∈ ts, t.Label = label ∧ t.Start ≤ t.End ∧ t.End < 2 ^ 64 ∧
      t.Start ≠ UNALLOCATED) :
    ∃ hits, doMatchCallsThenFlush ts vm = .ok hits ∧
      NonOverlapping (hitsFor label hits) ∧
      ∀ h ∈ hitsFor label hits,
        ∃ t ∈ ts, h.Offset = t.Start ∧ h.Offset + h.Length = t.End := by
  obtain ⟨hits, e, k⟩ :=
    doMatchCallsThenFlush_slotRun label ts vm (UNALLOCATED, cEnd) hslot (fun t ht => (hts t ht).1)
  obtain ⟨p1, p2⟩ := slotRun_disjoint label ts (UNALLOCATED, cEnd) (fun h => absurd rfl h)
    (fun t ht => (hts t ht).2)
  refine ⟨hits, e, by rw [k]; exact p1, ?_⟩
  intro h hh
  rw [k] at hh
  rcases (p2 h hh).2 with q | q
  · exact q
  · exact absurd rfl q.1

theorem doMatch_hits_disjoint_witness :
    (Vm.new (litProgram 97)).Matches[0]? = some (UNALLOCATED, 0) ∧
    ∃ hits, doMatchCallsThenFlush [⟨none, 0, 1, 2⟩, ⟨none, 0, 3, 5⟩] (Vm.new (litProgram 97))
        = .ok hits ∧
      NonOverlapping (hitsFor 0 hits) ∧
      ∀ h ∈ hitsFor 0 hits,
        ∃ t ∈ [(⟨none, 0, 1, 2⟩ : Thread), ⟨none, 0, 3, 5⟩],
          h.Offset = t.Start ∧ h.Offset + h.Length = t.End :=
  ⟨rfl, doMatch_hits_disjoint (Vm.new (litProgram 97)) 0 [⟨none, 0, 1, 2⟩, ⟨none, 0, 3, 5⟩] 0 rfl
    (by
      intro t ht
      simp only [List.mem_cons, List.mem_singleton, List.not_mem_nil, or_false] at ht
      rcases ht with rfl | rfl <;> exact ⟨rfl, by decide, by decide, by decide⟩)⟩

/-- C4, as stated, fails. A candidate that arrives later with a smaller Start is
dropped: after the calls `(5, 6)`, `(0, 10)` the hit `(5, 1)` is delivered, strictly
inside `[0, 10)`. A candidate that overlaps the held one is dropped too: after
`(0, 2)`, `(1, 100)`, `(5, 6)`, given in the order of their Starts, the hit `(5, 1)`
is delivered, strictly inside `[1, 100)`. An empty candidate that is repeated is
delivered before a longer one with its Start is seen: after `(0, 0)`, `(0, 0)`,
`(0, 5)` the hit `(0, 0)` is delivered, strictly inside `[0, 5)`. -/
theorem doMatch_hit_inside_dropped_candidate :
    (doMatchCallsThenFlush [⟨none, 0, 5, 6⟩, ⟨none, 0, 0, 10⟩] (Vm.new (litProgram 97))
        = .ok [⟨5, 1, 0⟩] ∧
      StrictlyInside ⟨5, 1, 0⟩ ⟨none, 0, 0, 10⟩) ∧
    (doMatchCallsThenFlush [⟨none, 0, 0, 2⟩, ⟨none, 0, 1, 100⟩, ⟨none, 0, 5, 6⟩]
        (Vm.new (litProgram 97))
        = .ok [⟨0, 2, 0⟩, ⟨5, 1, 0⟩] ∧
      StrictlyInside ⟨5, 1, 0⟩ ⟨none, 0, 1, 100⟩) ∧
    (doMatchCallsThenFlush [⟨none, 0, 0, 0⟩, ⟨none, 0, 0, 0⟩, ⟨none, 0, 0, 5⟩]
        (Vm.new (litProgram 97))
        = .ok [⟨0, 0, 0⟩, ⟨0, 5, 0⟩] ∧
      StrictlyInside ⟨0, 0, 0⟩ ⟨none, 0, 0, 5⟩) := by
  refine ⟨⟨rfl, ?_⟩, ⟨rfl, ?_⟩, ⟨rfl, ?_⟩⟩ <;> simp [StrictlyInside]

/-- C4 (amended): for every label and every sequence of non-empty candidates
(`Start < End`) reported to `doMatch` for that label in non-decreasing order of
Start, from an UNALLOCATED slot, and then flushed, no hit delivered for the
label has a span strictly inside the span of a candidate of the sequence that
has the same Start: the hit is the longest candidate with its Start. -/
theorem doMatch_longest_per_start (vm : Vm) (label : Nat) (ts : List Thread) (cEnd : Nat)
    (hslot : vm.Matches[label]? = some (UNALLOCATED, cEnd))
    (hts : ∀ t ∈ ts, t.Label = label ∧ t.Start < t.End ∧ t.End < 2 ^ 64)
    (hsorted : ts.Pairwise (fun a b => a.Start ≤ b.Start)) :
    ∃ hits, doMatchCallsThenFlush ts vm = .ok hits ∧
      ∀ h ∈ hitsFor label hits, ∀ t ∈ ts, t.Start = h.Offset → ¬StrictlyInside h t := by
  obtain ⟨hits, e, k⟩ :=
    doMatchCallsThenFlush_slotRun label ts vm (UNALLOCATED, cEnd) hslot (fun t ht => (hts t ht).1)
  have p := slotRun_longest label ts (UNALLOCATED, cEnd) (fun h => absurd rfl h)
    (fun t ht => (hts t ht).2) hsorted
  refine ⟨hits, e, ?_⟩
  intro h hh t ht hst hin
  rw [k] at hh
  have := (p h hh).1 t ht hst
  obtain ⟨_, _, h3⟩ := hin
  omega

theorem doMatch_longest_per_start_witness :
    (Vm.new (litProgram 97)).Matches[0]? = some (UNALLOCATED, 0) ∧
    [(⟨none, 0, 0, 1⟩ : Thread), ⟨none, 0, 0, 5⟩, ⟨none, 0, 1, 2⟩].Pairwise
      (fun a b => a.Start ≤ b.Start) ∧
    ∃ hits, doMatchCallsThenFlush [⟨none, 0, 0, 1⟩, ⟨none, 0, 0, 5⟩, ⟨none, 0, 1, 2⟩]
        (Vm.new (litProgram 97)) = .ok hits ∧
      ∀ h ∈ hitsFor 0 hits,
        ∀ t ∈ [(⟨none, 0, 0, 1⟩ : Thread), ⟨none, 0, 0, 5⟩, ⟨none, 0, 1, 2⟩],
          t.Start = h.Offset → ¬StrictlyInside h t :=
  have hs : [(⟨none, 0, 0, 1⟩ : Thread), ⟨none, 0, 0, 5⟩, ⟨none, 0, 1, 2⟩].Pairwise
      (fun a b => a.Start ≤ b.Start) := by
    simp
  ⟨rfl, hs,
    doMatch_longest_per_start (Vm.new (litProgram 97)) 0
      [⟨none, 0, 0, 1⟩, ⟨none, 0, 0, 5⟩, ⟨none, 0, 1, 2⟩] 0 rfl
      (by
        intro t ht
        simp only [List.mem_cons, List.mem_singleton, List.not_mem_nil, or_false] at ht
        rcases ht with rfl | rfl | rfl <;> exact ⟨rfl, by decide, by decide⟩)
      hs⟩

/-! ## executeFrame: match span and frame end -/

/-- C13, the failing input: on `[LIT 'a', MATCH 0, HALT]` with `First = {'a'}`,
`executeFrame` for the byte 'a' at offset 1 cold-starts a thread with Start 1,
lets it consume the byte, and its MATCH sets End to 1, the offset of the byte
consumed, not to 2, the offset past it; the candidate stored by `doMatch` is
`(1, 1)`, of length 0, although one byte was matched. -/
theorem executeFrame_match_end_is_frame_offset :
    (Vm.new (litHaltProgram 97)).executeFrame 4 97 1 []
      = .ok ({ Vm.new (litHaltProgram 97) with
                Active := [{ PC := none, Label := 0, Start := 1, End := 1 }],
                Matches := [(1, 1)] }, []) := by
  rfl

/-- C14, the failing input: `executeFrame` returns without the swap. On
`[LIT 'a', CHECK_HALT 1, LIT 'b', MATCH 0, HALT]` the frame for 'a' at offset 0
processes one thread and returns with the parked thread in `Next` (not empty)
and the bits 0 and 1 of `CheckStates` set; on `[LIT 'a', MATCH 0, HALT]` it
returns with the dead thread in `Active` although no thread was parked, and a
second `executeFrame` then dereferences the null PC of that thread. -/
theorem executeFrame_leaves_frame_open :
    (Vm.new (checkedProgram 97 98)).executeFrame 4 97 0 []
      = .ok ({ Vm.new (checkedProgram 97 98) with
                Active := [{ PC := some 2, Label := 0, Start := 0, End := UNALLOCATED }],
                Next := [{ PC := some 2, Label := 0, Start := 0, End := UNALLOCATED }],
                CheckStates := [true, true, false] }, []) ∧
    (∃ vm1 hits1, (Vm.new (litHaltProgram 97)).executeFrame 4 97 1 [] = .ok (vm1, hits1) ∧
      vm1.Next = [] ∧ vm1.Active = [{ PC := none, Label := 0, Start := 1, End := 1 }] ∧
      vm1.executeFrame 4 97 2 hits1 = .error .undefined) :=
  ⟨rfl, _, _, rfl, rfl, rfl, rfl⟩

/-! ## Opcodes a phase does not handle -/

/-- C15, as stated, fails for the epsilon step: on a thread at SAVE_LABEL the
step returns false but leaves the PC as it is and appends the thread to `Next`. -/
theorem executeEpsilon_parks_save_label :
    _executeEpsilon saveLabelVm 0 0
      = .ok (false, { saveLabelVm with Next := [Thread.init 0] }) ∧
    (Thread.init 0).PC = some 0 := by
  exact ⟨rfl, rfl⟩

/-- C15 (amended): in the non-epsilon step an instruction whose opcode is none
of LIT, EITHER, RANGE, BIT_VECTOR, JUMP_TABLE, JUMP_TABLE_RANGE makes the step
return false with the thread's PC null, and the step touches neither `Next` nor
`Active`; in the epsilon step an instruction whose opcode is none of JUMP, FORK,
CHECK_HALT, MATCH, HALT (SAVE_LABEL and CHECK_BRANCH among them) makes the step
return false, leaves the thread as it is and appends it to `Next`. -/
theorem unhandled_opcode_steps (vm : Vm) (it offset cur : Nat) (t : Thread) (instr : Instruction)
    (ht : vm.threadAt it = .ok t) (hi : fetch vm.Prog.body t.PC = .ok instr) :
    (instr.OpCode ≠ LIT_OP → instr.OpCode ≠ EITHER_OP → instr.OpCode ≠ RANGE_OP →
      instr.OpCode ≠ BIT_VECTOR_OP → instr.OpCode ≠ JUMP_TABLE_OP →
      instr.OpCode ≠ JUMP_TABLE_RANGE_OP →
      _execute vm.Prog.body t cur = .ok (false, { t with PC := none })) ∧
    (instr.OpCode ≠ JUMP_OP → instr.OpCode ≠ FORK_OP → instr.OpCode ≠ CHECK_HALT_OP →
      instr.OpCode ≠ MATCH_OP → instr.OpCode ≠ HALT_OP →
      _executeEpsilon vm it offset = .ok (false, { vm with Next := vm.Next ++ [t] })) := by
  constructor
  · intro h1 h2 h3 h4 h5 h6
    unfold _execute
    rw [hi]
    dsimp only
    rw [if_neg h1, if_neg h2, if_neg h3, if_neg h4, if_neg h5, if_neg h6]
  · intro h1 h2 h3 h4 h5
    unfold _executeEpsilon
    rw [ht]
    dsimp only
    rw [hi]
    dsimp only
    rw [if_neg h1, if_neg h2, if_neg h3, if_neg h4, if_neg h5]

theorem unhandled_opcode_steps_witness :
    saveLabelVm.threadAt 0 = .ok (Thread.init 0) ∧
    fetch saveLabelVm.Prog.body (Thread.init 0).PC
      = .ok { OpCode := SAVE_LABEL_OP, Size := 0, Op := 0 } ∧
    _execute saveLabelVm.Prog.body (Thread.init 0) 97
      = .ok (false, { Thread.init 0 with PC := none }) ∧
    _executeEpsilon saveLabelVm 0 0
      = .ok (false, { saveLabelVm with Next := saveLabelVm.Next ++ [Thread.init 0] }) :=
  ⟨rfl, rfl,
    (unhandled_opcode_steps saveLabelVm 0 0 97 (Thread.init 0)
      { OpCode := SAVE_LABEL_OP, Size := 0, Op := 0 } rfl rfl).1
      (by decide) (by decide) (by decide) (by decide) (by decide) (by decide),
    (unhandled_opcode_steps saveLabelVm 0 0 97 (Thread.init 0)
      { OpCode := SAVE_LABEL_OP, Size := 0, Op := 0 } rfl rfl).2
      (by decide) (by decide) (by decide) (by decide) (by decide)⟩

/-! ## doMatch: two overlapping candidates -/

/-- C19, as stated, fails: the candidates `(0, 10)` and `(5, 6)` overlap; when
`(5, 6)` is presented first the slot ends up holding `(5, 6)`, the candidate
with the larger Start. -/
theorem doMatch_later_smaller_start_loses :
    Overlap ⟨none, 0, 5, 6⟩ ⟨none, 0, 0, 10⟩ ∧
    doMatchCalls [⟨none, 0, 5, 6⟩, ⟨none, 0, 0, 10⟩] (Vm.new (litProgram 97)) []
      = .ok ({ Vm.new (litProgram 97) with Matches := [(5, 6)] }, []) ∧
    doMatchCalls [⟨none, 0, 0, 10⟩, ⟨none, 0, 5, 6⟩] (Vm.new (litProgram 97)) []
      = .ok ({ Vm.new (litProgram 97) with Matches := [(0, 10)] }, []) := by
  refine ⟨by simp [Overlap], rfl, rfl⟩

/-- C19 (amended): for any two overlapping candidates `a`, `b` of the same
label, presented to `doMatch` in this order from an UNALLOCATED slot (so in
either order, `a` and `b` being arbitrary), no hit is emitted; when the Starts
are equal the slot ends up holding the candidate with the larger End, and when
they differ it holds the candidate presented first. -/
theorem doMatch_two_overlapping (vm : Vm) (label cEnd : Nat) (a b : Thread)
    (hslot : vm.Matches[label]? = some (UNALLOCATED, cEnd))
    (ha : a.Label = label) (hb : b.Label = label)
    (hbe : b.End < 2 ^ 64) (hov : Overlap a b) :
    ∃ vm1, doMatchCalls [a, b] vm [] = .ok (vm1, []) ∧
      vm1.Matches[label]?
        = some (if a.Start = b.Start then (a.Start, max a.End b.End) else (a.Start, a.End)) := by
  obtain ⟨h1, h2⟩ := hov
  have hU : UNALLOCATED = 2 ^ 64 - 1 := rfl
  subst ha
  obtain ⟨vm1, e1, m1⟩ := doMatch_slotRule vm a [] (UNALLOCATED, cEnd) hslot
  rw [slotRule_store a.Label _ a (Or.inl rfl)] at e1 m1
  rw [← hb] at m1
  obtain ⟨vm2, e2, m2⟩ := doMatch_slotRule vm1 b [] (a.Start, a.End) m1
  have hne : ¬ (a.Start, a.End).1 = UNALLOCATED := by
    show ¬ a.Start = UNALLOCATED
    omega
  have hdo : doMatchCalls [a, b] vm [] = .ok (vm2, [] ++ (slotRule b.Label (a.Start, a.End) b).2) := by
    unfold doMatchCalls
    rw [e1]
    dsimp only
    unfold doMatchCalls
    rw [List.append_nil, e2]
    rfl
  rw [hb] at m2 hdo
  by_cases hs : a.Start = b.Start
  · rw [if_pos hs]
    by_cases hl : a.End < b.End
    · rw [slotRule_store a.Label _ b (Or.inr ⟨hs, hl⟩)] at m2 hdo
      refine ⟨vm2, hdo, ?_⟩
      rw [m2, Nat.max_eq_right (Nat.le_of_lt hl), hs]
    · have c : ¬((a.Start, a.End).1 = UNALLOCATED ∨
          ((a.Start, a.End).1 = b.Start ∧ (a.Start, a.End).2 < b.End)) := by
        rintro (c | c)
        · exact hne c
        · exact hl c.2
      have c2 : ¬ (a.Start, a.End).2 ≤ b.Start := by
        show ¬ a.End ≤ b.Start
        omega
      rw [slotRule_keep a.Label _ b c c2] at m2 hdo
      refine ⟨vm2, hdo, ?_⟩
      rw [m2, Nat.max_eq_left (Nat.le_of_not_lt hl)]
  · rw [if_neg hs]
    have c : ¬((a.Start, a.End).1 = UNALLOCATED ∨
        ((a.Start, a.End).1 = b.Start ∧ (a.Start, a.End).2 < b.End)) := by
      rintro (c | c)
      · exact hne c
      · exact hs c.1
    have c2 : ¬ (a.Start, a.End).2 ≤ b.Start := by
      show ¬ a.End ≤ b.Start
      omega
    rw [slotRule_keep a.Label _ b c c2] at m2 hdo
    exact ⟨vm2, hdo, m2⟩

theorem doMatch_two_overlapping_witness :
    (Vm.new (litProgram 97)).Matches[0]? = some (UNALLOCATED, 0) ∧
    Overlap ⟨none, 0, 3, 5⟩ ⟨none, 0, 3, 9⟩ ∧
    ∃ vm1, doMatchCalls [⟨none, 0, 3, 5⟩, ⟨none, 0, 3, 9⟩] (Vm.new (litProgram 97)) []
        = .ok (vm1, []) ∧
      vm1.Matches[0]?
        = some (if (⟨none, 0, 3, 5⟩ : Thread).Start = (⟨none, 0, 3, 9⟩ : Thread).Start then
            ((⟨none, 0, 3, 5⟩ : Thread).Start,
              max (⟨none, 0, 3, 5⟩ : Thread).End (⟨none, 0, 3, 9⟩ : Thread).End)
          else ((⟨none, 0, 3, 5⟩ : Thread).Start, (⟨none, 0, 3, 5⟩ : Thread).End)) :=
  ⟨rfl, by simp [Overlap],
    doMatch_two_overlapping (Vm.new (litProgram 97)) 0 0 ⟨none, 0, 3, 5⟩ ⟨none, 0, 3, 9⟩ rfl rfl
      rfl (by decide) (by simp [Overlap])⟩

/-! ## VectorFamily -/

/-- C16, the failing input: for a holder in state ONE (size 1) `at(l, 1)`
returns the element instead of failing, and for a holder in state MANY with the
list `[1, 2]` (size 2) `at(l, 5)` indexes the vector unchecked, which is
undefined and not the out-of-bounds error; only state ZERO throws. -/
theorem at_unchecked_beyond_size :
    VectorFamily.size ⟨[]⟩ ⟨7, ONE⟩ = .ok 1 ∧
    VectorFamily.at ⟨[]⟩ ⟨7, ONE⟩ 1 = .ok 7 ∧
    VectorFamily.size ⟨[[1, 2]]⟩ ⟨0, MANY⟩ = .ok 2 ∧
    VectorFamily.at ⟨[[1, 2]]⟩ ⟨0, MANY⟩ 5 = .error .undefined ∧
    VectorFamily.at ⟨[]⟩ ⟨0, ZERO⟩ 0 = .error .outOfBounds := by
  exact ⟨rfl, rfl, rfl, rfl, rfl⟩

theorem toList_size (vf : VectorFamily) (l : Holder) (h : vf.Holds l) :
    ∃ xs, vf.toList l = .ok xs ∧ vf.size l = .ok xs.length := by
  obtain ⟨hw, hm⟩ := h
  unfold VectorFamily.toList VectorFamily.size
  rcases hw with hw | hw | hw
  · exact ⟨[], by simp [hw], by simp [hw]⟩
  · exact ⟨[l.What], by simp [hw], by simp [hw]⟩
  · have hlt := hm hw
    refine ⟨vf.Store[l.What], ?_, ?_⟩ <;> simp [hw, List.getElem?_eq_getElem hlt]

/-- C17: for every holder `l` of the family (in state ZERO, ONE or MANY) and
every element `e`, `remove(l, e)` fails with the "not in list" error if and only
if `e` does not occur in the list of `l`; otherwise it succeeds, the list of `l`
afterwards is the old one without the first occurrence of `e`, the other
elements in their order, and `size(l)` is one less than before (a MANY list of
two elements becomes a holder in state ONE). -/
theorem remove_first_occurrence (vf : VectorFamily) (l : Holder) (e : Nat) (h : vf.Holds l) :
    ∃ xs, vf.toList l = .ok xs ∧ vf.size l = .ok xs.length ∧
      (vf.remove l e = .error .notInList ↔ e ∉ xs) ∧
      (e ∈ xs → ∃ vf1 l1, vf.remove l e = .ok (vf1, l1) ∧
        vf1.toList l1 = .ok (xs.erase e) ∧ vf1.size l1 = .ok (xs.length - 1) ∧
        1 ≤ xs.length ∧ vf1.Holds l1 ∧ (xs.length = 2 → l1.Which = ONE)) := by
  obtain ⟨hw, hm⟩ := h
  rcases hw with hw | hw | hw
  · refine ⟨[], by simp [VectorFamily.toList, hw], by simp [VectorFamily.size, hw], ?_, ?_⟩
    · simp [VectorFamily.remove, hw]
    · intro hmem; simp at hmem
  · refine ⟨[l.What], by simp [VectorFamily.toList, hw], by simp [VectorFamily.size, hw], ?_, ?_⟩
    · by_cases he : l.What = e
      · simp [VectorFamily.remove, hw, he]
      · have : ¬ e = l.What := fun h => he h.symm
        simp [VectorFamily.remove, hw, he, this]
    · intro hmem
      have he : l.What = e := by
        rw [List.mem_singleton] at hmem
        exact hmem.symm
      refine ⟨vf, { l with Which := ZERO }, by simp [VectorFamily.remove, hw, he], ?_, ?_, ?_, ?_, ?_⟩
      · simp [VectorFamily.toList, he]
      · simp [VectorFamily.size]
      · simp
      · exact ⟨Or.inl rfl, by intro h; cases h⟩
      · intro h; simp at h
  · have hlt := hm hw
    have hg : vf.Store[l.What]? = some vf.Store[l.What] := List.getElem?_eq_getElem hlt
    have h0 : ¬ l.Which = ZERO := by rw [hw]; decide
    have h1 : ¬ l.Which = ONE := by rw [hw]; decide
    refine ⟨vf.Store[l.What], by simp [VectorFamily.toList, hw, hg],
      by simp [VectorFamily.size, hw, hg], ?_, ?_⟩
    · unfold VectorFamily.remove
      rw [if_neg h0, if_neg h1, hg]
      dsimp only
      by_cases hmem : e ∈ vf.Store[l.What]
      · rw [if_pos hmem]
        constructor
        · intro hh
          split_ifs at hh
        · intro hh; exact absurd hmem hh
      · rw [if_neg hmem]
        exact ⟨fun _ => hmem, fun _ => rfl⟩
    · intro hmem
      have hlen : (vf.Store[l.What].erase e).length = vf.Store[l.What].length - 1 :=
        List.length_erase_of_mem hmem
      have hpos : 1 ≤ vf.Store[l.What].length := List.length_pos_of_mem hmem
      unfold VectorFamily.remove
      rw [if_neg h0, if_neg h1, hg]
      dsimp only
      rw [if_pos hmem]
      by_cases hone : (vf.Store[l.What].erase e).length = 1
      · rw [if_pos hone]
        obtain ⟨x, hx⟩ := List.length_eq_one.1 hone
        refine ⟨_, _, rfl, ?_, ?_, hpos, ?_, fun _ => rfl⟩
        · simp [VectorFamily.toList, hx]
        · simp only [VectorFamily.size]
          rw [if_pos trivial, ← hlen, hone]
          rfl
        · exact ⟨Or.inr (Or.inl rfl), by intro h; cases h⟩
      · rw [if_neg hone]
        have hlt2 : l.What < (vf.Store.set l.What (vf.Store[l.What].erase e)).length := by
          rw [List.length_set]; exact hlt
        refine ⟨_, _, rfl, ?_, ?_, hpos, ?_, ?_⟩
        · simp [VectorFamily.toList, hw, hlt]
        · simp [VectorFamily.size, hw, hlt, hlen]
        · exact ⟨Or.inr (Or.inr hw), fun _ => hlt2⟩
        · intro h2
          exact absurd (by omega) hone

theorem remove_first_occurrence_witness :
    VectorFamily.Holds ⟨[[4, 5, 4]]⟩ ⟨0, MANY⟩ ∧
    ∃ xs, VectorFamily.toList ⟨[[4, 5, 4]]⟩ ⟨0, MANY⟩ = .ok xs ∧
      VectorFamily.size ⟨[[4, 5, 4]]⟩ ⟨0, MANY⟩ = .ok xs.length ∧
      (VectorFamily.remove ⟨[[4, 5, 4]]⟩ ⟨0, MANY⟩ 4 = .error .notInList ↔ 4 ∉ xs) ∧
      (4 ∈ xs → ∃ vf1 l1, VectorFamily.remove ⟨[[4, 5, 4]]⟩ ⟨0, MANY⟩ 4 = .ok (vf1, l1) ∧
        vf1.toList l1 = .ok (xs.erase 4) ∧ vf1.size l1 = .ok (xs.length - 1) ∧
        1 ≤ xs.length ∧ vf1.Holds l1 ∧ (xs.length = 2 → l1.Which = ONE)) :=
  have h : VectorFamily.Holds ⟨[[4, 5, 4]]⟩ ⟨0, MANY⟩ :=
    ⟨Or.inr (Or.inr rfl), fun _ => by decide⟩
  ⟨h, remove_first_occurrence ⟨[[4, 5, 4]]⟩ ⟨0, MANY⟩ 4 h⟩

/-- C18: for every holder `l` of the family in state ZERO, ONE or MANY,
`clear(l)` succeeds and leaves the tag `Which` at ZERO and `size(l) = 0`, and a
following `add(l, e)` yields the one-element list `[e]`. -/
theorem clear_resets (vf : VectorFamily) (l : Holder) (h : vf.Holds l) :
    ∃ vf1 l1, vf.clear l = .ok (vf1, l1) ∧ l1.Which = ZERO ∧ vf1.size l1 = .ok 0 ∧
      ∀ e, ∃ vf2 l2, vf1.add l1 e = .ok (vf2, l2) ∧ vf2.toList l2 = .ok [e] := by
  obtain ⟨hw, hm⟩ := h
  have fin : ∀ (vf1 : VectorFamily) (l1 : Holder), l1.Which = ZERO →
      vf1.size l1 = .ok 0 ∧
      ∀ e, ∃ vf2 l2, vf1.add l1 e = .ok (vf2, l2) ∧ vf2.toList l2 = .ok [e] := by
    intro vf1 l1 hz
    refine ⟨by simp [VectorFamily.size, hz], fun e => ⟨vf1, ⟨e, ONE⟩, ?_, ?_⟩⟩
    · simp [VectorFamily.add, hz]
    · simp [VectorFamily.toList]
  rcases hw with hw | hw | hw
  · refine ⟨vf, l, ?_, hw, fin vf l hw⟩
    simp [VectorFamily.clear, hw]
  · refine ⟨vf, { l with Which := ZERO }, ?_, rfl, fin _ _ rfl⟩
    simp [VectorFamily.clear, hw]
  · have hlt := hm hw
    refine ⟨{ Store := vf.Store.set l.What [] }, { l with Which := ZERO }, ?_, rfl, fin _ _ rfl⟩
    simp [VectorFamily.clear, hw, List.getElem?_eq_getElem hlt]

theorem clear_resets_witness :
    VectorFamily.Holds ⟨[[4, 5, 4]]⟩ ⟨0, MANY⟩ ∧
    ∃ vf1 l1, VectorFamily.clear ⟨[[4, 5, 4]]⟩ ⟨0, MANY⟩ = .ok (vf1, l1) ∧ l1.Which = ZERO ∧
      vf1.size l1 = .ok 0 ∧
      ∀ e, ∃ vf2 l2, vf1.add l1 e = .ok (vf2, l2) ∧ vf2.toList l2 = .ok [e] :=
  have h : VectorFamily.Holds ⟨[[4, 5, 4]]⟩ ⟨0, MANY⟩ :=
    ⟨Or.inr (Or.inr rfl), fun _ => by decide⟩
  ⟨h, clear_resets ⟨[[4, 5, 4]]⟩ ⟨0, MANY⟩ h⟩

/-! ## Check bits -/

theorem set_dirty_keeps_set_bits (cs : List Bool) (c i : Nat) (hi : cs[i]? = some true) :
    ((cs.set c true).set 0 true)[i]? = some true := by
  have hlt : i < cs.length := by
    by_contra hge
    rw [List.getElem?_eq_none (by omega)] at hi
    cases hi
  by_cases h0 : 0 = i
  · subst h0
    rw [List.getElem?_set_self (by rw [List.length_set]; exact hlt)]
  · rw [List.getElem?_set_ne h0]
    by_cases hc : c = i
    · subst hc
      rw [List.getElem?_set_self hlt]
    · rw [List.getElem?_set_ne hc]
      exact hi

theorem executeEpsilon_keeps_set_bits (vm vm1 : Vm) (it offset : Nat) (b : Bool)
    (h : _executeEpsilon vm it offset = .ok (b, vm1)) (i : Nat)
    (hi : vm.CheckStates[i]? = some true) : vm1.CheckStates[i]? = some true := by
  unfold _executeEpsilon at h
  dsimp only at h
  repeat' split at h
  all_goals cases h
  all_goals
    first
    | exact hi
    | exact set_dirty_keeps_set_bits _ _ _ hi

/-- C12: on a thread at `CHECK_HALT c`: if `CheckStates[c]` is clear the epsilon
step returns true, advances the thread's PC and sets `CheckStates[c]` and the
dirty bit `CheckStates[0]`, leaving the other bits; if `CheckStates[c]` is set
the step returns false with the thread's PC null and `CheckStates` unchanged.
Until the next `cleanup` a set bit stays set: no epsilon step clears it and
`doMatch` leaves `CheckStates` alone (the non-epsilon step acts on the thread
only), so after the first thread every arrival at `CHECK_HALT c` is killed; a
`cleanup` with the dirty bit set clears every bit. -/
theorem check_halt_once (vm : Vm) (it offset : Nat) (t : Thread) (instr : Instruction)
    (ht : vm.threadAt it = .ok t) (hi : fetch vm.Prog.body t.PC = .ok instr)
    (hop : instr.OpCode = CHECK_HALT_OP) :
    (vm.CheckStates[instr.Offset]? = some false →
      ∃ vm1, _executeEpsilon vm it offset = .ok (true, vm1) ∧
        vm1.threadAt it = .ok (t.advance instr) ∧
        vm1.CheckStates[instr.Offset]? = some true ∧ vm1.CheckStates[0]? = some true ∧
        ∀ i, i ≠ 0 → i ≠ instr.Offset → vm1.CheckStates[i]? = vm.CheckStates[i]?) ∧
    (vm.CheckStates[instr.Offset]? = some true →
      _executeEpsilon vm it offset = .ok (false, vm.setThread it { t with PC := none }) ∧
        (vm.setThread it { t with PC := none }).CheckStates = vm.CheckStates) ∧
    (∀ (vm2 vm3 : Vm) (it2 offset2 : Nat) (b : Bool),
      _executeEpsilon vm2 it2 offset2 = .ok (b, vm3) →
      vm2.CheckStates[instr.Offset]? = some true → vm3.CheckStates[instr.Offset]? = some true) ∧
    (∀ (vm2 vm3 : Vm) (t2 : Thread) (hits hits3 : List SearchHit),
      doMatch vm2 t2 hits = .ok (vm3, hits3) → vm3.CheckStates = vm2.CheckStates) ∧
    (∀ (vm2 vm3 : Vm), vm2.cleanup = .ok vm3 → vm2.CheckStates[0]? = some true →
      ∀ b ∈ vm3.CheckStates, b = false) := by
  have hit : it < vm.Active.length := by
    by_contra hge
    unfold Vm.threadAt at ht
    rw [List.getElem?_eq_none (by omega)] at ht
    cases ht
  have h1 : ¬ instr.OpCode = JUMP_OP := by rw [hop]; decide
  have h2 : ¬ instr.OpCode = FORK_OP := by rw [hop]; decide
  refine ⟨?_, ?_, ?_, ?_, ?_⟩
  · intro hc
    have hlt : instr.Offset < vm.CheckStates.length := by
      by_contra hge
      rw [List.getElem?_eq_none (by omega)] at hc
      cases hc
    refine ⟨({ vm with CheckStates := (vm.CheckStates.set instr.Offset true).set 0 true } :
      Vm).setThread it (t.advance instr), ?_, ?_, ?_, ?_, ?_⟩
    · unfold _executeEpsilon
      rw [ht]
      dsimp only
      rw [hi]
      dsimp only
      rw [if_neg h1, if_neg h2, if_pos hop, hc]
    · simp [Vm.threadAt, Vm.setThread, hit]
    · simp only [Vm.setThread]
      by_cases h0 : 0 = instr.Offset
      · rw [← h0, List.getElem?_set_self (by rw [List.length_set]; omega)]
      · rw [List.getElem?_set_ne h0, List.getElem?_set_self hlt]
    · simp only [Vm.setThread]
      rw [List.getElem?_set_self (by rw [List.length_set]; omega)]
    · intro i hi0 hic
      simp only [Vm.setThread]
      rw [List.getElem?_set_ne (fun h => hi0 h.symm), List.getElem?_set_ne (fun h => hic h.symm)]
  · intro hc
    refine ⟨?_, rfl⟩
    unfold _executeEpsilon
    rw [ht]
    dsimp only
    rw [hi]
    dsimp only
    rw [if_neg h1, if_neg h2, if_pos hop, hc]
  · intro vm2 vm3 it2 offset2 b h hc
    exact executeEpsilon_keeps_set_bits vm2 vm3 it2 offset2 b h _ hc
  · intro vm2 vm3 t2 hits hits3 h
    unfold doMatch at h
    repeat' split at h
    all_goals cases h
    all_goals rfl
  · intro vm2 vm3 h hd b hb
    unfold Vm.cleanup at h
    dsimp only at h
    rw [hd] at h
    cases h
    exact List.eq_of_mem_replicate hb

theorem check_halt_once_witness :
    checkHaltVm.threadAt 0 = .ok ⟨some 1, 0, 0, UNALLOCATED⟩ ∧
    checkHaltVm.CheckStates[1]? = some false ∧
    ∃ vm1, _executeEpsilon checkHaltVm 0 0 = .ok (true, vm1) ∧
      vm1.threadAt 0
        = .ok ((⟨some 1, 0, 0, UNALLOCATED⟩ : Thread).advance
            { OpCode := CHECK_HALT_OP, Size := 0, Op := 1 }) ∧
      vm1.CheckStates[1]? = some true ∧ vm1.CheckStates[0]? = some true ∧
      ∀ i, i ≠ 0 → i ≠ 1 → vm1.CheckStates[i]? = checkHaltVm.CheckStates[i]? :=
  ⟨rfl, rfl,
    (check_halt_once checkHaltVm 0 0 ⟨some 1, 0, 0, UNALLOCATED⟩
      { OpCode := CHECK_HALT_OP, Size := 0, Op := 1 } rfl rfl rfl).1 rfl⟩

/-! ## search on a machine at rest: what it returns -/

theorem execute_false (prog : List Instruction) (t t1 : Thread) (cur : Nat)
    (h : _execute prog t cur = .ok (false, t1)) : t1.PC = none := by
  unfold _execute at h
  dsimp only at h
  repeat' split at h
  all_goals cases h
  all_goals rfl

theorem executeLoop_dead (prog : List Instruction) (cur : Nat) :
    ∀ (fuel : Nat) (t t1 : Thread), executeLoop prog cur fuel t = .ok t1 → t1.PC = none := by
  intro fuel
  induction fuel with
  | zero => intro t t1 h; cases h
  | succ n ih =>
    intro t t1 h
    unfold executeLoop at h
    split at h
    · cases h
    · next t2 he => exact ih t2 t1 h
    · next t2 he => cases h; exact execute_false prog t _ cur he

theorem execute_inside (p : Program) (hp : p.StaysInside) (t : Thread) (cur pc : Nat)
    (hpc : t.PC = some pc) (hlt : pc < p.body.length) :
    ∃ b t1, _execute p.body t cur = .ok (b, t1) ∧
      (b = true → t1.PC = some (pc + 1) ∧ pc + 1 < p.body.length) := by
  obtain ⟨_, hall, hlast⟩ := hp
  obtain ⟨hsz, hbv, hjt, hjr⟩ := hall p.body[pc] (List.getElem_mem hlt)
  have hnext : (p.body[pc].OpCode = LIT_OP ∨ p.body[pc].OpCode = EITHER_OP ∨
      p.body[pc].OpCode = RANGE_OP) → pc + 1 < p.body.length := by
    intro hop
    by_contra hge
    have hidx : p.body.length - 1 = pc := by omega
    have hl : p.body.getLast? = some p.body[pc] := by
      rw [List.getLast?_eq_getElem?, hidx, List.getElem?_eq_getElem hlt]
    obtain ⟨a1, a2, a3⟩ := hlast _ hl
    rcases hop with hop | hop | hop
    · exact a1 hop
    · exact a2 hop
    · exact a3 hop
  have hadv : (t.advance p.body[pc]).PC = some (pc + 1) := by
    simp [Thread.advance, hpc, hsz]
  unfold _execute
  simp only [hpc, fetch, List.getElem?_eq_getElem hlt, Option.getD_some]
  by_cases c1 : p.body[pc].OpCode = LIT_OP
  · rw [if_pos c1]
    split_ifs
    · exact ⟨_, _, rfl, fun _ => ⟨hadv, hnext (Or.inl c1)⟩⟩
    · exact ⟨_, _, rfl, fun h => by cases h⟩
  · rw [if_neg c1]
    by_cases c2 : p.body[pc].OpCode = EITHER_OP
    · rw [if_pos c2]
      split_ifs
      · exact ⟨_, _, rfl, fun _ => ⟨hadv, hnext (Or.inr (Or.inl c2))⟩⟩
      · exact ⟨_, _, rfl, fun h => by cases h⟩
    · rw [if_neg c2]
      by_cases c3 : p.body[pc].OpCode = RANGE_OP
      · rw [if_pos c3]
        split_ifs
        · exact ⟨_, _, rfl, fun _ => ⟨hadv, hnext (Or.inr (Or.inr c3))⟩⟩
        · exact ⟨_, _, rfl, fun h => by cases h⟩
      · rw [if_neg c3, if_neg hbv, if_neg hjt, if_neg hjr]
        exact ⟨_, _, rfl, fun h => by cases h⟩

theorem executeLoop_inside (p : Program) (hp : p.StaysInside) (cur : Nat) :
    ∀ (fuel : Nat) (t : Thread) (pc : Nat), t.PC = some pc → pc < p.body.length →
      p.body.length + 1 ≤ fuel + pc → ∃ t1, executeLoop p.body cur fuel t = .ok t1 := by
  intro fuel
  induction fuel with
  | zero => intro t pc _ hlt hf; omega
  | succ n ih =>
    intro t pc hpc hlt hf
    obtain ⟨b, t1, he, hb⟩ := execute_inside p hp t cur pc hpc hlt
    unfold executeLoop
    rw [he]
    cases b with
    | true =>
      obtain ⟨h1, h2⟩ := hb rfl
      exact ih t1 (pc + 1) h1 h2 (by omega)
    | false => exact ⟨t1, rfl⟩

theorem searchBytes_inside (fuel : Nat) (vm : Vm) (hq : vm.Quiet) (hp : vm.Prog.StaysInside)
    (hf : vm.Prog.body.length + 1 ≤ fuel) (hits : List SearchHit) :
    ∀ (input : List Nat) (offset : Nat), offset + input.length ≤ UNALLOCATED →
      ∃ r, searchBytes fuel input vm 0 offset hits = .ok r := by
  intro input
  induction input with
  | nil => intro offset _; exact ⟨_, rfl⟩
  | cons cur rest ih =>
    intro offset ho
    simp only [List.length_cons] at ho
    have hne : offset ≠ UNALLOCATED := by omega
    have hU : UNALLOCATED = 2 ^ 64 - 1 := rfl
    have hmod : (offset + 1) % 2 ^ 64 = offset + 1 := Nat.mod_eq_of_lt (by omega)
    have hpos : 0 < vm.Prog.body.length := List.length_pos.2 hp.1
    obtain ⟨t1, ht1⟩ :=
      executeLoop_inside vm.Prog hp cur fuel (Thread.init offset) 0 rfl hpos (by omega)
    unfold searchBytes
    rw [searchByte_quiet fuel vm hq cur offset hits hne (by omega), ht1]
    by_cases hb : vm.Prog.First.testBit cur = true
    · rw [if_pos hb]
      dsimp only
      rw [hmod]
      exact ih (offset + 1) (by omega)
    · rw [if_neg hb]
      dsimp only
      rw [hmod]
      exact ih (offset + 1) (by omega)

theorem reset_fresh (vm : Vm) (h : vm.CheckStates ≠ []) : vm.reset.Fresh := by
  refine ⟨⟨rfl, rfl, ?_⟩, ?_⟩
  · have : 0 < vm.CheckStates.length := List.length_pos.2 h
    simp only [Vm.reset]
    rw [List.getElem?_eq_getElem (by simpa using this)]
    simp
  · intro m hm
    simp only [Vm.reset] at hm
    rw [List.eq_of_mem_replicate hm]

/-- C20, as stated, fails: on the non-empty program `[LIT 'a']` with
`First = {'a'}` and the input "a", `search` on a freshly initialised machine
steps the thread past the last instruction and reads outside the program, which
is undefined; it does not return false. -/
theorem search_runs_off_program :
    (Vm.new ⟨0, 2 ^ 97, [Instruction.makeLit 97]⟩).search 2 [97] 0 [] = .error .undefined := by
  rfl

/-- C20 (amended): on a machine in its post-init or post-reset state, for every
input whose absolute offsets stay below UNALLOCATED, a `search` that does not
read outside the program never invokes the hit callback, leaves `Active` and
`Next` empty and every Matches slot UNALLOCATED (the machine is unchanged) and
returns false; it never runs short of a loop budget above the program length.
It does not read outside the program whenever the program is non-empty, made of
single-word instructions without BIT_VECTOR, JUMP_TABLE and JUMP_TABLE_RANGE,
and does not end with LIT, EITHER or RANGE. The loop `while (_execute(...)) ;`
never changes End and ends with the thread killed (PC null). -/
theorem search_fresh_delivers_nothing (fuel : Nat) (vm : Vm) (input : List Nat) (start : Nat)
    (hits : List SearchHit) (hv : vm.Fresh) (hs : start + input.length ≤ UNALLOCATED)
    (hf : vm.Prog.body.length + 1 ≤ fuel) :
    (vm.search fuel input start hits = .error .undefined ∨
      vm.search fuel input start hits = .ok (false, vm, hits)) ∧
    (vm.Prog.StaysInside → vm.search fuel input start hits = .ok (false, vm, hits)) ∧
    (∀ (cur n : Nat) (t t1 : Thread), executeLoop vm.Prog.body cur n t = .ok t1 →
      t1.PC = none ∧ t1.End = t.End) ∧
    vm.Active = [] ∧ vm.Next = [] ∧ ∀ m ∈ vm.Matches, m.1 = UNALLOCATED := by
  have e := search_fresh fuel (by omega) vm hv input start hits hs
  have hfuel := searchBytes_quiet_fuel fuel vm hv.1 hf hits input start hs
  refine ⟨?_, ?_, ?_, hv.1.1, hv.1.2.1, hv.2⟩
  · rw [e]
    cases hb : searchBytes fuel input vm 0 start hits with
    | error err =>
      cases err with
      | undefined => exact Or.inl rfl
      | fuel => exact absurd hb hfuel
    | ok r => exact Or.inr rfl
  · intro hp
    obtain ⟨r, hr⟩ := searchBytes_inside fuel vm hv.1 hp hf hits input start hs
    rw [e, hr]
  · intro cur n t t1 h
    exact ⟨executeLoop_dead _ _ _ _ _ h, executeLoop_end _ _ _ _ _ h⟩

theorem search_fresh_delivers_nothing_witness :
    (Vm.new (litProgram 97)).Fresh ∧ 0 + [120, 97, 120, 97, 120].length ≤ UNALLOCATED ∧
    (Vm.new (litProgram 97)).Prog.body.length + 1 ≤ 3 ∧
    (Vm.new (litProgram 97)).Prog.StaysInside ∧
    (Vm.new (litProgram 97)).search 3 [120, 97, 120, 97, 120] 0 []
      = .ok (false, Vm.new (litProgram 97), []) :=
  have hp : (Vm.new (litProgram 97)).Prog.StaysInside := by
    refine ⟨by simp [Vm.new, Vm.init, Vm.reset, litProgram], ?_, ?_⟩
    · intro i hi
      simp only [Vm.new, Vm.init, Vm.reset, litProgram, Instruction.makeLit,
        Instruction.makeMatch, List.mem_cons, List.mem_singleton, List.not_mem_nil,
        or_false] at hi
      rcases hi with rfl | rfl <;> exact ⟨rfl, by decide, by decide, by decide⟩
    · intro i hi
      simp only [Vm.new, Vm.init, Vm.reset, litProgram, Instruction.makeLit,
        Instruction.makeMatch, List.getLast?, List.getLast, Option.some.injEq] at hi
      subst hi
      exact ⟨by decide, by decide, by decide⟩
  ⟨init_fresh _ _, by decide, by decide, hp,
    (search_fresh_delivers_nothing 3 (Vm.new (litProgram 97)) [120, 97, 120, 97, 120] 0 []
      (init_fresh _ _) (by decide) (by decide)).2.1 hp⟩

/-! ## Where start offsets come from -/

theorem execute_start (prog : List Instruction) (t t1 : Thread) (cur : Nat) (b : Bool)
    (h : _execute prog t cur = .ok (b, t1)) : t1.Start = t.Start := by
  unfold _execute at h
  dsimp only at h
  repeat' split at h
  all_goals cases h
  all_goals rfl

theorem executeLoop_start (prog : List Instruction) (cur : Nat) :
    ∀ (fuel : Nat) (t t1 : Thread), executeLoop prog cur fuel t = .ok t1 →
      t1.Start = t.Start := by
  intro fuel
  induction fuel with
  | zero => intro t t1 h; cases h
  | succ n ih =>
    intro t t1 h
    unfold executeLoop at h
    split at h
    · cases h
    · next t2 he => rw [ih t2 t1 h, execute_start prog t t2 cur true he]
    · next t2 he => cases h; exact execute_start prog t _ cur false he

theorem threadAt_mem (vm : Vm) (it : Nat) (t : Thread) (h : vm.threadAt it = .ok t) :
    t ∈ vm.Active := by
  unfold Vm.threadAt at h
  split at h
  · next t2 he =>
    cases h
    exact List.getElem?_mem he
  · cases h

theorem startsIn_setThread (Q : Nat → Prop) (vm : Vm) (hits : List SearchHit) (it : Nat)
    (t : Thread) (h : StartsIn Q vm hits) (ht : Q t.Start) :
    StartsIn Q (vm.setThread it t) hits := by
  obtain ⟨h1, h2, h3, h4⟩ := h
  refine ⟨?_, h2, h3, h4⟩
  intro x hx
  rcases List.mem_or_eq_of_mem_set hx with hx | hx
  · exact h1 x hx
  · rw [hx]; exact ht

theorem startsIn_pushActive (Q : Nat → Prop) (vm : Vm) (hits : List SearchHit) (t : Thread)
    (h : StartsIn Q vm hits) (ht : Q t.Start) :
    StartsIn Q { vm with Active := vm.Active ++ [t] } hits := by
  obtain ⟨h1, h2, h3, h4⟩ := h
  refine ⟨?_, h2, h3, h4⟩
  intro x hx
  rcases List.mem_append.1 hx with hx | hx
  · exact h1 x hx
  · rw [List.mem_singleton.1 hx]; exact ht

theorem startsIn_pushNext (Q : Nat → Prop) (vm : Vm) (hits : List SearchHit) (t : Thread)
    (h : StartsIn Q vm hits) (ht : Q t.Start) :
    StartsIn Q { vm with Next := vm.Next ++ [t] } hits := by
  obtain ⟨h1, h2, h3, h4⟩ := h
  refine ⟨h1, ?_, h3, h4⟩
  intro x hx
  rcases List.mem_append.1 hx with hx | hx
  · exact h2 x hx
  · rw [List.mem_singleton.1 hx]; exact ht

theorem startsIn_checkStates (Q : Nat → Prop) (vm : Vm) (hits : List SearchHit)
    (cs : List Bool) (h : StartsIn Q vm hits) :
    StartsIn Q { vm with CheckStates := cs } hits := h

theorem executeEpsilon_starts (Q : Nat → Prop) (vm vm1 : Vm) (hits : List SearchHit)
    (it offset : Nat) (b : Bool) (h0 : StartsIn Q vm hits)
    (h : _executeEpsilon vm it offset = .ok (b, vm1)) : StartsIn Q vm1 hits := by
  unfold _executeEpsilon at h
  cases ht : vm.threadAt it with
  | error e => rw [ht] at h; cases h
  | ok t =>
    have hq : Q t.Start := h0.1 t (threadAt_mem vm it t ht)
    rw [ht] at h
    dsimp only at h
    cases hi : fetch vm.Prog.body t.PC with
    | error e => rw [hi] at h; cases h
    | ok instr =>
      rw [hi] at h
      dsimp only at h
      split_ifs at h
      · cases h
        exact startsIn_setThread Q vm hits it _ h0 hq
      · cases h
        exact startsIn_setThread Q _ hits it _ (startsIn_pushActive Q vm hits _ h0 hq) hq
      · split at h
        · cases h
        · cases h
          exact startsIn_setThread Q vm hits it _ h0 hq
        · cases h
          exact startsIn_setThread Q _ hits it _ (startsIn_checkStates Q vm hits _ h0) hq
      · cases h
        exact startsIn_setThread Q vm hits it _ h0 hq
      · cases h
        exact startsIn_setThread Q vm hits it _ h0 hq
      · cases h
        exact startsIn_pushNext Q vm hits t h0 hq

theorem epsilonLoop_starts (Q : Nat → Prop) (hits : List SearchHit) (it offset : Nat) :
    ∀ (fuel : Nat) (vm vm1 : Vm), StartsIn Q vm hits →
      epsilonLoop it offset fuel vm = .ok vm1 → StartsIn Q vm1 hits := by
  intro fuel
  induction fuel with
  | zero => intro vm vm1 _ h; cases h
  | succ n ih =>
    intro vm vm1 h0 h
    unfold epsilonLoop at h
    split at h
    · cases h
    · next vm2 he => exact ih vm2 vm1 (executeEpsilon_starts Q vm vm2 hits it offset true h0 he) h
    · next vm2 he =>
      cases h
      exact executeEpsilon_starts Q vm _ hits it offset false h0 he

theorem doMatch_starts (Q : Nat → Prop) (vm vm1 : Vm) (hits hits1 : List SearchHit)
    (t : Thread) (h0 : StartsIn Q vm hits) (hq : Q t.Start)
    (h : doMatch vm t hits = .ok (vm1, hits1)) : StartsIn Q vm1 hits1 := by
  obtain ⟨h1, h2, h3, h4⟩ := h0
  have hset : ∀ m ∈ vm.Matches.set t.Label (t.Start, t.End), m.1 = UNALLOCATED ∨ Q m.1 := by
    intro m hm
    rcases List.mem_or_eq_of_mem_set hm with hm | hm
    · exact h3 m hm
    · rw [hm]; exact Or.inr hq
  unfold doMatch at h
  split at h
  · cases h
  · next lastHit hl =>
    have hmem : lastHit ∈ vm.Matches := List.getElem?_mem hl
    split_ifs at h with c1 c2
    · cases h
      exact ⟨h1, h2, hset, h4⟩
    · cases h
      refine ⟨h1, h2, hset, ?_⟩
      intro x hx
      rcases List.mem_append.1 hx with hx | hx
      · exact h4 x hx
      · rw [List.mem_singleton.1 hx]
        rcases h3 lastHit hmem with hu | hu
        · exact absurd (Or.inl hu) c1
        · exact hu
    · cases h
      exact ⟨h1, h2, h3, h4⟩

theorem matchIfFresh_starts (Q : Nat → Prop) (vm vm1 : Vm) (hits hits1 : List SearchHit)
    (it offset : Nat) (h0 : StartsIn Q vm hits)
    (h : matchIfFresh vm it offset hits = .ok (vm1, hits1)) : StartsIn Q vm1 hits1 := by
  unfold matchIfFresh at h
  cases ht : vm.threadAt it with
  | error e => rw [ht] at h; cases h
  | ok t =>
    rw [ht] at h
    dsimp only at h
    split_ifs at h
    · exact doMatch_starts Q vm vm1 hits hits1 t h0 (h0.1 t (threadAt_mem vm it t ht)) h
    · cases h
      exact h0

theorem frameThread_starts (Q : Nat → Prop) (fuel : Nat) (vm vm1 : Vm)
    (hits hits1 : List SearchHit) (it cur offset : Nat) (h0 : StartsIn Q vm hits)
    (h : frameThread fuel vm it cur offset hits = .ok (vm1, hits1)) : StartsIn Q vm1 hits1 := by
  unfold frameThread at h
  cases ht : vm.threadAt it with
  | error e => rw [ht] at h; cases h
  | ok t =>
    have hq : Q t.Start := h0.1 t (threadAt_mem vm it t ht)
    rw [ht] at h
    dsimp only at h
    split at h
    · cases h
    · next t1 he =>
      have hq1 : Q t1.Start := by rw [execute_start _ t t1 cur true he]; exact hq
      split at h
      · cases h
      · next vm2 hl =>
        exact matchIfFresh_starts Q vm2 vm1 hits hits1 it offset
          (epsilonLoop_starts Q hits it offset fuel _ vm2
            (startsIn_setThread Q vm hits it t1 h0 hq1) hl) h
    · next t1 he =>
      have hq1 : Q t1.Start := by rw [execute_start _ t t1 cur false he]; exact hq
      cases h
      exact startsIn_setThread Q vm hits it t1 h0 hq1

theorem frameWalk_starts (Q : Nat → Prop) (fuel cur offset : Nat) :
    ∀ (n : Nat) (vm : Vm) (it : Nat) (hits : List SearchHit) (r : Vm × Nat × List SearchHit),
      StartsIn Q vm hits → frameWalk fuel cur offset n vm it hits = .ok r →
      StartsIn Q r.1 r.2.2 := by
  intro n
  induction n with
  | zero => intro vm it hits r _ h; cases h
  | succ n ih =>
    intro vm it hits r h0 h
    unfold frameWalk at h
    split_ifs at h
    · split at h
      · cases h
      · next vm1 hits1 he =>
        exact ih vm1 (it + 1) hits1 r (frameThread_starts Q fuel vm vm1 hits hits1 it cur offset h0 he) h
    · cases h
      exact h0

theorem frameDoWhile_starts (Q : Nat → Prop) (fuel cur offset : Nat) :
    ∀ (n : Nat) (vm : Vm) (it : Nat) (hits : List SearchHit) (r : Vm × Nat × List SearchHit),
      StartsIn Q vm hits → frameDoWhile fuel cur offset n vm it hits = .ok r →
      StartsIn Q r.1 r.2.2 := by
  intro n
  induction n with
  | zero => intro vm it hits r _ h; cases h
  | succ n ih =>
    intro vm it hits r h0 h
    unfold frameDoWhile at h
    split at h
    · cases h
    · next vm1 hits1 he =>
      have h1 := frameThread_starts Q fuel vm vm1 hits hits1 it cur offset h0 he
      split_ifs at h
      · exact ih vm1 (it + 1) hits1 r h1 h
      · cases h
        exact h1

theorem executeFrame_starts (Q : Nat → Prop) (fuel first : Nat) (vm : Vm) (it cur offset : Nat)
    (hits : List SearchHit) (r : Vm × Nat × List SearchHit) (h0 : StartsIn Q vm hits)
    (hq : first.testBit cur = true → Q offset)
    (h : _executeFrame fuel first vm it cur offset hits = .ok r) : StartsIn Q r.1 r.2.2 := by
  unfold _executeFrame at h
  split at h
  · cases h
  · next vm1 it1 hits1 hw =>
    have h1 : StartsIn Q vm1 hits1 := frameWalk_starts Q fuel cur offset fuel vm it hits _ h0 hw
    split_ifs at h with hb
    · exact frameDoWhile_starts Q fuel cur offset fuel _ it1 hits1 r
        (startsIn_pushActive Q vm1 hits1 (Thread.init offset) h1 (hq hb)) h
    · cases h
      exact h1

theorem searchThread_starts (Q : Nat → Prop) (fuel : Nat) (vm vm1 : Vm)
    (hits hits1 : List SearchHit) (it cur offset : Nat) (h0 : StartsIn Q vm hits)
    (h : searchThread fuel vm it cur offset hits = .ok (vm1, hits1)) : StartsIn Q vm1 hits1 := by
  unfold searchThread at h
  cases ht : vm.threadAt it with
  | error e => rw [ht] at h; cases h
  | ok t =>
    have hq : Q t.Start := h0.1 t (threadAt_mem vm it t ht)
    rw [ht] at h
    dsimp only at h
    split at h
    · cases h
    · next t1 he =>
      have hq1 : Q t1.Start := by rw [executeLoop_start _ _ _ t t1 he]; exact hq
      exact matchIfFresh_starts Q _ vm1 hits hits1 it offset
        (startsIn_setThread Q vm hits it t1 h0 hq1) h

theorem searchWalk_starts (Q : Nat → Prop) (fuel cur offset : Nat) :
    ∀ (n : Nat) (vm : Vm) (it : Nat) (hits : List SearchHit) (r : Vm × Nat × List SearchHit),
      StartsIn Q vm hits → searchWalk fuel cur offset n vm it hits = .ok r →
      StartsIn Q r.1 r.2.2 := by
  intro n
  induction n with
  | zero => intro vm it hits r _ h; cases h
  | succ n ih =>
    intro vm it hits r h0 h
    unfold searchWalk at h
    split_ifs at h
    · split at h
      · cases h
      · next vm1 hits1 he =>
        exact ih vm1 (it + 1) hits1 r
          (searchThread_starts Q fuel vm vm1 hits hits1 it cur offset h0 he) h
    · cases h
      exact h0

theorem searchDoWhile_starts (Q : Nat → Prop) (fuel cur offset : Nat) :
    ∀ (n : Nat) (vm : Vm) (it : Nat) (hits : List SearchHit) (r : Vm × Nat × List SearchHit),
      StartsIn Q vm hits → searchDoWhile fuel cur offset n vm it hits = .ok r →
      StartsIn Q r.1 r.2.2 := by
  intro n
  induction n with
  | zero => intro vm it hits r _ h; cases h
  | succ n ih =>
    intro vm it hits r h0 h
    unfold searchDoWhile at h
    split at h
    · cases h
    · next vm1 hits1 he =>
      have h1 := searchThread_starts Q fuel vm vm1 hits hits1 it cur offset h0 he
      split_ifs at h
      · exact ih vm1 (it + 1) hits1 r h1 h
      · cases h
        exact h1

theorem cleanup_starts (Q : Nat → Prop) (vm vm1 : Vm) (hits : List SearchHit)
    (h0 : StartsIn Q vm hits) (h : vm.cleanup = .ok vm1) : StartsIn Q vm1 hits := by
  obtain ⟨_, h2, h3, h4⟩ := h0
  unfold Vm.cleanup at h
  dsimp only at h
  split at h
  · cases h
  · cases h
    exact ⟨h2, fun x hx => absurd hx (List.not_mem_nil _), h3, h4⟩
  · cases h
    exact ⟨h2, fun x hx => absurd hx (List.not_mem_nil _), h3, h4⟩

theorem doMatch_prog (vm vm1 : Vm) (t : Thread) (hits hits1 : List SearchHit)
    (h : doMatch vm t hits = .ok (vm1, hits1)) : vm1.Prog = vm.Prog := by
  unfold doMatch at h
  repeat' split at h
  all_goals cases h
  all_goals rfl

theorem matchIfFresh_prog (vm vm1 : Vm) (it offset : Nat) (hits hits1 : List SearchHit)
    (h : matchIfFresh vm it offset hits = .ok (vm1, hits1)) : vm1.Prog = vm.Prog := by
  unfold matchIfFresh at h
  split at h
  · cases h
  · split_ifs at h
    · exact doMatch_prog _ _ _ _ _ h
    · cases h
      rfl

theorem searchThread_prog (fuel : Nat) (vm vm1 : Vm) (it cur offset : Nat)
    (hits hits1 : List SearchHit)
    (h : searchThread fuel vm it cur offset hits = .ok (vm1, hits1)) : vm1.Prog = vm.Prog := by
  unfold searchThread at h
  split at h
  · cases h
  · split at h
    · cases h
    · have := matchIfFresh_prog _ _ _ _ _ _ h
      exact this

theorem searchWalk_prog (fuel cur offset : Nat) :
    ∀ (n : Nat) (vm : Vm) (it : Nat) (hits : List SearchHit) (r : Vm × Nat × List SearchHit),
      searchWalk fuel cur offset n vm it hits = .ok r → r.1.Prog = vm.Prog := by
  intro n
  induction n with
  | zero => intro vm it hits r h; cases h
  | succ n ih =>
    intro vm it hits r h
    unfold searchWalk at h
    split_ifs at h
    · split at h
      · cases h
      · next vm1 hits1 he =>
        rw [ih vm1 (it + 1) hits1 r h, searchThread_prog fuel vm vm1 it cur offset hits hits1 he]
    · cases h
      rfl

theorem searchByte_starts (Q : Nat → Prop) (fuel : Nat) (vm : Vm) (it cur offset : Nat)
    (hits : List SearchHit) (r : Vm × Nat × List SearchHit) (h0 : StartsIn Q vm hits)
    (hq : vm.Prog.First.testBit cur = true → Q offset)
    (h : searchByte fuel vm it cur offset hits = .ok r) : StartsIn Q r.1 r.2.2 := by
  unfold searchByte at h
  cases hw : searchWalk fuel cur offset fuel vm it hits with
  | error e => rw [hw] at h; cases h
  | ok r1 =>
    obtain ⟨vm1, it1, hits1⟩ := r1
    have h1 : StartsIn Q vm1 hits1 := searchWalk_starts Q fuel cur offset fuel vm it hits _ h0 hw
    have hprog : vm1.Prog = vm.Prog := searchWalk_prog fuel cur offset fuel vm it hits _ hw
    rw [hw] at h
    dsimp only at h
    have hcold : ∀ r2, (if vm1.Prog.First.testBit cur = true then
          searchDoWhile fuel cur offset fuel
            { vm1 with Active := vm1.Active ++ [Thread.init offset] } it1 hits1
        else .ok (vm1, it1, hits1)) = .ok r2 → StartsIn Q r2.1 r2.2.2 := by
      intro r2 hr2
      split_ifs at hr2 with hb
      · rw [hprog] at hb
        exact searchDoWhile_starts Q fuel cur offset fuel _ it1 hits1 r2
          (startsIn_pushActive Q vm1 hits1 (Thread.init offset) h1 (hq hb)) hr2
      · cases hr2
        exact h1
    split at h
    · cases h
    · next vm2 it2 hits2 hc =>
      have h2 : StartsIn Q vm2 hits2 := hcold _ hc
      split_ifs at h
      · split at h
        · cases h
        · next vm3 hcl =>
          cases h
          exact cleanup_starts Q vm2 vm3 hits2 h2 hcl
      · cases h
        exact h2

/-! ## Termination of the epsilon closure -/

theorem epsSucc_lt (prog : List Instruction) (i j : Nat) (h : epsSucc prog i j) :
    i < prog.length := by
  obtain ⟨instr, hi, _⟩ := h
  by_contra hge
  rw [List.getElem?_eq_none (by omega)] at hi
  cases hi

theorem freeStep_acc (prog : List Instruction) (hc : CheckCovered prog) (i : Nat) :
    Acc (fun b a => freeStep prog a b) i := by
  let r : Fin prog.length → Fin prog.length → Prop :=
    fun b a => Relation.TransGen (freeStep prog) a.val b.val
  have htrans : IsTrans (Fin prog.length) r := ⟨fun _ _ _ h1 h2 => Relation.TransGen.trans h2 h1⟩
  have hirr : IsIrrefl (Fin prog.length) r := ⟨fun a h => hc a.val h⟩
  have hwf : WellFounded r := Finite.wellFounded_of_trans_of_irrefl r
  have hout : ∀ j, ¬ j < prog.length → Acc (fun b a => freeStep prog a b) j := by
    intro j hj
    exact Acc.intro j (fun k hk => absurd (epsSucc_lt prog j k hk.1) hj)
  have hin : ∀ a : Fin prog.length, Acc (fun b a => freeStep prog a b) a.val := by
    intro a
    induction a using hwf.induction with
    | _ a ih =>
      refine Acc.intro a.val (fun k hk => ?_)
      by_cases hlt : k < prog.length
      · exact ih ⟨k, hlt⟩ (Relation.TransGen.single hk)
      · exact hout k hlt
  by_cases hlt : i < prog.length
  · exact hin ⟨i, hlt⟩
  · exact hout i hlt

theorem count_false_set_true_le (cs : List Bool) (i : Nat) :
    (cs.set i true).count false ≤ cs.count false := by
  induction cs generalizing i with
  | nil => simp
  | cons c cs ih =>
    cases i with
    | zero => cases c <;> simp [List.count_cons]
    | succ i =>
      have := ih i
      simp only [List.set_cons_succ, List.count_cons]
      omega

theorem count_false_set_true_lt (cs : List Bool) (i : Nat) (h : cs[i]? = some false) :
    (cs.set i true).count false < cs.count false := by
  induction cs generalizing i with
  | nil => simp at h
  | cons c cs ih =>
    cases i with
    | zero =>
      simp only [List.getElem?_cons_zero, Option.some.injEq] at h
      subst h
      simp [List.count_cons]
    | succ i =>
      rw [List.getElem?_cons_succ] at h
      have := ih i h
      simp only [List.set_cons_succ, List.count_cons]
      omega

theorem threadAt_lt (vm : Vm) (it : Nat) (t : Thread) (h : vm.threadAt it = .ok t) :
    it < vm.Active.length := by
  by_contra hge
  unfold Vm.threadAt at h
  rw [List.getElem?_eq_none (by omega)] at h
  cases h

theorem threadAt_setThread (vm : Vm) (it : Nat) (t : Thread) (h : it < vm.Active.length) :
    (vm.setThread it t).threadAt it = .ok t := by
  simp [Vm.threadAt, Vm.setThread, h]

theorem fetch_some (prog : List Instruction) (i : Nat) (instr : Instruction)
    (h : prog[i]? = some instr) : fetch prog (some i) = .ok instr := by
  simp [fetch, h]

theorem epsilonLoop_true (vm vm1 : Vm) (it offset fuel : Nat)
    (h : _executeEpsilon vm it offset = .ok (true, vm1)) :
    epsilonLoop it offset (fuel + 1) vm = epsilonLoop it offset fuel vm1 := by
  rw [epsilonLoop, h]

theorem epsilonLoop_false (vm vm1 : Vm) (it offset fuel : Nat)
    (h : _executeEpsilon vm it offset = .ok (false, vm1)) :
    epsilonLoop it offset (fuel + 1) vm = .ok vm1 := by
  rw [epsilonLoop, h]

theorem epsilonLoop_error (vm : Vm) (it offset fuel : Nat) (e : Fault)
    (h : _executeEpsilon vm it offset = .error e) :
    epsilonLoop it offset (fuel + 1) vm = .error e := by
  rw [epsilonLoop, h]

theorem closureWithin_mono (N M : Nat) (vm : Vm) (it offset i : Nat) (h : N ≤ M)
    (hc : ClosureWithin N vm it offset i) : ClosureWithin M vm it offset i := by
  intro fuel hf
  obtain ⟨h1, h2, h3⟩ := hc fuel (Nat.le_trans h hf)
  exact ⟨h1, fun vm1 hv => Nat.le_trans (h2 vm1 hv) (by omega), h3⟩

theorem closureWithin_of_true (N : Nat) (vm vm1 : Vm) (it offset i j : Nat)
    (hstep : _executeEpsilon vm it offset = .ok (true, vm1))
    (hlen : vm1.Active.length ≤ vm.Active.length + 1)
    (hprog : vm1.Prog = vm.Prog) (hcs : vm1.CheckStates.length = vm.CheckStates.length)
    (hj : epsSucc vm.Prog.body i j)
    (hc : ClosureWithin N vm1 it offset j) : ClosureWithin (N + 1) vm it offset i := by
  intro fuel hf
  obtain ⟨f, rfl⟩ : ∃ f, fuel = f + 1 := ⟨fuel - 1, by omega⟩
  rw [epsilonLoop_true vm vm1 it offset f hstep]
  obtain ⟨h1, h2, h3⟩ := hc f (by omega)
  refine ⟨h1, fun vm2 hv => ?_, fun hvalid _ => ?_⟩
  · have := h2 vm2 hv
    omega
  · apply h3
    · unfold EpsilonValid
      rw [hprog, hcs]
      exact hvalid
    · rw [hprog]
      exact hvalid.1 i j hj

theorem closureWithin_of_false (vm vm1 : Vm) (it offset i : Nat)
    (hstep : _executeEpsilon vm it offset = .ok (false, vm1))
    (hlen : vm1.Active.length ≤ vm.Active.length + 1) : ClosureWithin 1 vm it offset i := by
  intro fuel hf
  obtain ⟨f, rfl⟩ : ∃ f, fuel = f + 1 := ⟨fuel - 1, by omega⟩
  rw [epsilonLoop_false vm vm1 it offset f hstep]
  refine ⟨(fun h => by cases h), fun vm2 hv => ?_, fun _ _ => ⟨vm1, rfl⟩⟩
  cases hv
  exact hlen

theorem closureWithin_of_error (vm : Vm) (it offset i : Nat)
    (hstep : _executeEpsilon vm it offset = .error .undefined)
    (hno : EpsilonValid vm → i < vm.Prog.body.length → False) :
    ClosureWithin 1 vm it offset i := by
  intro fuel hf
  obtain ⟨f, rfl⟩ : ∃ f, fuel = f + 1 := ⟨fuel - 1, by omega⟩
  rw [epsilonLoop_error vm it offset f _ hstep]
  exact ⟨(fun h => by cases h), (fun vm2 hv => by cases hv), fun h1 h2 => (hno h1 h2).elim⟩

theorem closure_bound (prog : List Instruction) (hc : CheckCovered prog) :
    ∀ (b i : Nat), ∃ N, ∀ (vm : Vm) (it offset : Nat) (t : Thread),
      vm.Prog.body = prog → vm.threadAt it = .ok t → t.PC = some i →
      vm.CheckStates.count false ≤ b → ClosureWithin N vm it offset i := by
  intro b
  induction b using Nat.strong_induction_on with
  | _ b ihb =>
    intro i
    have hacc := freeStep_acc prog hc i
    induction hacc with
    | intro i _ ihi =>
      cases hi : prog[i]? with
      | none =>
        refine ⟨1, fun vm it offset t hprog ht hpc _ => ?_⟩
        apply closureWithin_of_error
        · unfold _executeEpsilon
          rw [ht]
          dsimp only
          rw [hpc, hprog]
          simp [fetch, hi]
        · intro _ hlt
          rw [hprog] at hlt
          rw [List.getElem?_eq_getElem hlt] at hi
          cases hi
      | some instr =>
        have hfetch : ∀ (vm : Vm) (t : Thread), vm.Prog.body = prog → t.PC = some i →
            fetch vm.Prog.body t.PC = .ok instr := by
          intro vm t hprog hpc
          rw [hpc, hprog]
          exact fetch_some prog i instr hi
        by_cases h1 : instr.OpCode = JUMP_OP
        · -- JUMP
          have hs : epsSucc prog i instr.Offset := ⟨instr, hi, Or.inl ⟨h1, rfl⟩⟩
          have hfree : freeStep prog i instr.Offset := by
            refine ⟨hs, ?_⟩
            rintro ⟨instr2, hi2, hop2, _⟩
            rw [hi] at hi2
            cases hi2
            rw [h1] at hop2
            exact absurd hop2 (by decide)
          obtain ⟨N, hN⟩ := ihi instr.Offset hfree
          refine ⟨N + 1, fun vm it offset t hprog ht hpc hcount => ?_⟩
          have hlt := threadAt_lt vm it t ht
          have hstep : _executeEpsilon vm it offset
              = .ok (true, vm.setThread it (t.jump 0 instr.Offset)) := by
            unfold _executeEpsilon
            rw [ht]
            dsimp only
            rw [hfetch vm t hprog hpc]
            dsimp only
            rw [if_pos h1]
          refine closureWithin_of_true N vm _ it offset i instr.Offset hstep ?_ rfl rfl
            (by rw [hprog]; exact hs) ?_
          · simp [Vm.setThread]
          · exact hN _ it offset _ hprog (threadAt_setThread vm it _ hlt)
              (by simp [Thread.jump]) hcount
        · by_cases h2 : instr.OpCode = FORK_OP
          · -- FORK
            have hs : epsSucc prog i (i + 1 + instr.Size) :=
              ⟨instr, hi, Or.inr (Or.inl ⟨h2, Or.inr rfl⟩)⟩
            have hfree : freeStep prog i (i + 1 + instr.Size) := by
              refine ⟨hs, ?_⟩
              rintro ⟨instr2, hi2, hop2, _⟩
              rw [hi] at hi2
              cases hi2
              rw [h2] at hop2
              exact absurd hop2 (by decide)
            obtain ⟨N, hN⟩ := ihi _ hfree
            refine ⟨N + 1, fun vm it offset t hprog ht hpc hcount => ?_⟩
            have hlt := threadAt_lt vm it t ht
            have hstep : _executeEpsilon vm it offset
                = .ok (true, ({ vm with Active := vm.Active ++ [Thread.fork t 0 instr.Offset] } :
                    Vm).setThread it (t.advance instr)) := by
              unfold _executeEpsilon
              rw [ht]
              dsimp only
              rw [hfetch vm t hprog hpc]
              dsimp only
              rw [if_neg h1, if_pos h2]
            refine closureWithin_of_true N vm _ it offset i _ hstep ?_ rfl rfl
              (by rw [hprog]; exact hs) ?_
            · simp [Vm.setThread]
            · refine hN _ it offset _ hprog
                (threadAt_setThread _ it _ (by simp only [List.length_append]; omega))
                (by simp [Thread.advance, hpc]) hcount
          · by_cases h3 : instr.OpCode = CHECK_HALT_OP
            · -- CHECK_HALT
              have hs : epsSucc prog i (i + 1 + instr.Size) :=
                ⟨instr, hi, Or.inr (Or.inr (Or.inl ⟨h3, rfl⟩))⟩
              have hprev : ∃ N, 0 < b → ∀ (vm : Vm) (it offset : Nat) (t : Thread),
                  vm.Prog.body = prog → vm.threadAt it = .ok t →
                  t.PC = some (i + 1 + instr.Size) →
                  vm.CheckStates.count false ≤ b - 1 →
                  ClosureWithin N vm it offset (i + 1 + instr.Size) := by
                by_cases hb : 0 < b
                · obtain ⟨N, hN⟩ := ihb (b - 1) (by omega) (i + 1 + instr.Size)
                  exact ⟨N, fun _ => hN⟩
                · exact ⟨0, fun h => absurd h hb⟩
              obtain ⟨N, hN⟩ := hprev
              refine ⟨N + 1, fun vm it offset t hprog ht hpc hcount => ?_⟩
              have hlt := threadAt_lt vm it t ht
              cases hbit : vm.CheckStates[instr.Offset]? with
              | none =>
                refine closureWithin_mono 1 _ vm it offset i (by omega) ?_
                apply closureWithin_of_error
                · unfold _executeEpsilon
                  rw [ht]
                  dsimp only
                  rw [hfetch vm t hprog hpc]
                  dsimp only
                  rw [if_neg h1, if_neg h2, if_pos h3, hbit]
                · intro hvalid _
                  have hmem : instr ∈ vm.Prog.body := by
                    rw [hprog]
                    exact List.getElem?_mem hi
                  have := hvalid.2 instr hmem h3
                  rw [List.getElem?_eq_getElem this] at hbit
                  cases hbit
              | some bit =>
                cases bit with
                | true =>
                  refine closureWithin_mono 1 _ vm it offset i (by omega) ?_
                  refine closureWithin_of_false vm (vm.setThread it { t with PC := none }) it
                    offset i ?_ (by simp [Vm.setThread])
                  unfold _executeEpsilon
                  rw [ht]
                  dsimp only
                  rw [hfetch vm t hprog hpc]
                  dsimp only
                  rw [if_neg h1, if_neg h2, if_pos h3, hbit]
                | false =>
                  have hdec : ((vm.CheckStates.set instr.Offset true).set 0 true).count false
                      < vm.CheckStates.count false :=
                    Nat.lt_of_le_of_lt (count_false_set_true_le _ 0)
                      (count_false_set_true_lt _ _ hbit)
                  have hb : 0 < b := by omega
                  have hstep : _executeEpsilon vm it offset
                      = .ok (true, ({ vm with CheckStates :=
                          (vm.CheckStates.set instr.Offset true).set 0 true } :
                          Vm).setThread it (t.advance instr)) := by
                    unfold _executeEpsilon
                    rw [ht]
                    dsimp only
                    rw [hfetch vm t hprog hpc]
                    dsimp only
                    rw [if_neg h1, if_neg h2, if_pos h3, hbit]
                  refine closureWithin_of_true N vm _ it offset i _ hstep ?_ rfl ?_
                    (by rw [hprog]; exact hs) ?_
                  · simp [Vm.setThread]
                  · simp [Vm.setThread]
                  · refine hN hb _ it offset _ hprog (threadAt_setThread _ it _ hlt)
                      (by simp [Thread.advance, hpc]) ?_
                    show ((vm.CheckStates.set instr.Offset true).set 0 true).count false ≤ b - 1
                    omega
            · by_cases h4 : instr.OpCode = MATCH_OP
              · -- MATCH
                have hs : epsSucc prog i (i + 1 + instr.Size) :=
                  ⟨instr, hi, Or.inr (Or.inr (Or.inr ⟨h4, rfl⟩))⟩
                have hfree : freeStep prog i (i + 1 + instr.Size) := by
                  refine ⟨hs, ?_⟩
                  rintro ⟨instr2, hi2, hop2, _⟩
                  rw [hi] at hi2
                  cases hi2
                  exact h3 hop2
                obtain ⟨N, hN⟩ := ihi _ hfree
                refine ⟨N + 1, fun vm it offset t hprog ht hpc hcount => ?_⟩
                have hlt := threadAt_lt vm it t ht
                have hstep : _executeEpsilon vm it offset
                    = .ok (true, vm.setThread it
                        (({ t with Label := instr.Offset, End := offset } : Thread).advance
                          instr)) := by
                  unfold _executeEpsilon
                  rw [ht]
                  dsimp only
                  rw [hfetch vm t hprog hpc]
                  dsimp only
                  rw [if_neg h1, if_neg h2, if_neg h3, if_pos h4]
                refine closureWithin_of_true N vm _ it offset i _ hstep ?_ rfl rfl
                  (by rw [hprog]; exact hs) ?_
                · simp [Vm.setThread]
                · exact hN _ it offset _ hprog (threadAt_setThread vm it _ hlt)
                    (by simp [Thread.advance, hpc]) hcount
              · -- HALT and every other opcode: the loop stops
                refine ⟨1, fun vm it offset t hprog ht hpc _ => ?_⟩
                by_cases h5 : instr.OpCode = HALT_OP
                · refine closureWithin_of_false vm (vm.setThread it { t with PC := none }) it
                    offset i ?_ (by simp [Vm.setThread])
                  unfold _executeEpsilon
                  rw [ht]
                  dsimp only
                  rw [hfetch vm t hprog hpc]
                  dsimp only
                  rw [if_neg h1, if_neg h2, if_neg h3, if_neg h4, if_pos h5]
                · refine closureWithin_of_false vm { vm with Next := vm.Next ++ [t] } it
                    offset i ?_ (by simp)
                  unfold _executeEpsilon
                  rw [ht]
                  dsimp only
                  rw [hfetch vm t hprog hpc]
                  dsimp only
                  rw [if_neg h1, if_neg h2, if_neg h3, if_neg h4, if_neg h5]

/-! ## A frame that does not end -/

theorem getElem?_append_length (pre : List Thread) (a : Thread) (rest : List Thread) :
    (pre ++ a :: rest)[pre.length]? = some a := by
  induction pre with
  | nil => simp
  | cons x pre ih => simpa using ih

theorem set_append_length (pre : List Thread) (a b : Thread) (rest : List Thread) :
    (pre ++ a :: rest).set pre.length b = pre ++ b :: rest := by
  induction pre with
  | nil => rfl
  | cons x pre ih => simp [ih]

theorem forkBack_step1 (pre : List Thread) :
    _executeEpsilon
        { forkBackVm pre with Active := pre ++ [⟨some 1, 0, 0, UNALLOCATED⟩] } pre.length 0
      = .ok (true, { forkBackVm pre with
          Active := pre ++ [⟨some 2, 0, 0, UNALLOCATED⟩, Thread.init 0] }) := by
  have hg := getElem?_append_length pre ⟨some 1, 0, 0, UNALLOCATED⟩ []
  have hs := set_append_length pre ⟨some 1, 0, 0, UNALLOCATED⟩ ⟨some 2, 0, 0, UNALLOCATED⟩
    [Thread.init 0]
  unfold _executeEpsilon
  simp only [Vm.threadAt, hg]
  have hf : fetch (forkBackVm pre).Prog.body (some 1)
      = .ok { OpCode := FORK_OP, Size := 0, Op := 0 } := rfl
  simp only [hf]
  rw [if_neg (by decide), if_pos (by decide)]
  simp only [Vm.setThread, List.append_assoc, List.singleton_append]
  rw [show Thread.advance ⟨some 1, 0, 0, UNALLOCATED⟩ { OpCode := FORK_OP, Size := 0, Op := 0 }
      = ⟨some 2, 0, 0, UNALLOCATED⟩ from rfl,
    show Thread.fork ⟨some 1, 0, 0, UNALLOCATED⟩ 0
      (Instruction.Offset { OpCode := FORK_OP, Size := 0, Op := 0 }) = Thread.init 0 from rfl, hs]

theorem forkBack_step2 (pre : List Thread) :
    _executeEpsilon
        { forkBackVm pre with Active := pre ++ [⟨some 2, 0, 0, UNALLOCATED⟩, Thread.init 0] }
        pre.length 0
      = .ok (false, forkBackVm (pre ++ [⟨none, 0, 0, UNALLOCATED⟩])) := by
  have hg := getElem?_append_length pre ⟨some 2, 0, 0, UNALLOCATED⟩ [Thread.init 0]
  have hs := set_append_length pre ⟨some 2, 0, 0, UNALLOCATED⟩ ⟨none, 0, 0, UNALLOCATED⟩
    [Thread.init 0]
  unfold _executeEpsilon
  simp only [Vm.threadAt, hg]
  have hf : fetch (forkBackVm pre).Prog.body (some 2) = .ok haltInstruction := rfl
  simp only [hf]
  rw [if_neg (by decide), if_neg (by decide), if_neg (by decide), if_neg (by decide),
    if_pos (by decide)]
  simp only [Vm.setThread, hs, forkBackVm, List.append_assoc, List.singleton_append]

theorem forkBack_thread (pre : List Thread) (hits : List SearchHit) (fuel : Nat) :
    frameThread fuel (forkBackVm pre) pre.length 97 0 hits = .error .fuel ∨
    frameThread fuel (forkBackVm pre) pre.length 97 0 hits
      = .ok (forkBackVm (pre ++ [⟨none, 0, 0, UNALLOCATED⟩]), hits) := by
  have hg := getElem?_append_length pre (Thread.init 0) []
  have hs := set_append_length pre (Thread.init 0) ⟨some 1, 0, 0, UNALLOCATED⟩ []
  have hx : _execute (forkBackVm pre).Prog.body (Thread.init 0) 97
      = .ok (true, ⟨some 1, 0, 0, UNALLOCATED⟩) := rfl
  have hset : (forkBackVm pre).setThread pre.length ⟨some 1, 0, 0, UNALLOCATED⟩
      = { forkBackVm pre with Active := pre ++ [⟨some 1, 0, 0, UNALLOCATED⟩] } := by
    simp only [Vm.setThread, forkBackVm, hs]
  have hta : (forkBackVm pre).threadAt pre.length = .ok (Thread.init 0) := by
    simp only [Vm.threadAt, forkBackVm, hg]
  unfold frameThread
  rw [hta]
  dsimp only
  rw [hx]
  dsimp only
  rw [hset]
  match fuel with
  | 0 => exact Or.inl rfl
  | 1 =>
    left
    rw [epsilonLoop_true _ _ _ _ 0 (forkBack_step1 pre)]
    rfl
  | f + 2 =>
    right
    rw [epsilonLoop_true _ _ _ _ (f + 1) (forkBack_step1 pre),
      epsilonLoop_false _ _ _ _ f (forkBack_step2 pre)]
    dsimp only
    have hg2 := getElem?_append_length pre ⟨none, 0, 0, UNALLOCATED⟩ [Thread.init 0]
    have hta2 : (forkBackVm (pre ++ [⟨none, 0, 0, UNALLOCATED⟩])).threadAt pre.length
        = .ok ⟨none, 0, 0, UNALLOCATED⟩ := by
      simp only [Vm.threadAt, forkBackVm, List.append_assoc, List.singleton_append, hg2]
    unfold matchIfFresh
    rw [hta2]
    dsimp only
    rw [if_neg (by decide)]

theorem forkBack_doWhile (fuel : Nat) (hits : List SearchHit) :
    ∀ (n : Nat) (pre : List Thread),
      frameDoWhile fuel 97 0 n (forkBackVm pre) pre.length hits = .error .fuel := by
  intro n
  induction n with
  | zero => intro pre; rfl
  | succ n ih =>
    intro pre
    unfold frameDoWhile
    rcases forkBack_thread pre hits fuel with h | h
    · rw [h]
    · rw [h]
      dsimp only
      have hlen : pre.length + 1
          ≠ (forkBackVm (pre ++ [⟨none, 0, 0, UNALLOCATED⟩])).Active.length := by
        simp [forkBackVm]
      rw [if_pos hlen]
      have := ih (pre ++ [⟨none, 0, 0, UNALLOCATED⟩])
      simpa using this

theorem forkBack_frame (fuel : Nat) :
    (Vm.new (forkBackProgram 97)).executeFrame fuel 97 0 [] = .error .fuel := by
  unfold Vm.executeFrame _executeFrame
  match fuel with
  | 0 => rfl
  | f + 1 =>
    have hw : frameWalk (f + 1) 97 0 (f + 1) (Vm.new (forkBackProgram 97)) 0 []
        = .ok (Vm.new (forkBackProgram 97), 0, []) := rfl
    rw [hw]
    dsimp only
    have hb : (Vm.new (forkBackProgram 97)).Prog.First.testBit 97 = true := by decide
    rw [if_pos hb]
    have := forkBack_doWhile (f + 1) [] (f + 1) []
    simp only [forkBackVm, List.nil_append, List.length_nil] at this
    have ha : (Vm.new (forkBackProgram 97)).Active = [] := rfl
    rw [ha, List.nil_append, this]

theorem forkBack_steps (a b : Nat) (h : epsSucc (forkBackProgram 97).body a b) :
    a = 1 ∧ (b = 0 ∨ b = 2) := by
  obtain ⟨instr, hi, hcase⟩ := h
  match a, hi with
  | 0, hi =>
    simp only [forkBackProgram, List.getElem?_cons_zero, Option.some.injEq] at hi
    subst hi
    simp [Instruction.makeLit] at hcase
  | 1, hi =>
    simp only [forkBackProgram, List.getElem?_cons_succ, List.getElem?_cons_zero,
      Option.some.injEq] at hi
    subst hi
    simp [Instruction.Offset] at hcase
    exact ⟨rfl, hcase⟩
  | 2, hi =>
    simp only [forkBackProgram, List.getElem?_cons_succ, List.getElem?_cons_zero,
      Option.some.injEq] at hi
    subst hi
    simp [haltInstruction] at hcase
  | n + 3, hi =>
    simp [forkBackProgram] at hi

theorem forkBack_covered : CheckCovered (forkBackProgram 97).body := by
  intro i h
  obtain ⟨b, hab, hrest⟩ := Relation.TransGen.head'_iff.1 h
  obtain ⟨hi, hb⟩ := forkBack_steps i b hab.1
  rcases Relation.ReflTransGen.cases_head hrest with heq | ⟨c, hbc, _⟩
  · omega
  · have := (forkBack_steps b c hbc.1).1
    omega

theorem forkBack_valid : EpsilonValid (Vm.new (forkBackProgram 97)) := by
  constructor
  · intro i j h
    have := (forkBack_steps i j h).2
    show j < 3
    omega
  · intro instr hmem hop
    have hm : instr ∈ (forkBackProgram 97).body := hmem
    simp only [forkBackProgram, List.mem_cons, List.mem_singleton, List.not_mem_nil,
      or_false] at hm
    rcases hm with rfl | rfl | rfl <;> exact absurd hop (by decide)

theorem selfJump_loop : ∀ fuel, epsilonLoop 0 0 fuel selfJumpVm = .error .fuel := by
  intro fuel
  induction fuel with
  | zero => rfl
  | succ n ih =>
    have hstep : _executeEpsilon selfJumpVm 0 0 = .ok (true, selfJumpVm) := rfl
    rw [epsilonLoop_true _ _ _ _ n hstep]
    exact ih

theorem selfJump_not_covered : ¬CheckCovered selfJumpVm.Prog.body := by
  intro h
  apply h 0
  apply Relation.TransGen.single
  refine ⟨⟨{ OpCode := JUMP_OP, Size := 0, Op := 0 }, rfl, Or.inl ⟨rfl, rfl⟩⟩, ?_⟩
  rintro ⟨instr, hi, hop, _⟩
  have : instr = { OpCode := JUMP_OP, Size := 0, Op := 0 } := by
    have h0 : selfJumpVm.Prog.body[0]? = some { OpCode := JUMP_OP, Size := 0, Op := 0 } := rfl
    rw [h0] at hi
    cases hi
    rfl
  rw [this] at hop
  exact absurd hop (by decide)

/-! ## Faults, levels and ranks -/

theorem level_lt (L c c1 r r1 : Nat) (hr1 : r1 ≤ L)
    (h : (c1 = c ∧ r1 < r) ∨ c1 < c) : c1 * (L + 1) + r1 < c * (L + 1) + r := by
  rcases h with ⟨rfl, h⟩ | h
  · omega
  · have : (c1 + 1) * (L + 1) ≤ c * (L + 1) := Nat.mul_le_mul_right _ h
    have h2 : (c1 + 1) * (L + 1) = c1 * (L + 1) + (L + 1) := by ring
    omega

theorem level_mono (L c c1 r : Nat) (h : c1 ≤ c) : c1 * (L + 1) + r ≤ c * (L + 1) + r := by
  have : c1 * (L + 1) ≤ c * (L + 1) := Nat.mul_le_mul_right _ h
  omega

theorem threadAt_error (vm : Vm) (it : Nat) (e : Fault) (h : vm.threadAt it = .error e) :
    e = .undefined := by
  unfold Vm.threadAt at h
  split at h
  · cases h
  · cases h
    rfl

theorem fetch_ok (prog : List Instruction) (i : Nat) (instr : Instruction)
    (h : fetch prog (some i) = .ok instr) : prog[i]? = some instr := by
  unfold fetch at h
  dsimp only at h
  split at h
  · cases h
    assumption
  · cases h

theorem executeEpsilon_error (vm : Vm) (it offset : Nat) (e : Fault)
    (h : _executeEpsilon vm it offset = .error e) : e = .undefined := by
  unfold _executeEpsilon at h
  cases ht : vm.threadAt it with
  | error e1 =>
    rw [ht] at h
    cases h
    exact threadAt_error vm it _ ht
  | ok t =>
    rw [ht] at h
    dsimp only at h
    cases hi : fetch vm.Prog.body t.PC with
    | error e1 =>
      rw [hi] at h
      cases h
      exact fetch_error _ _ _ hi
    | ok instr =>
      rw [hi] at h
      dsimp only at h
      split_ifs at h
      split at h
      · cases h
        rfl
      · cases h
      · cases h

theorem drop_set_append {α : Type} (A : List α) (it : Nat) (x : α) (ch : List α)
    (h : it < A.length) : (A.set it x ++ ch).drop (it + 1) = A.drop (it + 1) ++ ch := by
  rw [List.drop_append_of_le_length (by rw [List.length_set]; omega),
    List.drop_set_of_lt x A (Nat.lt_succ_self it)]

theorem doMatch_error (vm : Vm) (t : Thread) (hits : List SearchHit) (e : Fault)
    (h : doMatch vm t hits = .error e) : e = .undefined := by
  unfold doMatch at h
  split at h
  · cases h
    rfl
  · split_ifs at h

theorem doMatch_frame (vm vm1 : Vm) (t : Thread) (hits hits1 : List SearchHit)
    (h : doMatch vm t hits = .ok (vm1, hits1)) :
    vm1.Active = vm.Active ∧ vm1.CheckStates = vm.CheckStates := by
  unfold doMatch at h
  split at h
  · cases h
  · split_ifs at h <;> cases h <;> exact ⟨rfl, rfl⟩

theorem matchIfFresh_error (vm : Vm) (it offset : Nat) (hits : List SearchHit) (e : Fault)
    (h : matchIfFresh vm it offset hits = .error e) : e = .undefined := by
  unfold matchIfFresh at h
  cases ht : vm.threadAt it with
  | error e1 =>
    rw [ht] at h
    cases h
    exact threadAt_error vm it _ ht
  | ok t =>
    rw [ht] at h
    dsimp only at h
    split_ifs at h
    exact doMatch_error vm t hits e h

theorem matchIfFresh_frame (vm vm1 : Vm) (it offset : Nat) (hits hits1 : List SearchHit)
    (h : matchIfFresh vm it offset hits = .ok (vm1, hits1)) :
    vm1.Active = vm.Active ∧ vm1.CheckStates = vm.CheckStates := by
  unfold matchIfFresh at h
  cases ht : vm.threadAt it with
  | error e => rw [ht] at h; cases h
  | ok t =>
    rw [ht] at h
    dsimp only at h
    split_ifs at h
    · exact doMatch_frame vm vm1 t hits hits1 h
    · cases h
      exact ⟨rfl, rfl⟩

theorem free_rank (prog : List Instruction) (hc : CheckCovered prog) :
    ∃ rank : Nat → Nat, (∀ i, rank i ≤ prog.length) ∧
      ∀ i j, freeStep prog i j → rank j < rank i := by
  classical
  refine ⟨fun i => ((Finset.range prog.length).filter
    (fun k => Relation.ReflTransGen (freeStep prog) i k)).card, ?_, ?_⟩
  · intro i
    exact (Finset.card_filter_le _ _).trans (by simp)
  · intro i j h
    apply Finset.card_lt_card
    refine ⟨?_, ?_⟩
    · intro k hk
      simp only [Finset.mem_filter, Finset.mem_range] at hk ⊢
      exact ⟨hk.1, Relation.ReflTransGen.head h hk.2⟩
    · intro hsub
      have hi : i ∈ (Finset.range prog.length).filter
          (fun k => Relation.ReflTransGen (freeStep prog) i k) := by
        simp only [Finset.mem_filter, Finset.mem_range]
        exact ⟨epsSucc_lt prog i j h.1, Relation.ReflTransGen.refl⟩
      have hj := hsub hi
      simp only [Finset.mem_filter, Finset.mem_range] at hj
      exact hc i (Relation.TransGen.head' h hj.2)

theorem executeEpsilon_level_step (prog : List Instruction) (rank : Nat → Nat)
    (hr : ∀ i j, freeStep prog i j → rank j < rank i)
    (vm vm1 : Vm) (it offset : Nat) (t : Thread) (i : Nat) (b : Bool)
    (hprog : vm.Prog.body = prog) (ht : vm.threadAt it = .ok t) (hpc : t.PC = some i)
    (h : _executeEpsilon vm it offset = .ok (b, vm1)) :
    vm1.Prog = vm.Prog ∧ vm1.CheckStates.count false ≤ vm.CheckStates.count false ∧
    (∃ ch, vm1.Active.drop (it + 1) = vm.Active.drop (it + 1) ++ ch ∧
      vm1.Active.length = vm.Active.length + ch.length ∧ ch.length ≤ 1 ∧
      ∀ c ∈ ch, ∃ k, c.PC = some k ∧ rank k < rank i) ∧
    (b = true → ∃ t1 j, vm1.threadAt it = .ok t1 ∧ t1.PC = some j ∧
      ((vm1.CheckStates.count false = vm.CheckStates.count false ∧ rank j < rank i) ∨
        vm1.CheckStates.count false < vm.CheckStates.count false)) := by
  have hlt := threadAt_lt vm it t ht
  have hnil : ∀ x : Thread, ∃ ch : List Thread,
      (vm.Active.set it x).drop (it + 1) = vm.Active.drop (it + 1) ++ ch ∧
      (vm.Active.set it x).length = vm.Active.length + ch.length ∧ ch.length ≤ 1 ∧
      ∀ c ∈ ch, ∃ k, c.PC = some k ∧ rank k < rank i := by
    intro x
    refine ⟨[], ?_, by simp, by simp, by simp⟩
    rw [List.drop_set_of_lt x _ (Nat.lt_succ_self it), List.append_nil]
  unfold _executeEpsilon at h
  rw [ht] at h
  dsimp only at h
  cases hi : fetch vm.Prog.body t.PC with
  | error e1 => rw [hi] at h; cases h
  | ok instr =>
    rw [hi] at h
    dsimp only at h
    rw [hpc, hprog] at hi
    have hget := fetch_ok prog i instr hi
    have hfree : ∀ j, instr.OpCode ≠ CHECK_HALT_OP → epsSucc prog i j → rank j < rank i := by
      intro j hne hs
      refine hr i j ⟨hs, ?_⟩
      rintro ⟨instr2, hi2, hop2, _⟩
      rw [hget] at hi2
      cases hi2
      exact hne hop2
    split_ifs at h with h1 h2 h3 h4 h5
    · -- JUMP
      cases h
      refine ⟨rfl, Nat.le_refl _, hnil _, fun _ => ⟨_, instr.Offset,
        threadAt_setThread vm it _ hlt, by simp [Thread.jump], Or.inl ⟨rfl, ?_⟩⟩⟩
      exact hfree _ (by rw [h1]; decide) ⟨instr, hget, Or.inl ⟨h1, rfl⟩⟩
    · -- FORK
      cases h
      have hne : instr.OpCode ≠ CHECK_HALT_OP := by rw [h2]; decide
      refine ⟨rfl, Nat.le_refl _, ⟨[Thread.fork t 0 instr.Offset], ?_, ?_, by simp, ?_⟩,
        fun _ => ⟨_, i + 1 + instr.Size,
          threadAt_setThread _ it _ (by simp only [List.length_append]; omega),
          by simp [Thread.advance, hpc], Or.inl ⟨rfl, ?_⟩⟩⟩
      · show ((vm.Active ++ [Thread.fork t 0 instr.Offset]).set it _).drop (it + 1) = _
        rw [List.set_append_left _ _ hlt, drop_set_append _ _ _ _ hlt]
      · show ((vm.Active ++ [Thread.fork t 0 instr.Offset]).set it _).length = _
        simp
      · intro c hc
        rw [List.mem_singleton.1 hc]
        refine ⟨instr.Offset, by simp [Thread.fork, Thread.jump], ?_⟩
        exact hfree _ hne ⟨instr, hget, Or.inr (Or.inl ⟨h2, Or.inl rfl⟩)⟩
      · exact hfree _ hne ⟨instr, hget, Or.inr (Or.inl ⟨h2, Or.inr rfl⟩)⟩
    · -- CHECK_HALT
      split at h
      · cases h
      · cases h
        exact ⟨rfl, Nat.le_refl _, hnil _, fun hb => by cases hb⟩
      · next hbit =>
        cases h
        have hdec : ((vm.CheckStates.set instr.Offset true).set 0 true).count false
            < vm.CheckStates.count false :=
          Nat.lt_of_le_of_lt (count_false_set_true_le _ 0)
            (count_false_set_true_lt _ _ hbit)
        exact ⟨rfl, Nat.le_of_lt hdec, hnil _, fun _ => ⟨_, i + 1 + instr.Size,
          threadAt_setThread _ it _ hlt, by simp [Thread.advance, hpc], Or.inr hdec⟩⟩
    · -- MATCH
      cases h
      refine ⟨rfl, Nat.le_refl _, hnil _, fun _ => ⟨_, i + 1 + instr.Size,
        threadAt_setThread vm it _ hlt, by simp [Thread.advance, hpc], Or.inl ⟨rfl, ?_⟩⟩⟩
      exact hfree _ h3 ⟨instr, hget, Or.inr (Or.inr (Or.inr ⟨h4, rfl⟩))⟩
    · -- HALT
      cases h
      exact ⟨rfl, Nat.le_refl _, hnil _, fun hb => by cases hb⟩
    · -- any other opcode
      cases h
      refine ⟨rfl, Nat.le_refl _, ⟨[], by simp, by simp, by simp, by simp⟩,
        fun hb => by cases hb⟩

theorem epsilonLoop_level (prog : List Instruction) (rank : Nat → Nat)
    (hL : ∀ i, rank i ≤ prog.length)
    (hr : ∀ i j, freeStep prog i j → rank j < rank i) :
    ∀ (n : Nat) (vm : Vm) (it offset : Nat) (t : Thread) (i : Nat),
      vm.Prog.body = prog → vm.threadAt it = .ok t → t.PC = some i →
      vm.CheckStates.count false * (prog.length + 1) + rank i ≤ n →
      ∀ fuel, n + 1 ≤ fuel →
        epsilonLoop it offset fuel vm ≠ .error .fuel ∧
        ∀ vm1, epsilonLoop it offset fuel vm = .ok vm1 →
          vm1.Prog = vm.Prog ∧ vm1.CheckStates.count false ≤ vm.CheckStates.count false ∧
          ∃ ch, vm1.Active.drop (it + 1) = vm.Active.drop (it + 1) ++ ch ∧
            vm1.Active.length = vm.Active.length + ch.length ∧ ch.length ≤ n ∧
            ∀ c ∈ ch, ∃ k, c.PC = some k ∧
              vm1.CheckStates.count false * (prog.length + 1) + rank k < n := by
  intro n
  induction n with
  | zero =>
    intro vm it offset t i hprog ht hpc hlev fuel hfuel
    obtain ⟨f, rfl⟩ : ∃ f, fuel = f + 1 := ⟨fuel - 1, by omega⟩
    cases h : _executeEpsilon vm it offset with
    | error e =>
      rw [epsilonLoop_error vm it offset f e h, executeEpsilon_error vm it offset e h]
      exact ⟨(fun hh => by cases hh), (fun vm1 hh => by cases hh)⟩
    | ok r =>
      obtain ⟨b, vm1⟩ := r
      obtain ⟨hp, hcnt, ⟨ch, hdrop, hlen, _, hch⟩, hb⟩ :=
        executeEpsilon_level_step prog rank hr vm vm1 it offset t i b hprog ht hpc h
      have hch0 : ch = [] := by
        cases ch with
        | nil => rfl
        | cons c rest =>
          obtain ⟨k, _, hk⟩ := hch c (List.mem_cons_self _ _)
          omega
      cases b with
      | true =>
        obtain ⟨t1, j, _, _, hdec⟩ := hb rfl
        have := level_lt prog.length _ _ (rank i) (rank j) (hL j) hdec
        omega
      | false =>
        rw [epsilonLoop_false vm vm1 it offset f h]
        refine ⟨(fun hh => by cases hh), fun vm2 hh => ?_⟩
        cases hh
        subst hch0
        exact ⟨hp, hcnt, [], hdrop, hlen, by simp, by simp⟩
  | succ n ih =>
    intro vm it offset t i hprog ht hpc hlev fuel hfuel
    obtain ⟨f, rfl⟩ : ∃ f, fuel = f + 1 := ⟨fuel - 1, by omega⟩
    cases h : _executeEpsilon vm it offset with
    | error e =>
      rw [epsilonLoop_error vm it offset f e h, executeEpsilon_error vm it offset e h]
      exact ⟨(fun hh => by cases hh), (fun vm1 hh => by cases hh)⟩
    | ok r =>
      obtain ⟨b, vm1⟩ := r
      obtain ⟨hp, hcnt, ⟨ch, hdrop, hlen, hch1, hch⟩, hb⟩ :=
        executeEpsilon_level_step prog rank hr vm vm1 it offset t i b hprog ht hpc h
      have hchlev : ∀ (c1 : Nat), c1 ≤ vm.CheckStates.count false → ∀ c ∈ ch,
          ∃ k, c.PC = some k ∧ c1 * (prog.length + 1) + rank k < n + 1 := by
        intro c1 hc1 c hc
        obtain ⟨k, hk, hrk⟩ := hch c hc
        refine ⟨k, hk, ?_⟩
        have := level_mono prog.length _ c1 (rank k) hc1
        omega
      cases b with
      | true =>
        obtain ⟨t1, j, ht1, hpc1, hdec⟩ := hb rfl
        have hlt := level_lt prog.length _ _ (rank i) (rank j) (hL j) hdec
        rw [epsilonLoop_true vm vm1 it offset f h]
        obtain ⟨hne, hok⟩ := ih vm1 it offset t1 j (by rw [hp]; exact hprog) ht1 hpc1
          (by omega) f (by omega)
        refine ⟨hne, fun vm2 hh => ?_⟩
        obtain ⟨hp2, hcnt2, ch2, hdrop2, hlen2, hch2len, hch2⟩ := hok vm2 hh
        refine ⟨hp2.trans hp, hcnt2.trans hcnt, ch ++ ch2, ?_, ?_, ?_, ?_⟩
        · rw [hdrop2, hdrop, List.append_assoc]
        · rw [hlen2, hlen, List.length_append]
          omega
        · rw [List.length_append]
          omega
        · intro c hc
          rcases List.mem_append.1 hc with hc | hc
          · exact hchlev _ (hcnt2.trans hcnt) c hc
          · obtain ⟨k, hk, hrk⟩ := hch2 c hc
            exact ⟨k, hk, by omega⟩
      | false =>
        rw [epsilonLoop_false vm vm1 it offset f h]
        refine ⟨(fun hh => by cases hh), fun vm2 hh => ?_⟩
        cases hh
        exact ⟨hp, hcnt, ch, hdrop, hlen, by omega, hchlev _ hcnt⟩

/-! ## The cold start of a frame -/

theorem startsKept_refl (A : List Thread) : StartsKept A A :=
  fun _ t h => ⟨t, h, rfl⟩

theorem startsKept_trans (A B C : List Thread) (h1 : StartsKept A B) (h2 : StartsKept B C) :
    StartsKept A C := by
  unfold StartsKept at *
  intro i t h
  obtain ⟨t1, ht1, hs1⟩ := h1 i t h
  obtain ⟨t2, ht2, hs2⟩ := h2 i t1 ht1
  exact ⟨t2, ht2, hs2.trans hs1⟩

theorem startsKept_length (A B : List Thread) (h : StartsKept A B) : A.length ≤ B.length := by
  by_contra hlt
  have hB : B.length < A.length := by omega
  obtain ⟨t1, ht1, _⟩ := h B.length (A.get ⟨B.length, hB⟩) (List.getElem?_eq_getElem hB)
  rw [List.getElem?_eq_none (Nat.le_refl _)] at ht1
  cases ht1

theorem startsKept_append (A l : List Thread) : StartsKept A (A ++ l) := by
  unfold StartsKept
  intro i t h
  refine ⟨t, ?_, rfl⟩
  have hlt : i < A.length := by
    by_contra hge
    rw [List.getElem?_eq_none (by omega)] at h
    cases h
  rw [List.getElem?_append_left hlt]
  exact h

theorem startsKept_set (A : List Thread) (it : Nat) (t t1 : Thread) (ht : A[it]? = some t)
    (hs : t1.Start = t.Start) : StartsKept A (A.set it t1) := by
  unfold StartsKept
  intro i x h
  have hlt : it < A.length := by
    by_contra hge
    rw [List.getElem?_eq_none (by omega)] at ht
    cases ht
  by_cases hi : it = i
  · subst hi
    rw [ht] at h
    cases h
    exact ⟨t1, List.getElem?_set_self hlt, hs⟩
  · exact ⟨x, by rw [List.getElem?_set_ne hi]; exact h, rfl⟩

theorem threadAt_get (vm : Vm) (it : Nat) (t : Thread) (h : vm.threadAt it = .ok t) :
    vm.Active[it]? = some t := by
  unfold Vm.threadAt at h
  split at h
  · cases h
    assumption
  · cases h

theorem executeEpsilon_kept (vm vm1 : Vm) (it offset : Nat) (b : Bool)
    (h : _executeEpsilon vm it offset = .ok (b, vm1)) : StartsKept vm.Active vm1.Active := by
  unfold _executeEpsilon at h
  cases ht : vm.threadAt it with
  | error e => rw [ht] at h; cases h
  | ok t =>
    have hget := threadAt_get vm it t ht
    rw [ht] at h
    dsimp only at h
    cases hi : fetch vm.Prog.body t.PC with
    | error e => rw [hi] at h; cases h
    | ok instr =>
      rw [hi] at h
      dsimp only at h
      split_ifs at h
      · cases h
        exact startsKept_set _ it t _ hget rfl
      · cases h
        refine startsKept_trans _ _ _ (startsKept_append vm.Active [Thread.fork t 0 instr.Offset])
          (startsKept_set _ it t _ ?_ rfl)
        rw [List.getElem?_append_left (threadAt_lt vm it t ht)]
        exact hget
      · split at h
        · cases h
        · cases h
          exact startsKept_set _ it t _ hget rfl
        · cases h
          exact startsKept_set _ it t _ hget rfl
      · cases h
        exact startsKept_set _ it t _ hget rfl
      · cases h
        exact startsKept_set _ it t _ hget rfl
      · cases h
        exact startsKept_refl _

theorem epsilonLoop_kept (it offset : Nat) :
    ∀ (fuel : Nat) (vm vm1 : Vm), epsilonLoop it offset fuel vm = .ok vm1 →
      StartsKept vm.Active vm1.Active := by
  intro fuel
  induction fuel with
  | zero => intro vm vm1 h; cases h
  | succ n ih =>
    intro vm vm1 h
    cases hs : _executeEpsilon vm it offset with
    | error e => rw [epsilonLoop_error vm it offset n e hs] at h; cases h
    | ok r =>
      obtain ⟨b, vm2⟩ := r
      have hk := executeEpsilon_kept vm vm2 it offset b hs
      cases b with
      | true =>
        rw [epsilonLoop_true vm vm2 it offset n hs] at h
        exact startsKept_trans _ _ _ hk (ih vm2 vm1 h)
      | false =>
        rw [epsilonLoop_false vm vm2 it offset n hs] at h
        cases h
        exact hk

theorem frameThread_kept (fuel : Nat) (vm vm1 : Vm) (it cur offset : Nat)
    (hits hits1 : List SearchHit)
    (h : frameThread fuel vm it cur offset hits = .ok (vm1, hits1)) :
    StartsKept vm.Active vm1.Active := by
  unfold frameThread at h
  cases ht : vm.threadAt it with
  | error e => rw [ht] at h; cases h
  | ok t =>
    have hget := threadAt_get vm it t ht
    rw [ht] at h
    dsimp only at h
    cases hex : _execute vm.Prog.body t cur with
    | error e => rw [hex] at h; cases h
    | ok r =>
      obtain ⟨b, t1⟩ := r
      rw [hex] at h
      have hset : StartsKept vm.Active (vm.setThread it t1).Active :=
        startsKept_set _ it t t1 hget (execute_start _ _ _ _ _ hex)
      cases b with
      | false =>
        dsimp only at h
        cases h
        exact hset
      | true =>
        dsimp only at h
        cases hl : epsilonLoop it offset fuel (vm.setThread it t1) with
        | error e => rw [hl] at h; cases h
        | ok vm2 =>
          rw [hl] at h
          dsimp only at h
          rw [(matchIfFresh_frame _ _ _ _ _ _ h).1]
          exact startsKept_trans _ _ _ hset (epsilonLoop_kept it offset fuel _ _ hl)

theorem frameWalk_kept (fuel cur offset : Nat) :
    ∀ (n : Nat) (vm : Vm) (it : Nat) (hits : List SearchHit) (vm1 : Vm) (it1 : Nat)
      (hits1 : List SearchHit),
      frameWalk fuel cur offset n vm it hits = .ok (vm1, it1, hits1) →
      StartsKept vm.Active vm1.Active ∧ it1 = vm1.Active.length := by
  intro n
  induction n with
  | zero => intro vm it hits vm1 it1 hits1 h; cases h
  | succ n ih =>
    intro vm it hits vm1 it1 hits1 h
    unfold frameWalk at h
    split_ifs at h with hend
    · cases hft : frameThread fuel vm it cur offset hits with
      | error e => rw [hft] at h; cases h
      | ok r =>
        obtain ⟨vm2, hits2⟩ := r
        rw [hft] at h
        dsimp only at h
        obtain ⟨hk, hit⟩ := ih vm2 (it + 1) hits2 vm1 it1 hits1 h
        exact ⟨startsKept_trans _ _ _ (frameThread_kept _ _ _ _ _ _ _ _ hft) hk, hit⟩
    · cases h
      exact ⟨startsKept_refl _, not_not.1 hend⟩

theorem frameDoWhile_kept (fuel cur offset : Nat) :
    ∀ (n : Nat) (vm : Vm) (it : Nat) (hits : List SearchHit) (vm1 : Vm) (it1 : Nat)
      (hits1 : List SearchHit),
      frameDoWhile fuel cur offset n vm it hits = .ok (vm1, it1, hits1) →
      StartsKept vm.Active vm1.Active ∧ it1 = vm1.Active.length ∧ it < it1 := by
  intro n
  induction n with
  | zero => intro vm it hits vm1 it1 hits1 h; cases h
  | succ n ih =>
    intro vm it hits vm1 it1 hits1 h
    unfold frameDoWhile at h
    cases hft : frameThread fuel vm it cur offset hits with
    | error e => rw [hft] at h; cases h
    | ok r =>
      obtain ⟨vm2, hits2⟩ := r
      rw [hft] at h
      dsimp only at h
      have hk0 := frameThread_kept _ _ _ _ _ _ _ _ hft
      split_ifs at h with hend
      · obtain ⟨hk, hit, hlt⟩ := ih vm2 (it + 1) hits2 vm1 it1 hits1 h
        exact ⟨startsKept_trans _ _ _ hk0 hk, hit, by omega⟩
      · cases h
        exact ⟨hk0, not_not.1 hend, by omega⟩

theorem searchThread_kept (fuel : Nat) (vm vm1 : Vm) (it cur offset : Nat)
    (hits hits1 : List SearchHit)
    (h : searchThread fuel vm it cur offset hits = .ok (vm1, hits1)) :
    StartsKept vm.Active vm1.Active ∧ vm1.Active.length = vm.Active.length := by
  unfold searchThread at h
  cases ht : vm.threadAt it with
  | error e => rw [ht] at h; cases h
  | ok t =>
    have hget := threadAt_get vm it t ht
    rw [ht] at h
    dsimp only at h
    cases hex : executeLoop vm.Prog.body cur fuel t with
    | error e => rw [hex] at h; cases h
    | ok t1 =>
      rw [hex] at h
      dsimp only at h
      rw [(matchIfFresh_frame _ _ _ _ _ _ h).1]
      exact ⟨startsKept_set _ it t t1 hget (executeLoop_start _ _ _ _ _ hex),
        by simp [Vm.setThread]⟩

theorem searchWalk_kept (fuel cur offset : Nat) :
    ∀ (n : Nat) (vm : Vm) (it : Nat) (hits : List SearchHit) (vm1 : Vm) (it1 : Nat)
      (hits1 : List SearchHit),
      searchWalk fuel cur offset n vm it hits = .ok (vm1, it1, hits1) →
      StartsKept vm.Active vm1.Active ∧ vm1.Active.length = vm.Active.length ∧
        it1 = vm1.Active.length := by
  intro n
  induction n with
  | zero => intro vm it hits vm1 it1 hits1 h; cases h
  | succ n ih =>
    intro vm it hits vm1 it1 hits1 h
    unfold searchWalk at h
    split_ifs at h with hend
    · cases hft : searchThread fuel vm it cur offset hits with
      | error e => rw [hft] at h; cases h
      | ok r =>
        obtain ⟨vm2, hits2⟩ := r
        rw [hft] at h
        dsimp only at h
        obtain ⟨hk0, hl0⟩ := searchThread_kept _ _ _ _ _ _ _ _ hft
        obtain ⟨hk, hl, hit⟩ := ih vm2 (it + 1) hits2 vm1 it1 hits1 h
        exact ⟨startsKept_trans _ _ _ hk0 hk, hl.trans hl0, hit⟩
    · cases h
      exact ⟨startsKept_refl _, rfl, not_not.1 hend⟩

theorem searchDoWhile_kept (fuel cur offset : Nat) :
    ∀ (n : Nat) (vm : Vm) (it : Nat) (hits : List SearchHit) (vm1 : Vm) (it1 : Nat)
      (hits1 : List SearchHit),
      searchDoWhile fuel cur offset n vm it hits = .ok (vm1, it1, hits1) →
      StartsKept vm.Active vm1.Active ∧ vm1.Active.length = vm.Active.length ∧
        it1 = vm1.Active.length := by
  intro n
  induction n with
  | zero => intro vm it hits vm1 it1 hits1 h; cases h
  | succ n ih =>
    intro vm it hits vm1 it1 hits1 h
    unfold searchDoWhile at h
    cases hft : searchThread fuel vm it cur offset hits with
    | error e => rw [hft] at h; cases h
    | ok r =>
      obtain ⟨vm2, hits2⟩ := r
      rw [hft] at h
      dsimp only at h
      obtain ⟨hk0, hl0⟩ := searchThread_kept _ _ _ _ _ _ _ _ hft
      split_ifs at h with hend
      · obtain ⟨hk, hl, hit⟩ := ih vm2 (it + 1) hits2 vm1 it1 hits1 h
        exact ⟨startsKept_trans _ _ _ hk0 hk, hl.trans hl0, hit⟩
      · cases h
        exact ⟨hk0, hl0, not_not.1 hend⟩

theorem startsKept_fresh (A B : List Thread) (t : Thread) (h : StartsKept (A ++ [t]) B) :
    StartsKept A B ∧ ∃ t1, B[A.length]? = some t1 ∧ t1.Start = t.Start :=
  ⟨startsKept_trans _ _ _ (startsKept_append A [t]) h,
    h A.length t (by simp)⟩

/-- C11: a frame first walks the threads that were there, each of which stays
at its index with its Start; then `executeFrame(cur, k, cb)` appends a thread
initialised to PC 0 and Start `k` exactly when `First` contains the byte: with
the byte in `First` the thread is at the index the walk ended at, with Start `k`,
and without it the frame is the walk and nothing else. The per-byte step of
`search` does the same before it swaps the pools: with the byte in `First` the
pool holds one thread more, with Start `k`, and without it the same number.
Every thread, held candidate and hit after the frame or the step carries a
Start that was there before, or `k` when `First` contains the byte: for any
property `Q` of start offsets that holds of every thread, candidate and hit
before, and of `k` in case `First` contains the byte, `Q` holds of all of them
afterwards; with `Q s` the property `s ≠ k`, no thread with Start `k` and no hit
with Offset `k` comes out of a byte that is not in `First`. -/
theorem first_byte_filter (Q : Nat → Prop) (fuel : Nat) (vm : Vm) (cur k : Nat)
    (hits : List SearchHit) (h0 : StartsIn Q vm hits)
    (hq : vm.Prog.First.testBit cur = true → Q k) :
    (∀ vm1 hits1, vm.executeFrame fuel cur k hits = .ok (vm1, hits1) →
      StartsIn Q vm1 hits1 ∧ StartsKept vm.Active vm1.Active ∧
      ∃ vmw hitsw,
        frameWalk fuel cur k fuel vm 0 hits = .ok (vmw, vmw.Active.length, hitsw) ∧
        (vm.Prog.First.testBit cur = true →
          vmw.Active.length < vm1.Active.length ∧
          StartsKept (vmw.Active ++ [⟨some 0, 0, k, UNALLOCATED⟩]) vm1.Active ∧
          ∃ t, vm1.Active[vmw.Active.length]? = some t ∧ t.Start = k) ∧
        (vm.Prog.First.testBit cur = false → vm1 = vmw ∧ hits1 = hitsw)) ∧
    (∀ vm3 it3 hits3, searchByte fuel vm 0 cur k hits = .ok (vm3, it3, hits3) →
      StartsIn Q vm3 hits3 ∧ it3 = 0 ∧
      ∃ vmw hitsw,
        searchWalk fuel cur k fuel vm 0 hits = .ok (vmw, vmw.Active.length, hitsw) ∧
        vmw.Active.length = vm.Active.length ∧ StartsKept vm.Active vmw.Active ∧
        (vm.Prog.First.testBit cur = true →
          ∃ vm2,
            searchDoWhile fuel cur k fuel
              { vmw with Active := vmw.Active ++ [⟨some 0, 0, k, UNALLOCATED⟩] }
              vmw.Active.length hitsw = .ok (vm2, vm2.Active.length, hits3) ∧
            vm2.Active.length = vm.Active.length + 1 ∧
            (∃ t, vm2.Active[vm.Active.length]? = some t ∧ t.Start = k) ∧
            vm2.cleanup = .ok vm3) ∧
        (vm.Prog.First.testBit cur = false →
          hits3 = hitsw ∧
          if vm.Active.length ≠ 0 then vmw.cleanup = .ok vm3 else vm3 = vmw)) := by
  constructor
  · intro vm1 hits1 h
    have hstarts : StartsIn Q vm1 hits1 := by
      have h' := h
      unfold Vm.executeFrame at h'
      split at h'
      · cases h'
      · next vm2 it2 hits2 he =>
        cases h'
        exact executeFrame_starts Q fuel vm.Prog.First vm 0 cur k hits _ h0 hq he
    unfold Vm.executeFrame _executeFrame at h
    cases hw : frameWalk fuel cur k fuel vm 0 hits with
    | error e => rw [hw] at h; cases h
    | ok r =>
      obtain ⟨vmw, itw, hitsw⟩ := r
      rw [hw] at h
      dsimp only at h
      obtain ⟨hkw, hitw⟩ := frameWalk_kept fuel cur k fuel vm 0 hits vmw itw hitsw hw
      subst hitw
      by_cases hfirst : vm.Prog.First.testBit cur = true
      · rw [if_pos hfirst] at h
        cases hd : frameDoWhile fuel cur k fuel
            { vmw with Active := vmw.Active ++ [Thread.init k] } vmw.Active.length hitsw with
        | error e => rw [hd] at h; cases h
        | ok r2 =>
          obtain ⟨vm2, it2, hits2⟩ := r2
          rw [hd] at h
          cases h
          obtain ⟨hkd, hit2, hlt⟩ := frameDoWhile_kept fuel cur k fuel _ _ _ _ _ _ hd
          obtain ⟨hk1, hfresh⟩ := startsKept_fresh vmw.Active vm1.Active (Thread.init k) hkd
          refine ⟨hstarts, startsKept_trans _ _ _ hkw hk1, vmw, hitsw, rfl, ?_, ?_⟩
          · intro _
            exact ⟨by omega, hkd, hfresh⟩
          · intro hf
            rw [hf] at hfirst
            cases hfirst
      · rw [if_neg hfirst] at h
        cases h
        refine ⟨hstarts, hkw, vm1, hits1, rfl, fun hf => absurd hf hfirst, fun _ => ⟨rfl, rfl⟩⟩
  · intro vm3 it3 hits3 h
    have hstarts : StartsIn Q vm3 hits3 := searchByte_starts Q fuel vm 0 cur k hits _ h0 hq h
    refine ⟨hstarts, ?_⟩
    unfold searchByte at h
    cases hw : searchWalk fuel cur k fuel vm 0 hits with
    | error e => rw [hw] at h; cases h
    | ok r =>
      obtain ⟨vmw, itw, hitsw⟩ := r
      rw [hw] at h
      dsimp only at h
      obtain ⟨hkw, hlw, hitw⟩ := searchWalk_kept fuel cur k fuel vm 0 hits vmw itw hitsw hw
      subst hitw
      have hprog : vmw.Prog = vm.Prog := searchWalk_prog _ _ _ _ _ _ _ _ hw
      have hfw : vmw.Prog.First.testBit cur = vm.Prog.First.testBit cur := by rw [hprog]
      rw [hfw] at h
      by_cases hfirst : vm.Prog.First.testBit cur = true
      · rw [if_pos hfirst] at h
        cases hd : searchDoWhile fuel cur k fuel
            { vmw with Active := vmw.Active ++ [Thread.init k] } vmw.Active.length hitsw with
        | error e => rw [hd] at h; cases h
        | ok r2 =>
          obtain ⟨vm2, it2, hits2⟩ := r2
          rw [hd] at h
          dsimp only at h
          obtain ⟨hkd, hld, hit2⟩ := searchDoWhile_kept fuel cur k fuel _ _ _ _ _ _ hd
          subst hit2
          have hlen : vm2.Active.length = vm.Active.length + 1 := by
            rw [hld]
            simp [hlw]
          obtain ⟨_, hfresh⟩ := startsKept_fresh vmw.Active vm2.Active (Thread.init k) hkd
          rw [hlw] at hfresh
          rw [if_pos (by omega)] at h
          cases hc : vm2.cleanup with
          | error e => rw [hc] at h; cases h
          | ok vmc =>
            rw [hc] at h
            cases h
            refine ⟨rfl, vmw, hitsw, rfl, hlw, hkw, ?_, ?_⟩
            · intro _
              exact ⟨vm2, hd, hlen, hfresh, hc⟩
            · intro hf
              rw [hf] at hfirst
              cases hfirst
      · rw [if_neg hfirst] at h
        dsimp only at h
        by_cases hz : vmw.Active.length ≠ 0
        · rw [if_pos hz] at h
          cases hc : vmw.cleanup with
          | error e => rw [hc] at h; cases h
          | ok vmc =>
            rw [hc] at h
            cases h
            refine ⟨rfl, vmw, hits3, rfl, hlw, hkw, fun hf => absurd hf hfirst,
              fun _ => ⟨rfl, ?_⟩⟩
            rw [if_pos (by rw [← hlw]; exact hz)]
            exact hc
        · rw [if_neg hz] at h
          cases h
          refine ⟨not_not.1 hz, vm3, hits3, rfl, hlw, hkw, fun hf => absurd hf hfirst,
            fun _ => ⟨rfl, ?_⟩⟩
          rw [if_neg (by rw [← hlw]; exact hz)]

theorem first_byte_filter_witness :
    StartsIn (fun s => s = 3 ∨ s = 5) startedVm [] ∧
    (startedVm.Prog.First.testBit 97 = true → (5 = 3 ∨ 5 = 5)) ∧
    (∃ vm1 hits1, startedVm.executeFrame 4 97 5 [] = .ok (vm1, hits1) ∧
      hits1 = [{ Offset := 3, Length := 2, Label := 0 }] ∧
      StartsIn (fun s => s = 3 ∨ s = 5) vm1 hits1 ∧ StartsKept startedVm.Active vm1.Active ∧
      vm1.Active.length = 2 ∧ ∃ t, vm1.Active[1]? = some t ∧ t.Start = 5) ∧
    (∃ vm3 hits3, searchByte 4 startedVm 0 97 5 [] = .ok (vm3, 0, hits3) ∧
      StartsIn (fun s => s = 3 ∨ s = 5) vm3 hits3) :=
  have h0 : StartsIn (fun s => s = 3 ∨ s = 5) startedVm [] :=
    ⟨fun t ht => Or.inl (by rw [List.mem_singleton.1 ht]),
      fun t ht => absurd ht (List.not_mem_nil _),
      fun m hm => Or.inl ((init_fresh _ _).2 m hm),
      fun h hh => absurd hh (List.not_mem_nil _)⟩
  have hq : startedVm.Prog.First.testBit 97 = true → (5 = 3 ∨ 5 = 5) := fun _ => Or.inr rfl
  have h := first_byte_filter (fun s => s = 3 ∨ s = 5) 4 startedVm 97 5 [] h0 hq
  ⟨h0, hq,
    ⟨_, _, rfl, rfl, (h.1 _ _ rfl).1, (h.1 _ _ rfl).2.1, rfl, ⟨_, rfl, rfl⟩⟩,
    ⟨_, _, rfl, (h.2 _ _ _ rfl).1⟩⟩

/-! ## Pools of fixed size -/

theorem grows_refl (vm : Vm) : Grows vm vm := ⟨rfl, Nat.le_refl _, Nat.le_refl _⟩

theorem grows_trans (a b c : Vm) (h1 : Grows a b) (h2 : Grows b c) : Grows a c :=
  ⟨h2.1.trans h1.1, h1.2.1.trans h2.2.1, h1.2.2.trans h2.2.2⟩

theorem fits_refl (vm : Vm) : Fits vm vm := ⟨Nat.le_max_left _ _, Nat.le_max_left _ _⟩

theorem fits_trans (a b c : Vm) (hg : Grows a b) (h1 : Fits a b) (h2 : Fits b c) : Fits a c := by
  unfold Fits Vm.poolSize at *
  rw [hg.1] at h2
  omega

theorem fits_left (a b c : Vm) (hg2 : Grows b c) (h : Fits a c) : Fits a b := by
  unfold Fits at *
  have := hg2.2.1
  have := hg2.2.2
  omega

theorem fits_right (a b c : Vm) (hg1 : Grows a b) (h : Fits a c) : Fits b c := by
  unfold Fits Vm.poolSize at *
  rw [hg1.1]
  have := hg1.2.1
  have := hg1.2.2
  omega

theorem poolSim_fit {α : Type} (proj : α → Vm) (vm x : Vm) (u p : Except Fault α)
    (hg : Grows vm x) (hf : Fits vm x) (h : PoolSim proj x u p) : PoolSim proj vm u p := by
  unfold PoolSim at *
  split at h
  · next r =>
    obtain ⟨hgr, hcase⟩ := h
    refine ⟨grows_trans _ _ _ hg hgr, ?_⟩
    rcases hcase with ⟨hfr, hp⟩ | ⟨hfr, hp⟩
    · exact Or.inl ⟨fits_trans _ _ _ hg hf hfr, hp⟩
    · exact Or.inr ⟨fun hh => hfr (fits_right _ _ _ hg hh), hp⟩
  · exact h
  · exact h

theorem poolSim_over {α : Type} (proj : α → Vm) (vm x : Vm) (u p : Except Fault α)
    (hg : Grows vm x) (hf : ¬Fits vm x) (h : PoolSim proj x u p) :
    PoolSim proj vm u (.error .undefined) := by
  unfold PoolSim at *
  split at h
  · next r =>
    obtain ⟨hgr, _⟩ := h
    exact ⟨grows_trans _ _ _ hg hgr, Or.inr ⟨fun hh => hf (fits_left _ _ _ hgr hh), rfl⟩⟩
  · rfl
  · exact Or.inr rfl

theorem poolSim_same {α : Type} (proj : α → Vm) (vm : Vm) (r : α) (hg : Grows vm (proj r))
    (hf : Fits vm (proj r)) : PoolSim proj vm (.ok r) (.ok r) :=
  ⟨hg, Or.inl ⟨hf, rfl⟩⟩

theorem poolSim_error {α : Type} (proj : α → Vm) (vm : Vm) (e : Fault) (he : e = .undefined) :
    PoolSim proj vm (.error e) (.error e) := by
  subst he
  rfl

theorem grows_setThread (vm : Vm) (it : Nat) (t : Thread) : Grows vm (vm.setThread it t) :=
  ⟨rfl, by simp [Vm.setThread], Nat.le_refl _⟩

theorem fits_setThread (vm : Vm) (it : Nat) (t : Thread) : Fits vm (vm.setThread it t) :=
  ⟨by simp [Vm.setThread], Nat.le_max_left _ _⟩

theorem executeEpsilon_poolSim (vm : Vm) (it offset : Nat) :
    PoolSim (fun r : Bool × Vm => r.2) vm (_executeEpsilon vm it offset)
      (_executeEpsilonPool vm it offset) := by
  unfold _executeEpsilon _executeEpsilonPool
  cases ht : vm.threadAt it with
  | error e => exact poolSim_error _ vm e (threadAt_error vm it e ht)
  | ok t =>
    dsimp only
    cases hi : fetch vm.Prog.body t.PC with
    | error e => exact poolSim_error _ vm e (fetch_error _ _ e hi)
    | ok instr =>
      dsimp only
      split_ifs with h1 h2 h3 h4 h5
      · exact poolSim_same _ vm _ (grows_setThread vm it _) (fits_setThread vm it _)
      · unfold pushBack
        by_cases hroom : vm.Active.length < vm.poolSize
        · rw [if_pos hroom]
          refine poolSim_same _ vm _ ⟨rfl, ?_, Nat.le_refl _⟩ ⟨?_, Nat.le_max_left _ _⟩
          · simp [Vm.setThread]
          · simp only [Vm.setThread, List.length_set, List.length_append, List.length_singleton]
            omega
        · rw [if_neg hroom]
          refine ⟨⟨rfl, ?_, Nat.le_refl _⟩, Or.inr ⟨?_, rfl⟩⟩
          · simp [Vm.setThread]
          · intro hf
            have := hf.1
            simp only [Vm.setThread, List.length_set, List.length_append,
              List.length_singleton] at this
            omega
      · cases hb : vm.CheckStates[instr.Offset]? with
        | none => rfl
        | some bit =>
          cases bit with
          | true => exact poolSim_same _ vm _ (grows_setThread vm it _) (fits_setThread vm it _)
          | false =>
            exact poolSim_same _ vm _ ⟨rfl, by simp [Vm.setThread], Nat.le_refl _⟩
              ⟨by simp [Vm.setThread], Nat.le_max_left _ _⟩
      · exact poolSim_same _ vm _ (grows_setThread vm it _) (fits_setThread vm it _)
      · exact poolSim_same _ vm _ (grows_setThread vm it _) (fits_setThread vm it _)
      · unfold pushBack
        by_cases hroom : vm.Next.length < vm.poolSize
        · rw [if_pos hroom]
          refine poolSim_same _ vm _ ⟨rfl, Nat.le_refl _, by simp⟩ ⟨Nat.le_max_left _ _, ?_⟩
          simp only [List.length_append, List.length_singleton]
          omega
        · rw [if_neg hroom]
          refine ⟨⟨rfl, Nat.le_refl _, by simp⟩, Or.inr ⟨?_, rfl⟩⟩
          intro hf
          have := hf.2
          simp only [List.length_append, List.length_singleton] at this
          omega

theorem epsilonLoop_poolSim (it offset : Nat) :
    ∀ (fuel : Nat) (vm : Vm),
      PoolSim id vm (epsilonLoop it offset fuel vm) (epsilonLoopPool it offset fuel vm) := by
  intro fuel
  induction fuel with
  | zero => intro vm; exact Or.inl rfl
  | succ n ih =>
    intro vm
    have hstep := executeEpsilon_poolSim vm it offset
    unfold epsilonLoop epsilonLoopPool
    cases hu : _executeEpsilon vm it offset with
    | error e =>
      rw [hu] at hstep
      have he := executeEpsilon_error vm it offset e hu
      subst he
      have hp : _executeEpsilonPool vm it offset = .error .undefined := hstep
      rw [hp]
      rfl
    | ok r =>
      obtain ⟨b, x⟩ := r
      rw [hu] at hstep
      obtain ⟨hg, hcase⟩ := hstep
      rcases hcase with ⟨hf, hp⟩ | ⟨hf, hp⟩
      · rw [hp]
        cases b with
        | true => exact poolSim_fit id vm x _ _ hg hf (ih x)
        | false => exact poolSim_same id vm x hg hf
      · rw [hp]
        cases b with
        | true => exact poolSim_over id vm x _ _ hg hf (ih x)
        | false => exact ⟨hg, Or.inr ⟨hf, rfl⟩⟩

theorem doMatch_next (vm vm1 : Vm) (t : Thread) (hits hits1 : List SearchHit)
    (h : doMatch vm t hits = .ok (vm1, hits1)) : vm1.Next = vm.Next := by
  unfold doMatch at h
  split at h
  · cases h
  · split_ifs at h <;> cases h <;> rfl

theorem matchIfFresh_next (vm vm1 : Vm) (it offset : Nat) (hits hits1 : List SearchHit)
    (h : matchIfFresh vm it offset hits = .ok (vm1, hits1)) : vm1.Next = vm.Next := by
  unfold matchIfFresh at h
  cases ht : vm.threadAt it with
  | error e => rw [ht] at h; cases h
  | ok t =>
    rw [ht] at h
    dsimp only at h
    split_ifs at h
    · exact doMatch_next vm vm1 t hits hits1 h
    · cases h
      rfl

theorem matchIfFresh_poolSim (vm : Vm) (it offset : Nat) (hits : List SearchHit) :
    PoolSim (fun r : Vm × List SearchHit => r.1) vm (matchIfFresh vm it offset hits)
      (matchIfFresh vm it offset hits) := by
  cases h : matchIfFresh vm it offset hits with
  | error e => exact poolSim_error _ vm e (matchIfFresh_error vm it offset hits e h)
  | ok r =>
    obtain ⟨vm1, hits1⟩ := r
    have ha := (matchIfFresh_frame vm vm1 it offset hits hits1 h).1
    have hn := matchIfFresh_next vm vm1 it offset hits hits1 h
    have hp := matchIfFresh_prog vm vm1 it offset hits hits1 h
    refine poolSim_same _ vm _ ⟨hp, ?_, ?_⟩ ⟨?_, ?_⟩
    · show vm.Active.length ≤ vm1.Active.length
      rw [ha]
    · show vm.Next.length ≤ vm1.Next.length
      rw [hn]
    · show vm1.Active.length ≤ _
      rw [ha]
      exact Nat.le_max_left _ _
    · show vm1.Next.length ≤ _
      rw [hn]
      exact Nat.le_max_left _ _

theorem frameThread_poolSim (fuel : Nat) (vm : Vm) (it cur offset : Nat)
    (hits : List SearchHit) :
    PoolSim (fun r : Vm × List SearchHit => r.1) vm (frameThread fuel vm it cur offset hits)
      (frameThreadPool fuel vm it cur offset hits) := by
  unfold frameThread frameThreadPool
  cases ht : vm.threadAt it with
  | error e => exact poolSim_error _ vm e (threadAt_error vm it e ht)
  | ok t =>
    dsimp only
    cases hex : _execute vm.Prog.body t cur with
    | error e => exact poolSim_error _ vm e (execute_error _ _ _ e hex)
    | ok r =>
      obtain ⟨b, t1⟩ := r
      cases b with
      | false => exact poolSim_same _ vm _ (grows_setThread vm it t1) (fits_setThread vm it t1)
      | true =>
        dsimp only
        have hsim := epsilonLoop_poolSim it offset fuel (vm.setThread it t1)
        have hg0 := grows_setThread vm it t1
        have hf0 := fits_setThread vm it t1
        cases hu : epsilonLoop it offset fuel (vm.setThread it t1) with
        | error e =>
          rw [hu] at hsim
          cases e with
          | undefined =>
            have hp : epsilonLoopPool it offset fuel (vm.setThread it t1) = .error .undefined :=
              hsim
            rw [hp]
            rfl
          | fuel =>
            have hp : epsilonLoopPool it offset fuel (vm.setThread it t1) = .error .fuel ∨
                epsilonLoopPool it offset fuel (vm.setThread it t1) = .error .undefined := hsim
            rcases hp with hp | hp <;> rw [hp]
            · exact Or.inl rfl
            · exact Or.inr rfl
        | ok vm1 =>
          rw [hu] at hsim
          obtain ⟨hg, hcase⟩ := hsim
          dsimp only [id] at hg hcase
          rcases hcase with ⟨hf, hp⟩ | ⟨hf, hp⟩
          · rw [hp]
            exact poolSim_fit _ vm vm1 _ _ (grows_trans _ _ _ hg0 hg)
              (fits_trans _ _ _ hg0 hf0 hf) (matchIfFresh_poolSim vm1 it offset hits)
          · rw [hp]
            exact poolSim_over _ vm vm1 _ _ (grows_trans _ _ _ hg0 hg)
              (fun hh => hf (fits_right _ _ _ hg0 hh)) (matchIfFresh_poolSim vm1 it offset hits)

theorem frameWalk_poolSim (fuel cur offset : Nat) :
    ∀ (n : Nat) (vm : Vm) (it : Nat) (hits : List SearchHit),
      PoolSim (fun r : Vm × Nat × List SearchHit => r.1) vm
        (frameWalk fuel cur offset n vm it hits) (frameWalkPool fuel cur offset n vm it hits) := by
  intro n
  induction n with
  | zero => intro vm it hits; exact Or.inl rfl
  | succ n ih =>
    intro vm it hits
    unfold frameWalk frameWalkPool
    split_ifs with hend
    · have hsim := frameThread_poolSim fuel vm it cur offset hits
      cases hu : frameThread fuel vm it cur offset hits with
      | error e =>
        rw [hu] at hsim
        cases e with
        | undefined =>
          have hp : frameThreadPool fuel vm it cur offset hits = .error .undefined := hsim
          rw [hp]
          rfl
        | fuel =>
          have hp : frameThreadPool fuel vm it cur offset hits = .error .fuel ∨
              frameThreadPool fuel vm it cur offset hits = .error .undefined := hsim
          rcases hp with hp | hp <;> rw [hp]
          · exact Or.inl rfl
          · exact Or.inr rfl
      | ok r =>
        obtain ⟨x, hits1⟩ := r
        rw [hu] at hsim
        obtain ⟨hg, hcase⟩ := hsim
        rcases hcase with ⟨hf, hp⟩ | ⟨hf, hp⟩
        · rw [hp]
          exact poolSim_fit _ vm x _ _ hg hf (ih x (it + 1) hits1)
        · rw [hp]
          exact poolSim_over _ vm x _ _ hg hf (ih x (it + 1) hits1)
    · exact poolSim_same _ vm _ (grows_refl vm) (fits_refl vm)

theorem frameDoWhile_poolSim (fuel cur offset : Nat) :
    ∀ (n : Nat) (vm : Vm) (it : Nat) (hits : List SearchHit),
      PoolSim (fun r : Vm × Nat × List SearchHit => r.1) vm
        (frameDoWhile fuel cur offset n vm it hits)
        (frameDoWhilePool fuel cur offset n vm it hits) := by
  intro n
  induction n with
  | zero => intro vm it hits; exact Or.inl rfl
  | succ n ih =>
    intro vm it hits
    unfold frameDoWhile frameDoWhilePool
    have hsim := frameThread_poolSim fuel vm it cur offset hits
    cases hu : frameThread fuel vm it cur offset hits with
    | error e =>
      rw [hu] at hsim
      cases e with
      | undefined =>
        have hp : frameThreadPool fuel vm it cur offset hits = .error .undefined := hsim
        rw [hp]
        rfl
      | fuel =>
        have hp : frameThreadPool fuel vm it cur offset hits = .error .fuel ∨
            frameThreadPool fuel vm it cur offset hits = .error .undefined := hsim
        rcases hp with hp | hp <;> rw [hp]
        · exact Or.inl rfl
        · exact Or.inr rfl
    | ok r =>
      obtain ⟨x, hits1⟩ := r
      rw [hu] at hsim
      obtain ⟨hg, hcase⟩ := hsim
      rcases hcase with ⟨hf, hp⟩ | ⟨hf, hp⟩
      · rw [hp]
        dsimp only
        split_ifs with hend
        · exact poolSim_fit _ vm x _ _ hg hf (ih x (it + 1) hits1)
        · exact poolSim_same _ vm _ hg hf
      · rw [hp]
        dsimp only
        split_ifs with hend
        · exact poolSim_over _ vm x _ _ hg hf (ih x (it + 1) hits1)
        · exact ⟨hg, Or.inr ⟨hf, rfl⟩⟩

theorem executeFrame_poolSim_it (fuel first : Nat) (vm : Vm) (it cur offset : Nat)
    (hits : List SearchHit) :
    PoolSim (fun r : Vm × Nat × List SearchHit => r.1) vm
      (_executeFrame fuel first vm it cur offset hits)
      (_executeFramePool fuel first vm it cur offset hits) := by
  unfold _executeFrame _executeFramePool
  have hsim := frameWalk_poolSim fuel cur offset fuel vm it hits
  cases hu : frameWalk fuel cur offset fuel vm it hits with
  | error e =>
    rw [hu] at hsim
    cases e with
    | undefined =>
      have hp : frameWalkPool fuel cur offset fuel vm it hits = .error .undefined := hsim
      rw [hp]
      rfl
    | fuel =>
      have hp : frameWalkPool fuel cur offset fuel vm it hits = .error .fuel ∨
          frameWalkPool fuel cur offset fuel vm it hits = .error .undefined := hsim
      rcases hp with hp | hp <;> rw [hp]
      · exact Or.inl rfl
      · exact Or.inr rfl
  | ok r =>
    obtain ⟨x, it1, hits1⟩ := r
    rw [hu] at hsim
    obtain ⟨hg, hcase⟩ := hsim
    dsimp only at hg hcase ⊢
    have hcold : PoolSim (fun r : Vm × Nat × List SearchHit => r.1) x
        (if first.testBit cur = true then
          frameDoWhile fuel cur offset fuel
            { x with Active := x.Active ++ [Thread.init offset] } it1 hits1
        else .ok (x, it1, hits1))
        (if first.testBit cur = true then
          match pushBack x.poolSize x.Active (Thread.init offset) with
          | .error e => .error e
          | .ok active => frameDoWhilePool fuel cur offset fuel { x with Active := active } it1 hits1
        else .ok (x, it1, hits1)) := by
      split_ifs with hfirst
      · have hgx : Grows x { x with Active := x.Active ++ [Thread.init offset] } :=
          ⟨rfl, by simp, Nat.le_refl _⟩
        have hd := frameDoWhile_poolSim fuel cur offset fuel
          { x with Active := x.Active ++ [Thread.init offset] } it1 hits1
        unfold pushBack
        by_cases hroom : x.Active.length < x.poolSize
        · rw [if_pos hroom]
          dsimp only
          refine poolSim_fit _ x _ _ _ hgx ⟨?_, Nat.le_max_left _ _⟩ hd
          simp only [List.length_append, List.length_singleton]
          omega
        · rw [if_neg hroom]
          dsimp only
          refine poolSim_over _ x _ _ _ hgx ?_ hd
          intro hf
          have := hf.1
          simp only [List.length_append, List.length_singleton] at this
          omega
      · exact poolSim_same _ x _ (grows_refl x) (fits_refl x)
    rcases hcase with ⟨hf, hp⟩ | ⟨hf, hp⟩
    · rw [hp]
      exact poolSim_fit _ vm x _ _ hg hf hcold
    · rw [hp]
      exact poolSim_over _ vm x _ _ hg hf hcold

theorem executeFrame_poolSim (fuel : Nat) (vm : Vm) (cur offset : Nat)
    (hits : List SearchHit) :
    PoolSim (fun r : Vm × List SearchHit => r.1) vm (vm.executeFrame fuel cur offset hits)
      (vm.executeFramePool fuel cur offset hits) := by
  have hsim := executeFrame_poolSim_it fuel vm.Prog.First vm 0 cur offset hits
  unfold Vm.executeFrame Vm.executeFramePool
  cases hu : _executeFrame fuel vm.Prog.First vm 0 cur offset hits with
  | error e =>
    rw [hu] at hsim
    cases e with
    | undefined =>
      have hp : _executeFramePool fuel vm.Prog.First vm 0 cur offset hits = .error .undefined :=
        hsim
      rw [hp]
      rfl
    | fuel =>
      have hp : _executeFramePool fuel vm.Prog.First vm 0 cur offset hits = .error .fuel ∨
          _executeFramePool fuel vm.Prog.First vm 0 cur offset hits = .error .undefined := hsim
      rcases hp with hp | hp <;> rw [hp]
      · exact Or.inl rfl
      · exact Or.inr rfl
  | ok r =>
    obtain ⟨x, it1, hits1⟩ := r
    rw [hu] at hsim
    obtain ⟨hg, hcase⟩ := hsim
    rcases hcase with ⟨hf, hp⟩ | ⟨hf, hp⟩
    · rw [hp]
      exact poolSim_same _ vm _ hg hf
    · rw [hp]
      exact ⟨hg, Or.inr ⟨hf, rfl⟩⟩

/-- What `PoolSim` says of a run on fixed pools that returns. -/
theorem poolSim_ok {α : Type} (proj : α → Vm) (vm : Vm) (u p : Except Fault α) (r : α)
    (h : PoolSim proj vm u p) (hp : p = .ok r) : u = .ok r ∧ Grows vm (proj r) ∧ Fits vm (proj r) := by
  unfold PoolSim at h
  split at h
  · next r1 =>
    obtain ⟨hg, hcase⟩ := h
    rcases hcase with ⟨hf, hp1⟩ | ⟨_, hp1⟩
    · rw [hp] at hp1
      cases hp1
      exact ⟨rfl, hg, hf⟩
    · rw [hp] at hp1
      cases hp1
  · rw [hp] at h
    cases h
  · rw [hp] at h
    rcases h with h | h <;> cases h

theorem poolSim_fuel {α : Type} (proj : α → Vm) (vm : Vm) (u p : Except Fault α)
    (h : PoolSim proj vm u p) (hp : p = .error .fuel) : u = .error .fuel := by
  unfold PoolSim at h
  split at h
  · obtain ⟨_, hcase⟩ := h
    rcases hcase with ⟨_, hp1⟩ | ⟨_, hp1⟩ <;> rw [hp] at hp1 <;> cases hp1
  · rw [hp] at h
    cases h
  · rfl

theorem poolSim_of_ok {α : Type} (proj : α → Vm) (vm : Vm) (u p : Except Fault α) (r : α)
    (h : PoolSim proj vm u p) (hu : u = .ok r) :
    (Fits vm (proj r) → p = .ok r) ∧ (¬Fits vm (proj r) → p = .error .undefined) := by
  subst hu
  obtain ⟨_, hcase⟩ := h
  rcases hcase with ⟨hf, hp⟩ | ⟨hf, hp⟩
  · exact ⟨fun _ => hp, fun hn => absurd hf hn⟩
  · exact ⟨fun hh => absurd hh hf, fun _ => hp⟩

theorem frameThread_ok_lt (fuel : Nat) (vm vm1 : Vm) (it cur offset : Nat)
    (hits hits1 : List SearchHit)
    (h : frameThread fuel vm it cur offset hits = .ok (vm1, hits1)) : it < vm.Active.length := by
  unfold frameThread at h
  cases ht : vm.threadAt it with
  | error e => rw [ht] at h; cases h
  | ok t => exact threadAt_lt vm it t ht

theorem frameThread_level (prog : List Instruction) (rank : Nat → Nat)
    (hL : ∀ i, rank i ≤ prog.length)
    (hr : ∀ i j, freeStep prog i j → rank j < rank i)
    (vm : Vm) (it cur offset : Nat) (hits : List SearchHit)
    (hprog : vm.Prog.body = prog) (fuel : Nat)
    (hfuel : vm.CheckStates.count false * (prog.length + 1) + prog.length + 1 ≤ fuel) :
    frameThread fuel vm it cur offset hits ≠ .error .fuel ∧
    ∀ vm1 hits1, frameThread fuel vm it cur offset hits = .ok (vm1, hits1) →
      vm1.CheckStates.count false ≤ vm.CheckStates.count false := by
  unfold frameThread
  cases ht : vm.threadAt it with
  | error e =>
    dsimp only
    rw [threadAt_error vm it e ht]
    exact ⟨(fun hh => by cases hh), (fun vm1 hits1 hh => by cases hh)⟩
  | ok t =>
    have hlt := threadAt_lt vm it t ht
    dsimp only
    cases hex : _execute vm.Prog.body t cur with
    | error e =>
      dsimp only
      rw [execute_error _ _ _ _ hex]
      exact ⟨(fun hh => by cases hh), (fun vm1 hits1 hh => by cases hh)⟩
    | ok r =>
      obtain ⟨b, t1⟩ := r
      cases b with
      | false =>
        dsimp only
        refine ⟨(fun hh => by cases hh), fun vm1 hits1 hh => ?_⟩
        cases hh
        exact Nat.le_refl _
      | true =>
        dsimp only
        obtain ⟨pc, pc1, _, _, hpc1, _⟩ := execute_true _ _ _ _ hex
        have hrk := hL pc1
        obtain ⟨hne, hok⟩ := epsilonLoop_level prog rank hL hr
          (vm.CheckStates.count false * (prog.length + 1) + prog.length)
          (vm.setThread it t1) it offset t1 pc1 hprog (threadAt_setThread vm it t1 hlt) hpc1
          (by show vm.CheckStates.count false * (prog.length + 1) + rank pc1 ≤ _; omega)
          fuel hfuel
        cases hloop : epsilonLoop it offset fuel (vm.setThread it t1) with
        | error e =>
          dsimp only
          refine ⟨fun hh => ?_, fun vm1 hits1 hh => by cases hh⟩
          cases hh
          exact hne hloop
        | ok vm1 =>
          dsimp only
          obtain ⟨_, hcnt, _⟩ := hok vm1 hloop
          refine ⟨fun hh => ?_, fun vm2 hits2 hh => ?_⟩
          · have := matchIfFresh_error _ _ _ _ _ hh
            cases this
          · rw [(matchIfFresh_frame _ _ _ _ _ _ hh).2]
            exact hcnt

theorem frameThreadPool_level (prog : List Instruction) (rank : Nat → Nat)
    (hL : ∀ i, rank i ≤ prog.length)
    (hr : ∀ i j, freeStep prog i j → rank j < rank i)
    (vm : Vm) (it cur offset : Nat) (hits : List SearchHit)
    (hprog : vm.Prog.body = prog) (fuel : Nat)
    (hfuel : vm.CheckStates.count false * (prog.length + 1) + prog.length + 1 ≤ fuel) :
    frameThreadPool fuel vm it cur offset hits ≠ .error .fuel ∧
    ∀ vm1 hits1, frameThreadPool fuel vm it cur offset hits = .ok (vm1, hits1) →
      vm1.CheckStates.count false ≤ vm.CheckStates.count false ∧ it < vm.Active.length ∧
      Grows vm vm1 ∧ Fits vm vm1 := by
  have hsim := frameThread_poolSim fuel vm it cur offset hits
  obtain ⟨hne, hok⟩ := frameThread_level prog rank hL hr vm it cur offset hits hprog fuel hfuel
  refine ⟨fun hh => hne (poolSim_fuel _ vm _ _ hsim hh), fun vm1 hits1 hh => ?_⟩
  obtain ⟨hu, hg, hf⟩ := poolSim_ok _ vm _ _ (vm1, hits1) hsim hh
  exact ⟨hok vm1 hits1 hu, frameThread_ok_lt _ _ _ _ _ _ _ _ hu, hg, hf⟩

theorem frameWalkPool_ends (prog : List Instruction) (cur offset : Nat) (rank : Nat → Nat)
    (hL : ∀ i, rank i ≤ prog.length)
    (hr : ∀ i j, freeStep prog i j → rank j < rank i)
    (B M fuel : Nat) (hfuel : B * (prog.length + 1) + prog.length + 1 ≤ fuel) :
    ∀ (k : Nat) (vm : Vm) (it : Nat) (hits : List SearchHit),
      vm.Prog.body = prog → vm.CheckStates.count false ≤ B →
      max vm.Active.length prog.length ≤ M → M - it ≤ k →
      ∀ w, k + 1 ≤ w →
        frameWalkPool fuel cur offset w vm it hits ≠ .error .fuel ∧
        ∀ vm1 it1 hits1, frameWalkPool fuel cur offset w vm it hits = .ok (vm1, it1, hits1) →
          vm1.CheckStates.count false ≤ vm.CheckStates.count false := by
  intro k
  induction k with
  | zero =>
    intro vm it hits hprog hB hM hk w hw
    obtain ⟨w1, rfl⟩ : ∃ w1, w = w1 + 1 := ⟨w - 1, by omega⟩
    unfold frameWalkPool
    have hC := level_mono prog.length B _ prog.length hB
    obtain ⟨hne, hok⟩ := frameThreadPool_level prog rank hL hr vm it cur offset hits hprog
      fuel (by omega)
    split_ifs with hend
    · cases hft : frameThreadPool fuel vm it cur offset hits with
      | error e =>
        dsimp only
        refine ⟨fun hh => ?_, fun vm1 it1 hits1 hh => by cases hh⟩
        cases hh
        exact hne hft
      | ok r =>
        obtain ⟨x, hits1⟩ := r
        have := (hok x hits1 hft).2.1
        omega
    · refine ⟨(fun hh => by cases hh), fun vm1 it1 hits1 hh => ?_⟩
      cases hh
      exact Nat.le_refl _
  | succ k ih =>
    intro vm it hits hprog hB hM hk w hw
    obtain ⟨w1, rfl⟩ : ∃ w1, w = w1 + 1 := ⟨w - 1, by omega⟩
    unfold frameWalkPool
    have hC := level_mono prog.length B _ prog.length hB
    obtain ⟨hne, hok⟩ := frameThreadPool_level prog rank hL hr vm it cur offset hits hprog
      fuel (by omega)
    split_ifs with hend
    · cases hft : frameThreadPool fuel vm it cur offset hits with
      | error e =>
        dsimp only
        refine ⟨fun hh => ?_, fun vm1 it1 hits1 hh => by cases hh⟩
        cases hh
        exact hne hft
      | ok r =>
        obtain ⟨x, hits1⟩ := r
        dsimp only
        obtain ⟨hcnt, hlt, hg, hf⟩ := hok x hits1 hft
        have hpx : x.Prog.body = prog := by rw [hg.1]; exact hprog
        have hMx : max x.Active.length prog.length ≤ M := by
          have := hf.1
          unfold Vm.poolSize at this
          rw [hprog] at this
          omega
        obtain ⟨hne2, hok2⟩ := ih x (it + 1) hits1 hpx (hcnt.trans hB) hMx (by omega) w1
          (by omega)
        exact ⟨hne2, fun vm1 it1 hits2 hh => (hok2 vm1 it1 hits2 hh).trans hcnt⟩
    · refine ⟨(fun hh => by cases hh), fun vm1 it1 hits1 hh => ?_⟩
      cases hh
      exact Nat.le_refl _

theorem frameDoWhilePool_ends (prog : List Instruction) (cur offset : Nat) (rank : Nat → Nat)
    (hL : ∀ i, rank i ≤ prog.length)
    (hr : ∀ i j, freeStep prog i j → rank j < rank i)
    (B M fuel : Nat) (hfuel : B * (prog.length + 1) + prog.length + 1 ≤ fuel) :
    ∀ (k : Nat) (vm : Vm) (it : Nat) (hits : List SearchHit),
      vm.Prog.body = prog → vm.CheckStates.count false ≤ B →
      max vm.Active.length prog.length ≤ M → M - it ≤ k →
      ∀ w, k + 1 ≤ w → frameDoWhilePool fuel cur offset w vm it hits ≠ .error .fuel := by
  intro k
  induction k with
  | zero =>
    intro vm it hits hprog hB hM hk w hw
    obtain ⟨w1, rfl⟩ : ∃ w1, w = w1 + 1 := ⟨w - 1, by omega⟩
    unfold frameDoWhilePool
    have hC := level_mono prog.length B _ prog.length hB
    obtain ⟨hne, hok⟩ := frameThreadPool_level prog rank hL hr vm it cur offset hits hprog
      fuel (by omega)
    cases hft : frameThreadPool fuel vm it cur offset hits with
    | error e =>
      dsimp only
      intro hh
      cases hh
      exact hne hft
    | ok r =>
      obtain ⟨x, hits1⟩ := r
      have := (hok x hits1 hft).2.1
      omega
  | succ k ih =>
    intro vm it hits hprog hB hM hk w hw
    obtain ⟨w1, rfl⟩ : ∃ w1, w = w1 + 1 := ⟨w - 1, by omega⟩
    unfold frameDoWhilePool
    have hC := level_mono prog.length B _ prog.length hB
    obtain ⟨hne, hok⟩ := frameThreadPool_level prog rank hL hr vm it cur offset hits hprog
      fuel (by omega)
    cases hft : frameThreadPool fuel vm it cur offset hits with
    | error e =>
      dsimp only
      intro hh
      cases hh
      exact hne hft
    | ok r =>
      obtain ⟨x, hits1⟩ := r
      dsimp only
      obtain ⟨hcnt, hlt, hg, hf⟩ := hok x hits1 hft
      have hpx : x.Prog.body = prog := by rw [hg.1]; exact hprog
      have hMx : max x.Active.length prog.length ≤ M := by
        have := hf.1
        unfold Vm.poolSize at this
        rw [hprog] at this
        omega
      split_ifs with hend
      · exact ih x (it + 1) hits1 hpx (hcnt.trans hB) hMx (by omega) w1 (by omega)
      · intro hh
        cases hh

theorem executeFramePool_ends (vm : Vm) (cur offset : Nat) (hits : List SearchHit)
    (hc : CheckCovered vm.Prog.body) :
    ∃ N, ∀ fuel, N ≤ fuel → vm.executeFramePool fuel cur offset hits ≠ .error .fuel := by
  obtain ⟨rank, hL, hr⟩ := free_rank vm.Prog.body hc
  refine ⟨vm.CheckStates.count false * (vm.Prog.body.length + 1) + vm.Prog.body.length + 1
    + max vm.Active.length vm.Prog.body.length + 1, fun fuel hfuel => ?_⟩
  obtain ⟨hne, hok⟩ := frameWalkPool_ends vm.Prog.body cur offset rank hL hr
    (vm.CheckStates.count false) (max vm.Active.length vm.Prog.body.length) fuel (by omega)
    (max vm.Active.length vm.Prog.body.length) vm 0 hits rfl (Nat.le_refl _) (Nat.le_refl _)
    (by omega) fuel (by omega)
  have hsim := frameWalk_poolSim fuel cur offset fuel vm 0 hits
  unfold Vm.executeFramePool _executeFramePool
  cases hw : frameWalkPool fuel cur offset fuel vm 0 hits with
  | error e =>
    dsimp only
    intro hh
    cases hh
    exact hne hw
  | ok r =>
    obtain ⟨x, it1, hits1⟩ := r
    dsimp only
    have hcnt := hok x it1 hits1 hw
    obtain ⟨_, hg, hf⟩ := poolSim_ok _ vm _ _ (x, it1, hits1) hsim hw
    have hpx : x.Prog.body = vm.Prog.body := by rw [hg.1]
    split_ifs with hfirst
    · unfold pushBack
      by_cases hroom : x.Active.length < x.poolSize
      · rw [if_pos hroom]
        dsimp only
        have hd := frameDoWhilePool_ends vm.Prog.body cur offset rank hL hr
          (vm.CheckStates.count false) (max vm.Active.length vm.Prog.body.length) fuel
          (by omega) (max vm.Active.length vm.Prog.body.length)
          { x with Active := x.Active ++ [Thread.init offset] } it1 hits1 hpx hcnt
          (by
            show max (x.Active ++ [Thread.init offset]).length _ ≤ _
            unfold Vm.poolSize at hroom
            rw [hpx] at hroom
            simp only [List.length_append, List.length_singleton]
            omega)
          (by omega) fuel (by omega)
        cases hdw : frameDoWhilePool fuel cur offset fuel
            { x with Active := x.Active ++ [Thread.init offset] } it1 hits1 with
        | error e =>
          dsimp only
          intro hh
          cases hh
          exact hd hdw
        | ok r2 =>
          intro hh
          cases hh
      · rw [if_neg hroom]
        intro hh
        cases hh
    · intro hh
      cases hh

/-! ## A covered loop through a literal -/

theorem no_cycle_of_rank (R : Nat → Nat → Prop) (f : Nat → Nat)
    (h : ∀ a b, R a b → f b < f a) (i : Nat) : ¬Relation.TransGen R i i := by
  have key : ∀ a b, Relation.TransGen R a b → f b < f a := by
    intro a b hab
    induction hab with
    | single hs => exact h _ _ hs
    | tail _ hs ih => exact Nat.lt_trans (h _ _ hs) ih
  intro hi
  exact Nat.lt_irrefl _ (key i i hi)

theorem checkedFork_eps (a b : Nat) (h : epsSucc (checkedForkProgram 97).body a b) :
    (a = 1 ∧ b = 2) ∨ (a = 2 ∧ (b = 0 ∨ b = 3)) := by
  obtain ⟨instr, hi, hcase⟩ := h
  match a, hi with
  | 0, hi =>
    simp only [checkedForkProgram, List.getElem?_cons_zero, Option.some.injEq] at hi
    subst hi
    simp [Instruction.makeLit] at hcase
  | 1, hi =>
    simp only [checkedForkProgram, List.getElem?_cons_succ, List.getElem?_cons_zero,
      Option.some.injEq] at hi
    subst hi
    simp at hcase
    exact Or.inl ⟨rfl, hcase⟩
  | 2, hi =>
    simp only [checkedForkProgram, List.getElem?_cons_succ, List.getElem?_cons_zero,
      Option.some.injEq] at hi
    subst hi
    simp [Instruction.Offset] at hcase
    exact Or.inr ⟨rfl, hcase⟩
  | 3, hi =>
    simp only [checkedForkProgram, List.getElem?_cons_succ, List.getElem?_cons_zero,
      Option.some.injEq] at hi
    subst hi
    simp [haltInstruction] at hcase
  | n + 4, hi =>
    simp [checkedForkProgram] at hi

theorem checkedFork_check : CheckNode (checkedForkProgram 97).body 1 :=
  ⟨{ OpCode := CHECK_HALT_OP, Size := 0, Op := 1 }, rfl, rfl, by decide⟩

theorem checkedFork_covered : CheckCovered (checkedForkProgram 97).body := by
  apply no_cycle_of_rank _ (fun i => if i = 2 then 1 else 0)
  intro a b h
  rcases checkedFork_eps a b h.1 with ⟨ha, _⟩ | ⟨ha, hb⟩
  · subst ha
    exact absurd checkedFork_check h.2
  · subst ha
    rcases hb with rfl | rfl <;> decide

theorem checkedFork_valid : EpsilonValid checkedForkVm := by
  constructor
  · intro i j h
    show j < 4
    rcases checkedFork_eps i j h with ⟨_, hj⟩ | ⟨_, hj⟩ <;> omega
  · intro instr hmem hop
    have hm : instr ∈ (checkedForkProgram 97).body := hmem
    simp only [checkedForkProgram, List.mem_cons, List.mem_singleton, List.not_mem_nil,
      or_false] at hm
    rcases hm with rfl | rfl | rfl | rfl
    · exact absurd hop (by decide)
    · show 1 % 2 ^ 24 < 3
      decide
    · exact absurd hop (by decide)
    · exact absurd hop (by decide)

theorem epsilonLoopPool_selfJump : ∀ fuel, epsilonLoopPool 0 0 fuel selfJumpVm = .error .fuel := by
  intro fuel
  induction fuel with
  | zero => rfl
  | succ n ih =>
    have hstep : _executeEpsilonPool selfJumpVm 0 0 = .ok (true, selfJumpVm) := rfl
    unfold epsilonLoopPool
    rw [hstep]
    exact ih

/-- C21, as stated, fails: the program `[LIT 'a', FORK 0, HALT]` has valid
offsets and no cycle of epsilon steps at all, yet `executeFrame` for the byte
'a' on a freshly initialised machine does not return, whatever the loop budget:
the thread forked back to the LIT is stepped by `_execute` in the same frame,
consumes the same byte and forks again, and the third FORK pushes onto the full
pool of three slots. -/
theorem frame_fork_through_literal_overruns :
    CheckCovered (forkBackProgram 97).body ∧ EpsilonValid (Vm.new (forkBackProgram 97)) ∧
    (Vm.new (forkBackProgram 97)).poolSize = 3 ∧
    (∀ fuel r, (Vm.new (forkBackProgram 97)).executeFramePool fuel 97 0 [] ≠ .ok r) ∧
    (Vm.new (forkBackProgram 97)).executeFramePool 8 97 0 [] = .error .undefined := by
  refine ⟨forkBack_covered, forkBack_valid, rfl, ?_, rfl⟩
  intro fuel r hp
  have hu := (poolSim_ok _ _ _ _ r
    (executeFrame_poolSim fuel (Vm.new (forkBackProgram 97)) 97 0 []) hp).1
  rw [forkBack_frame fuel] at hu
  cases hu

/-- C21 (amended): for every program in which every cycle of the epsilon
successor relation passes through a CHECK_HALT with id at least 1, neither the
closure loop `while (_executeEpsilon(...)) ;` on a thread nor `executeFrame`
runs without end, from any state: some loop budget `N` is never used up. Each
returns only what it returns on unbounded pools, and only when that leaves no
more threads in `Active` and `Next` than were there or than the pools have
slots; a result on unbounded pools that does not fit is a push onto a full
pool. The closure loop on unbounded pools returns whenever the epsilon
successors and the CHECK_HALT ids are valid indices and the thread's PC is an
index into the program. Without the condition the closure loop need not end:
on `[JUMP 0]` it uses up every budget. -/
theorem epsilon_closure_terminates (vm : Vm) (it cur offset : Nat) (hits : List SearchHit)
    (hc : CheckCovered vm.Prog.body) :
    (∃ N, ∀ fuel, N ≤ fuel →
      epsilonLoopPool it offset fuel vm ≠ .error .fuel ∧
      (EpsilonValid vm →
        (∃ t i, vm.threadAt it = .ok t ∧ t.PC = some i ∧ i < vm.Prog.body.length) →
        ∃ vm1, epsilonLoop it offset fuel vm = .ok vm1)) ∧
    (∃ N, ∀ fuel, N ≤ fuel → vm.executeFramePool fuel cur offset hits ≠ .error .fuel) ∧
    (∀ fuel vm1, epsilonLoopPool it offset fuel vm = .ok vm1 →
      epsilonLoop it offset fuel vm = .ok vm1 ∧ Fits vm vm1) ∧
    (∀ fuel vm1, epsilonLoop it offset fuel vm = .ok vm1 →
      (Fits vm vm1 → epsilonLoopPool it offset fuel vm = .ok vm1) ∧
      (¬Fits vm vm1 → epsilonLoopPool it offset fuel vm = .error .undefined)) ∧
    (∀ fuel vm1 hits1, vm.executeFramePool fuel cur offset hits = .ok (vm1, hits1) →
      vm.executeFrame fuel cur offset hits = .ok (vm1, hits1) ∧ Fits vm vm1) ∧
    (∀ fuel vm1 hits1, vm.executeFrame fuel cur offset hits = .ok (vm1, hits1) →
      (Fits vm vm1 → vm.executeFramePool fuel cur offset hits = .ok (vm1, hits1)) ∧
      (¬Fits vm vm1 → vm.executeFramePool fuel cur offset hits = .error .undefined)) ∧
    (¬CheckCovered selfJumpVm.Prog.body ∧
      ∀ fuel, epsilonLoopPool 0 0 fuel selfJumpVm = .error .fuel) := by
  refine ⟨?_, executeFramePool_ends vm cur offset hits hc, ?_, ?_, ?_, ?_,
    selfJump_not_covered, epsilonLoopPool_selfJump⟩
  · have hclosure : ∃ N, ∀ fuel, N ≤ fuel →
        epsilonLoop it offset fuel vm ≠ .error .fuel ∧
        (EpsilonValid vm →
          (∃ t i, vm.threadAt it = .ok t ∧ t.PC = some i ∧ i < vm.Prog.body.length) →
          ∃ vm1, epsilonLoop it offset fuel vm = .ok vm1) := by
      cases ht : vm.threadAt it with
      | error e =>
        refine ⟨1, fun fuel hf => ?_⟩
        obtain ⟨f, rfl⟩ : ∃ f, fuel = f + 1 := ⟨fuel - 1, by omega⟩
        have hstep : _executeEpsilon vm it offset = .error e := by
          unfold _executeEpsilon
          rw [ht]
        rw [epsilonLoop_error vm it offset f e hstep, threadAt_error vm it e ht]
        refine ⟨(fun h => by cases h), ?_⟩
        rintro _ ⟨t, i, h, _⟩
        cases h
      | ok t =>
        cases hpc : t.PC with
        | none =>
          refine ⟨1, fun fuel hf => ?_⟩
          obtain ⟨f, rfl⟩ : ∃ f, fuel = f + 1 := ⟨fuel - 1, by omega⟩
          have hstep : _executeEpsilon vm it offset = .error .undefined := by
            unfold _executeEpsilon
            rw [ht]
            dsimp only
            rw [hpc]
            rfl
          rw [epsilonLoop_error vm it offset f _ hstep]
          refine ⟨(fun h => by cases h), ?_⟩
          rintro _ ⟨t2, i, h, hp, _⟩
          cases h
          rw [hpc] at hp
          cases hp
        | some i =>
          obtain ⟨N, hN⟩ := closure_bound vm.Prog.body hc (vm.CheckStates.count false) i
          refine ⟨N, fun fuel hf => ?_⟩
          obtain ⟨h1, _, h3⟩ := hN vm it offset t rfl ht hpc (Nat.le_refl _) fuel hf
          refine ⟨h1, ?_⟩
          rintro hvalid ⟨t2, i2, h, hp, hlt⟩
          cases h
          rw [hpc] at hp
          cases hp
          exact h3 hvalid hlt
    obtain ⟨N, hN⟩ := hclosure
    refine ⟨N, fun fuel hf => ⟨fun hp => ?_, (hN fuel hf).2⟩⟩
    exact (hN fuel hf).1 (poolSim_fuel _ vm _ _ (epsilonLoop_poolSim it offset fuel vm) hp)
  · intro fuel vm1 hp
    have h := poolSim_ok _ vm _ _ vm1 (epsilonLoop_poolSim it offset fuel vm) hp
    exact ⟨h.1, h.2.2⟩
  · intro fuel vm1 hu
    exact poolSim_of_ok _ vm _ _ vm1 (epsilonLoop_poolSim it offset fuel vm) hu
  · intro fuel vm1 hits1 hp
    have h := poolSim_ok _ vm _ _ (vm1, hits1) (executeFrame_poolSim fuel vm cur offset hits) hp
    exact ⟨h.1, h.2.2⟩
  · intro fuel vm1 hits1 hu
    exact poolSim_of_ok _ vm _ _ (vm1, hits1) (executeFrame_poolSim fuel vm cur offset hits) hu

theorem epsilon_closure_terminates_witness :
    CheckCovered checkedForkVm.Prog.body ∧ EpsilonValid checkedForkVm ∧
    checkedForkVm.poolSize = 4 ∧
    (∃ vm1, epsilonLoopPool 0 0 4 checkedForkVm = .ok vm1 ∧ vm1.Active.length = 2) ∧
    (∃ vm1 hits1, checkedForkVm.executeFramePool 8 97 0 [] = .ok (vm1, hits1) ∧
      vm1.Active.length = 3) ∧
    (∃ N, ∀ fuel, N ≤ fuel →
      epsilonLoopPool 0 0 fuel checkedForkVm ≠ .error .fuel ∧
      (EpsilonValid checkedForkVm →
        (∃ t i, checkedForkVm.threadAt 0 = .ok t ∧ t.PC = some i ∧
          i < checkedForkVm.Prog.body.length) →
        ∃ vm1, epsilonLoop 0 0 fuel checkedForkVm = .ok vm1)) ∧
    (∃ N, ∀ fuel, N ≤ fuel → checkedForkVm.executeFramePool fuel 97 0 [] ≠ .error .fuel) :=
  have h := epsilon_closure_terminates checkedForkVm 0 97 0 [] checkedFork_covered
  ⟨checkedFork_covered, checkedFork_valid, rfl, ⟨_, rfl, rfl⟩, ⟨_, _, rfl, rfl⟩, h.1, h.2.1⟩

end Lightgrep
